import Mathlib

/-!
# Verification of the maze core (maze.js, astar-worker.js, bfs-worker.js)

Shallow embedding of the grid model, dead-end maintainer, traversal state
machine, maze generator, and the two search workers, together with theorems
settling the specification claims.

Conventions:
* JS `state.maze[y][x]` is modelled as a total function `Maze := Int → Int → MazeCell`
  applied as `m x y`.  All code paths of the source guard grid accesses with
  bounds checks, so the total-function representation agrees with the arrays
  wherever the source reads them.
* JS numbers used as coordinates are modelled as `Int`; counters and scores,
  which are only ever incremented by positive integer amounts, as `Nat`.
* `Math.random()` is modelled as a stream `Nat → ℚ` of draws in `[0,1)`,
  consumed in exactly the order the source draws them.
* DOM, canvas, audio, timers and the high-score store are external
  collaborators (spec §6) and are not part of the embedded state.
-/

/-- Cell kind: JS `cell.type`, the strings `"wall"` / `"path"`. -/
inductive CellType : Type where
  | wall : CellType
  | path : CellType
deriving DecidableEq, Repr

/-- JS `MazeCell`: `{ type, filled, deadEnd }` (constructor defaults:
`type = "wall"`, `filled = false`, `deadEnd = false`). -/
structure MazeCell where
  type : CellType
  filled : Bool
  deadEnd : Bool
deriving DecidableEq, Repr

/-- A fresh `new MazeCell("wall")`. -/
def wallCell : MazeCell := ⟨CellType.wall, false, false⟩

/-- The grid, `state.maze[y][x] ↦ m x y`. -/
def Maze : Type := Int → Int → MazeCell

/-- Point update of one cell of the grid (a JS in-place mutation of
`state.maze[y][x]`). -/
def updCell (m : Maze) (x y : Int) (f : MazeCell → MazeCell) : Maze :=
  fun a b => if a = x ∧ b = y then f (m a b) else m a b

/-- JS `inBounds(x,y)`: `x >= 0 && y >= 0 && x < state.cols && y < state.rows`. -/
def inBounds (cols rows x y : Int) : Bool :=
  decide (0 ≤ x) && decide (0 ≤ y) && decide (x < cols) && decide (y < rows)

/-- JS undo snapshot `{ prevX, prevY, filled }`. -/
structure UndoRecord where
  prevX : Int
  prevY : Int
  filled : Option (Int × Int)
deriving DecidableEq, Repr

/-- The session state (the fields of the JS `state` object that belong to the
core: grid, player position, start/end, counters, undo stack, score). -/
structure GameState where
  cols : Int
  rows : Int
  maze : Maze
  player : Int × Int
  start : Int × Int
  end_ : Int × Int
  originalPathCount : Nat
  visitedCount : Nat
  undoStack : List UndoRecord
  score : Nat

/-- The four axis directions `[[1,0],[-1,0],[0,1],[0,-1]]` used by both
dead-end recomputations. -/
def nbr4 : List (Int × Int) := [(1, 0), (-1, 0), (0, 1), (0, -1)]

/-- Neighbor count used by `recomputeAllDeadEnds`: in-bounds 4-neighbors whose
`type` is `"path"` (the `filled` flag is not consulted there). -/
def countPathNeighbors (cols rows : Int) (m : Maze) (x y : Int) : Nat :=
  nbr4.foldl
    (fun cnt d =>
      let nx := x + d.1
      let ny := y + d.2
      if inBounds cols rows nx ny = true ∧ (m nx ny).type = CellType.path then cnt + 1 else cnt)
    0

/-- Neighbor count used by `recomputeDeadendsNear`: in-bounds 4-neighbors that
are `"path"` and not `filled`. -/
def countWalkableNeighbors (cols rows : Int) (m : Maze) (x y : Int) : Nat :=
  nbr4.foldl
    (fun cnt d =>
      let ax := x + d.1
      let ay := y + d.2
      if inBounds cols rows ax ay = true ∧ (m ax ay).type = CellType.path ∧
          (m ax ay).filled = false then cnt + 1 else cnt)
    0

/-- JS `isWalkable(x,y)`: in bounds, `type === "path"`, not `filled`. -/
def isWalkable (s : GameState) (x y : Int) : Bool :=
  inBounds s.cols s.rows x y &&
    (decide ((s.maze x y).type = CellType.path) && !(s.maze x y).filled)

/-- Number of in-bounds cells with `type === "path"` (the
`state.originalPathCount` accumulator of `recomputeAllDeadEnds`). -/
def pathCellCount (cols rows : Int) (m : Maze) : Nat :=
  (List.range rows.toNat).foldl
    (fun acc ry =>
      (List.range cols.toNat).foldl
        (fun acc2 rx =>
          if (m (rx : Int) (ry : Int)).type = CellType.path then acc2 + 1 else acc2)
        acc)
    0

/-- The value `recomputeAllDeadEnds` stores into `cell.deadEnd` at `(x,y)`:
`false` for walls; for a path cell, `count === 1` over `countPathNeighbors`
and the cell is neither start nor end.  Note the source consults only
`type` of the neighbors and does not consult `filled` at all. -/
def allDeadEndCalc (s : GameState) (x y : Int) : Bool :=
  if (s.maze x y).type = CellType.path then
    decide (countPathNeighbors s.cols s.rows s.maze x y = 1) &&
      !(decide (x = s.start.1 ∧ y = s.start.2)) && !(decide (x = s.end_.1 ∧ y = s.end_.2))
  else false

/-- JS `recomputeAllDeadEnds()`: resets `originalPathCount` and rewrites
`deadEnd` of every in-bounds cell from `allDeadEndCalc` (which depends only on
the `type` fields, all left untouched, so the sequential loop is equivalent to
this simultaneous update). -/
def recomputeAllDeadEnds (s : GameState) : GameState :=
  { s with
    originalPathCount := pathCellCount s.cols s.rows s.maze
    maze := fun x y =>
      if inBounds s.cols s.rows x y = true then
        { s.maze x y with deadEnd := allDeadEndCalc s x y }
      else s.maze x y }

/-- The nine offsets visited by `recomputeDeadendsNear`. -/
def nearOffsets : List (Int × Int) :=
  [(0, 0), (1, 0), (-1, 0), (0, 1), (0, -1), (2, 0), (-2, 0), (0, 2), (0, -2)]

/-- The value `recomputeDeadendsNear` stores into `c.deadEnd` at `(x,y)`:
`false` when the cell is not a path cell or is filled; otherwise `cnt === 1`
over walkable neighbors, excluding start and end. -/
def nearDeadEndVal (cols rows : Int) (st en : Int × Int) (m : Maze) (x y : Int) : Bool :=
  if ¬((m x y).type = CellType.path) ∨ (m x y).filled = true then false
  else
    decide (countWalkableNeighbors cols rows m x y = 1) &&
      !(decide (x = st.1 ∧ y = st.2)) && !(decide (x = en.1 ∧ y = en.2))

/-- One iteration of the `recomputeDeadendsNear` loop: if the offset target
is in bounds, overwrite its `deadEnd` with `nearDeadEndVal` computed on the
current grid; otherwise `continue`. -/
def nearStep (cols rows : Int) (st en : Int × Int) (x y : Int) (m : Maze) (d : Int × Int) :
    Maze :=
  let nx := x + d.1
  let ny := y + d.2
  if inBounds cols rows nx ny = true then
    updCell m nx ny (fun c => { c with deadEnd := nearDeadEndVal cols rows st en m nx ny })
  else m

/-- JS `recomputeDeadendsNear(x,y)`: run `nearStep` over the nine offsets
(only `deadEnd` fields are written, and the computation reads only
`type`/`filled`, so the fold order is immaterial). -/
def recomputeDeadendsNear (s : GameState) (x y : Int) : GameState :=
  { s with maze := nearOffsets.foldl (nearStep s.cols s.rows s.start s.end_ x y) s.maze }

/-- JS dead-end bonus `Math.round(10 * preset)` with preset
`0.9 / 1.0 / 1.2 / 1.4` selected by the difficulty string (default `normal`). -/
def bonusFor (diff : String) : Nat :=
  if diff = "easy" then 9
  else if diff = "normal" then 10
  else if diff = "hard" then 12
  else if diff = "cruel" then 14
  else 10

/-- JS `attemptMove(dx,dy)`.  `revChecked` is the external "reverse mode"
checkbox (`revChk.checked`), `diff` the difficulty selector value.  The
trailing `checkCompletion()` call (which, when the player reaches the end,
hands off to the external collaborator to regenerate a fresh maze) is modelled
separately; rendering, particles, audio and HUD updates are external. -/
def attemptMove (s : GameState) (dx dy : Int) (revChecked : Bool) (diff : String) : GameState :=
  let nx := s.player.1 + dx
  let ny := s.player.2 + dy
  if isWalkable s nx ny = true then
    let prevX := s.player.1
    let prevY := s.player.2
    let willFill := !revChecked
    let snapFilled : Option (Int × Int) :=
      if willFill = true ∧ (s.maze prevX prevY).type = CellType.path ∧
          (s.maze prevX prevY).filled = false then
        some (prevX, prevY)
      else none
    let s1 := { s with
      undoStack := ⟨prevX, prevY, snapFilled⟩ :: s.undoStack
      player := (nx, ny)
      visitedCount := s.visitedCount + 1
      score := s.score + 1 }
    let cell := s1.maze nx ny
    let s2 :=
      if cell.deadEnd = true ∧ ¬(nx = s1.start.1 ∧ ny = s1.start.2) ∧
          ¬(nx = s1.end_.1 ∧ ny = s1.end_.2) then
        { s1 with
          score := s1.score + bonusFor diff
          maze := updCell s1.maze nx ny (fun c => { c with deadEnd := false }) }
      else s1
    match snapFilled with
    | some f =>
        recomputeDeadendsNear
          { s2 with maze := updCell s2.maze f.1 f.2 (fun c => { c with filled := true }) }
          f.1 f.2
    | none => s2
  else s

/-- JS `undo()`: no-op on empty history; otherwise pop the last record,
clear the recorded `filled` flag (if any) and locally recompute dead ends
there, then move the player back. -/
def undo (s : GameState) : GameState :=
  match s.undoStack with
  | [] => s
  | last :: rest =>
    let s1 := { s with undoStack := rest }
    let s2 :=
      match last.filled with
      | some f =>
          recomputeDeadendsNear
            { s1 with maze := updCell s1.maze f.1 f.2 (fun c => { c with filled := false }) }
            f.1 f.2
      | none => s1
    { s2 with player := (last.prevX, last.prevY) }

/-- The random source: `Math.random()` draws, in the order the source makes
them; each draw is assumed to lie in `[0,1)`. -/
def RandSrc : Type := Nat → ℚ

/-- `Math.floor(q * k)` for a rational `q` and integer `k`:
`⌊q·k⌋ = (q.num · k).fdiv q.den` since `q.den > 0`. -/
def jsFloorMul (q : ℚ) (k : Int) : Int :=
  (q.num * k).fdiv (q.den : Int)

/-- `i` and `j` both in range and the swap `[dirs[i],dirs[j]] = [dirs[j],dirs[i]]`. -/
def listSwap {α : Type} (l : List α) (i j : Nat) (dflt : α) : List α :=
  (l.set i (l.getD j dflt)).set j (l.getD i dflt)

/-- The Fisher–Yates shuffle of the four carve directions:
`for (i = 3; i > 0; i--) { j = floor(random() * (i+1)); swap i j }`,
consuming draws `n`, `n+1`, `n+2`. -/
def shuffleDirs (r : RandSrc) (n : Nat) (dirs : List (Int × Int)) : List (Int × Int) :=
  let d1 := listSwap dirs 3 (jsFloorMul (r n) 4).toNat (0, 0)
  let d2 := listSwap d1 2 (jsFloorMul (r (n + 1)) 3).toNat (0, 0)
  listSwap d2 1 (jsFloorMul (r (n + 2)) 2).toNat (0, 0)

/-- The carve target test `nx > 0 && nx < cols-1 && ny > 0 && ny < rows-1`. -/
def inCarveRange (cols rows x y : Int) : Bool :=
  decide (0 < x) && decide (x < cols - 1) && decide (0 < y) && decide (y < rows - 1)

/-- The `while (stack.length)` carving loop of `generateMazeIterative`.  The
stack is a cons-list with its head the JS `stack[stack.length-1]`.  Each
iteration shuffles the four 2-step directions (3 draws), carves into the first
in-range still-wall target (marking the connecting wall and the target as
path and pushing the target), or pops on exhaustion.  `fuel` bounds the
number of iterations; `carveLoop_empty_of_measure` below shows the fuel used
by `generateMazeIterative` always suffices to drain the stack, so the
fuel-free JS loop and this bounded recursion agree. -/
def carveLoop : Nat → Int → Int → RandSrc → Maze → List (Int × Int) → Nat →
    Maze × List (Int × Int) × Nat
  | 0, _, _, _, m, st, n => (m, st, n)
  | _ + 1, _, _, _, m, [], n => (m, [], n)
  | fuel + 1, cols, rows, r, m, (cx, cy) :: rest, n =>
    let dirs := shuffleDirs r n [(2, 0), (-2, 0), (0, 2), (0, -2)]
    match dirs.find? (fun d =>
        inCarveRange cols rows (cx + d.1) (cy + d.2) &&
          decide ((m (cx + d.1) (cy + d.2)).type = CellType.wall)) with
    | some d =>
        let nx := cx + d.1
        let ny := cy + d.2
        let m1 := updCell m (cx + d.1 / 2) (cy + d.2 / 2)
          (fun c => { c with type := CellType.path })
        let m2 := updCell m1 nx ny (fun c => { c with type := CellType.path })
        carveLoop fuel cols rows r m2 ((nx, ny) :: (cx, cy) :: rest) (n + 3)
    | none => carveLoop fuel cols rows r m rest (n + 3)

/-- Difficulty presets `{shuffle, extra}` of the generator (the `deadBoost`
field only feeds the bonus, see `bonusFor`); default `normal`. -/
def carvePreset (diff : String) : ℚ × ℚ :=
  if diff = "easy" then (mkRat 25 100, mkRat 2 100)
  else if diff = "normal" then (mkRat 45 100, mkRat 4 100)
  else if diff = "hard" then (mkRat 65 100, mkRat 6 100)
  else if diff = "cruel" then (mkRat 85 100, mkRat 8 100)
  else (mkRat 45 100, mkRat 4 100)

/-- The extra-connection loop: `extra` iterations, each drawing
`rx = 1 + floor(random()*(cols-2))`, `ry = 1 + floor(random()*(rows-2))` and
converting `(rx,ry)` to path when a third draw is below the preset
`shuffle` probability. -/
def extraLoop : Nat → Int → Int → ℚ → RandSrc → Maze → Nat → Maze × Nat
  | 0, _, _, _, _, m, n => (m, n)
  | k + 1, cols, rows, shuf, r, m, n =>
    let rx : Int := 1 + jsFloorMul (r n) (cols - 2)
    let ry : Int := 1 + jsFloorMul (r (n + 1)) (rows - 2)
    let m2 :=
      if r (n + 2) < shuf then updCell m rx ry (fun c => { c with type := CellType.path })
      else m
    extraLoop k cols rows shuf r m2 (n + 3)

/-- JS `generateMazeIterative()`: force `cols`/`rows` odd, carve from `(1,1)`
by randomized DFS, inject extra connections, force start `(1,1)` and end
`(cols-2, rows-2)` to path, then run the full dead-end recompute and reset
player, counters, undo stack and score.  Timers, canvas and HUD are external. -/
def generateMazeIterative (cols0 rows0 : Int) (diff : String) (r : RandSrc) : GameState :=
  let cols := if cols0 % 2 = 0 then cols0 + 1 else cols0
  let rows := if rows0 % 2 = 0 then rows0 + 1 else rows0
  let m1 := updCell (fun _ _ => wallCell) 1 1 (fun c => { c with type := CellType.path })
  let preset := carvePreset diff
  let carved := carveLoop (2 * (cols.toNat * rows.toNat) + 2) cols rows r m1 [(1, 1)] 0
  let extraCount := (jsFloorMul preset.2 (cols * rows)).toNat
  let extrad := extraLoop extraCount cols rows preset.1 r carved.1 carved.2.2
  let st : Int × Int := (1, 1)
  let en : Int × Int := (cols - 2, rows - 2)
  let m2 := updCell extrad.1 st.1 st.2 (fun c => { c with type := CellType.path })
  let m3 := updCell m2 en.1 en.2 (fun c => { c with type := CellType.path })
  recomputeAllDeadEnds
    { cols := cols, rows := rows, maze := m3, player := st, start := st, end_ := en,
      originalPathCount := 0, visitedCount := 1, undoStack := [], score := 0 }

/-- Modelled from the spec: the dead-end invariant of §3 — a cell's
`isDeadEnd` should be true iff it is `Path`, not `filled`, has exactly one
4-neighbor that is `Path` and not `filled`, and is neither start nor end. -/
def specIsDeadEnd (cols rows : Int) (st en : Int × Int) (m : Maze) (x y : Int) : Bool :=
  decide ((m x y).type = CellType.path) && !(m x y).filled &&
    decide (countWalkableNeighbors cols rows m x y = 1) &&
    !(decide (x = st.1 ∧ y = st.2)) && !(decide (x = en.1 ∧ y = en.2))


/-! ## Spec-side predicates for the dead-end maintainer -/

/-- The neighborhood rewritten by `recomputeDeadendsNear(x,y)`. -/
def NearCross (x y a b : Int) : Prop :=
  ∃ d ∈ nearOffsets, a = x + d.1 ∧ b = y + d.2

instance decNearCross (x y a b : Int) : Decidable (NearCross x y a b) :=
  decidable_of_iff (∃ d ∈ nearOffsets, a = x + d.1 ∧ b = y + d.2) Iff.rfl

/-- Every in-bounds cell's `deadEnd` flag agrees with the spec's dead-end
definition (the invariant the incremental maintenance is meant to keep). -/
def DeadEndInv (s : GameState) : Prop :=
  ∀ a b, inBounds s.cols s.rows a b = true →
    (s.maze a b).deadEnd = specIsDeadEnd s.cols s.rows s.start s.end_ s.maze a b

/-- Every undo record was produced by a filling move: it records the departed
cell itself, which is an in-bounds path cell. -/
def StackOK (s : GameState) : Prop :=
  ∀ r ∈ s.undoStack, r.filled = some (r.prevX, r.prevY) ∧
    (s.maze r.prevX r.prevY).type = CellType.path ∧
    inBounds s.cols s.rows r.prevX r.prevY = true

/-- The session invariants: dead-end flags correct, the agent on a walkable
cell, and a well-formed undo history. -/
def StateOK (s : GameState) : Prop :=
  DeadEndInv s ∧ isWalkable s s.player.1 s.player.2 = true ∧ StackOK s

/-- No cell of the grid is filled. -/
def Unfilled (s : GameState) : Prop := ∀ a b, (s.maze a b).filled = false

/-- A 4-directional unit step, the only `(dx,dy)` the input collaborator
produces (spec §6). -/
def UnitStep (dx dy : Int) : Prop :=
  (dx = 1 ∧ dy = 0) ∨ (dx = -1 ∧ dy = 0) ∨ (dx = 0 ∧ dy = 1) ∨ (dx = 0 ∧ dy = -1)

/-- One player input: a move or an undo. -/
inductive MoveOp : Type where
  | move : Int → Int → MoveOp
  | undoMove : MoveOp

/-- A move operation is a unit step (undos are unrestricted). -/
def OpUnit : MoveOp → Prop
  | MoveOp.move dx dy => UnitStep dx dy
  | MoveOp.undoMove => True

/-- Run a sequence of inputs with reverse mode off. -/
def applyOps (diff : String) : List MoveOp → GameState → GameState
  | [], s => s
  | MoveOp.move dx dy :: rest, s => applyOps diff rest (attemptMove s dx dy false diff)
  | MoveOp.undoMove :: rest, s => applyOps diff rest (undo s)

/-! ## The search workers

Both workers receive `{ grid, cols, rows, start, ... }` where `grid` is a
nested 0/1 array; `grid[y][x] === 1` is modelled as `w x y = true` (and `w` is
`false` outside bounds, where the JS comparison `undefined === 1` is false). -/

/-- A walkability snapshot. -/
def Walk : Type := Int → Int → Bool

/-- The bounds-guarded neighbor candidates, in source order
(left, right, up, down), produced by both workers' `neighbors`. -/
def neighborCands (cols rows x y : Int) : List (Int × Int) :=
  (if 0 < x then [(x - 1, y)] else []) ++
    (if x < cols - 1 then [(x + 1, y)] else []) ++
      (if 0 < y then [(x, y - 1)] else []) ++
        (if y < rows - 1 then [(x, y + 1)] else [])

/-- `neighbors(x,y)` of the workers: candidates filtered by `grid === 1`. -/
def neighborsW (w : Walk) (cols rows x y : Int) : List (Int × Int) :=
  (neighborCands cols rows x y).filter (fun c => w c.1 c.2)

/-- Manhattan distance, the A* heuristic `h`. -/
def manh (a b : Int × Int) : Nat := (a.1 - b.1).natAbs + (a.2 - b.2).natAbs

/-- An A* frontier entry `{x, y, g, f, prev}`. -/
inductive ANode : Type where
  | mk : Int → Int → Nat → Nat → Option ANode → ANode

def ANode.x : ANode → Int
  | ANode.mk v _ _ _ _ => v

def ANode.y : ANode → Int
  | ANode.mk _ v _ _ _ => v

def ANode.g : ANode → Nat
  | ANode.mk _ _ v _ _ => v

def ANode.f : ANode → Nat
  | ANode.mk _ _ _ v _ => v

def ANode.prev : ANode → Option ANode
  | ANode.mk _ _ _ _ v => v

/-- Default entry used for out-of-range list reads (never actually read on the
paths the source executes; JS indexing is always in range there). -/
def dfltNode : ANode := ANode.mk 0 0 0 0 none

/-- The PQ sift-up loop: while the entry at `i` beats its parent, swap up.
`fuel ≥ i` bounds the iterations (the index strictly decreases). -/
def siftUpF : Nat → List ANode → Nat → List ANode
  | 0, l, _ => l
  | fuel + 1, l, i =>
    if i = 0 then l
    else
      let p := (i - 1) / 2
      if (l.getD i dfltNode).f < (l.getD p dfltNode).f then
        siftUpF fuel (listSwap l i p dfltNode) p
      else l

/-- JS `PQ.push`: append, then sift up from the last index. -/
def pqPush (l : List ANode) (item : ANode) : List ANode :=
  siftUpF (l.length + 1) (l ++ [item]) l.length

/-- The PQ sift-down loop of `PQ.pop`: pick the smaller of the two children
(`m`), stop when no child beats `i`, else swap and descend.  `fuel ≥ length`
bounds the iterations (the index strictly increases). -/
def siftDownF : Nat → List ANode → Nat → List ANode
  | 0, l, _ => l
  | fuel + 1, l, i =>
    let li := 2 * i + 1
    let ri := li + 1
    let m1 := if li < l.length ∧ (l.getD li dfltNode).f < (l.getD i dfltNode).f then li else i
    let m2 := if ri < l.length ∧ (l.getD ri dfltNode).f < (l.getD m1 dfltNode).f then ri else m1
    if m2 = i then l else siftDownF fuel (listSwap l i m2 dfltNode) m2

/-- JS `PQ.pop`: return `a[0]`; move the physical last element to the root and
sift it down (or just empty the array when one element remains). -/
def pqPop (l : List ANode) : Option ANode × List ANode :=
  match l with
  | [] => (none, [])
  | r :: t =>
    let last := (r :: t).getLastD dfltNode
    let rest := (r :: t).dropLast
    match rest with
    | [] => (some r, [])
    | _ :: _ => (some r, siftDownF rest.length (rest.set 0 last) 0)

/-- The `open` map, keyed by coordinate (JS string keys `"x,y"` are in
bijection with the pairs). -/
def OpenMap : Type := Int × Int → Option ANode

/-- `open.set(key(x,y), node)`. -/
def omSet (o : OpenMap) (k : Int × Int) (v : ANode) : OpenMap :=
  fun k2 => if k2 = k then some v else o k2

/-- The neighbor relaxation of one expansion: for each walkable neighbor,
tentative `ng = cur.g + 1`; insert a fresh entry when there is no record or
the tentative `g` improves on it. -/
def relaxAll (w : Walk) (cols rows : Int) (en : Int × Int) (cur : ANode)
    (acc : OpenMap × List ANode) : OpenMap × List ANode :=
  (neighborsW w cols rows cur.x cur.y).foldl
    (fun acc2 nb =>
      let ng := cur.g + 1
      let nf := ng + manh nb en
      match acc2.1 nb with
      | some existing =>
          if ng < existing.g then
            let node := ANode.mk nb.1 nb.2 ng nf (some cur)
            (omSet acc2.1 nb node, pqPush acc2.2 node)
          else acc2
      | none =>
          let node := ANode.mk nb.1 nb.2 ng nf (some cur)
          (omSet acc2.1 nb node, pqPush acc2.2 node))
    acc

/-- The back-link walk of the success branch (`while (node) path.push(...)`);
the posted path is its reverse. -/
def chainList : ANode → List (Int × Int)
  | ANode.mk x y _ _ none => [(x, y)]
  | ANode.mk x y _ _ (some p) => (x, y) :: chainList p

/-- The A* main loop.  `fuel` is the remaining budget `MAX_STEPS - steps`
(the JS condition `steps++ < MAX_STEPS` allows exactly `MAX_STEPS` body
executions); the returned `Nat` counts the pops (`steps`) performed. -/
def astarLoop (w : Walk) (cols rows : Int) (en : Int × Int) :
    Nat → OpenMap → List ANode → Nat → Option (List (Int × Int)) × Nat
  | 0, _, _, steps => (none, steps)
  | fuel + 1, omap, pq, steps =>
    match pq with
    | [] => (none, steps)
    | _ :: _ =>
      match pqPop pq with
      | (none, _) => (none, steps + 1)
      | (some cur, pq2) =>
        if cur.x = en.1 ∧ cur.y = en.2 then (some (chainList cur).reverse, steps + 1)
        else
          let acc := relaxAll w cols rows en cur (omap, pq2)
          astarLoop w cols rows en fuel acc.1 acc.2 (steps + 1)

/-- The body of the `astar` request: initial node at `start` with
`g = 0, f = h(start,end)`, expansion budget `cols * rows * 10`. -/
def astarRun (w : Walk) (cols rows : Int) (st en : Int × Int) :
    Option (List (Int × Int)) × Nat :=
  let startNode := ANode.mk st.1 st.2 0 (manh st en) none
  let omap : OpenMap := omSet (fun _ => none) st startNode
  astarLoop w cols rows en (cols * rows * 10).toNat omap (pqPush [] startNode) 0

/-- The `astar` message handler over possibly-missing request fields.
Result `none` means the handler raised (a `TypeError` on a property access of
`undefined`) and posted nothing; `some r` means it posted `{path: r}`.
With `start` or `end` missing, the very first heuristic evaluation
`h(start, end)` reads `.x` of `undefined` and throws.  With only `grid`
missing the handler throws at the first neighbor filtering — which is reached
unless the budget is empty, the start is popped as the goal first, or the
start has no bounds-eligible neighbor candidates. -/
def astarOnMessage (grid? : Option Walk) (cols rows : Int)
    (start? end? : Option (Int × Int)) : Option (Option (List (Int × Int))) :=
  match start?, end? with
  | some st, some en =>
    match grid? with
    | some w => some (astarRun w cols rows st en).1
    | none =>
      if (cols * rows * 10).toNat = 0 then some none
      else if st = en then some (some [st])
      else if neighborCands cols rows st.1 st.2 = [] then some none
      else none
  | _, _ => none

/-! ## The BFS worker (`bfs-deadend`) -/

/-- Walk the parent back-links (`while (cur) { path.push(cur); cur = parent.get(cur) }`);
the posted path is the reverse.  `fuel` bounds the walk; parent chains built
by the loop below strictly descend towards the start, so the fuel passed by
`bfsRun` is never exhausted on them. -/
def bfsReconstruct : Nat → ((Int × Int) → Option (Int × Int)) → (Int × Int) →
    List (Int × Int)
  | 0, _, _ => []
  | fuel + 1, par, c =>
    c :: (match par c with
      | none => []
      | some p => bfsReconstruct fuel par p)

/-- The not-yet-visited check and enqueue of the BFS loop body: mark the
neighbor visited, record its parent, and append it to the queue. -/
def bfsEnqueue (c : Int × Int)
    (acc : List (Int × Int) × (Int × Int → Bool) × ((Int × Int) → Option (Int × Int)))
    (nb : Int × Int) :
    List (Int × Int) × (Int × Int → Bool) × ((Int × Int) → Option (Int × Int)) :=
  if acc.2.1 nb = false then
    (acc.1 ++ [nb],
     fun k => if k = nb then true else acc.2.1 k,
     fun k => if k = nb then some c else acc.2.2 k)
  else acc

/-- The BFS main loop.  The state is the FIFO queue, the visited set and the
parent map; the returned `Nat` counts dequeues.  The outer `none` means the
iteration fuel ran out — a modelling artefact only: the JS loop is unbounded,
and the fuel passed by `bfsRun` is shown (claim C10) to cover every run on a
well-formed request. -/
def bfsLoop (w : Walk) (cols rows : Int) (isTarget : Int × Int → Bool) (rfuel : Nat) :
    Nat → List (Int × Int) → (Int × Int → Bool) → ((Int × Int) → Option (Int × Int)) →
    Nat → Option (Option (List (Int × Int)) × Nat)
  | 0, _, _, _, _ => none
  | fuel + 1, q, vis, par, deq =>
    match q with
    | [] => some (none, deq)
    | c :: qrest =>
      if isTarget c then some (some (bfsReconstruct rfuel par c).reverse, deq + 1)
      else
        let step := (neighborsW w cols rows c.1 c.2).foldl (bfsEnqueue c) (qrest, vis, par)
        bfsLoop w cols rows isTarget rfuel fuel step.1 step.2.1 step.2.2 (deq + 1)

/-- The `bfs-deadend` search after the guard: queue seeded with `start`
(visited, parent `null`), run to the first dequeued target.  The iteration
and reconstruction fuels `cols·rows + 1` are shown sufficient for in-bounds
starts (C7/C10), making this equal to the unbounded JS loop there. -/
def bfsRun (w : Walk) (cols rows : Int) (st : Int × Int)
    (targets : List (Int × Int)) : Option (Option (List (Int × Int)) × Nat) :=
  bfsLoop w cols rows (fun c => targets.any fun t => decide (t = c))
    (cols.toNat * rows.toNat + 1) (cols.toNat * rows.toNat + 1)
    [st] (fun k => decide (k = st)) (fun _ => none) 0

/-- The `bfs-deadend` message handler: the `if (!grid || !start)` guard posts
`null` immediately; otherwise the search runs (`deadEnds || []` supplies the
target set).  `some (r, n)` means it posted `{path: r}` after `n` dequeues. -/
def bfsOnMessage (grid? : Option Walk) (cols rows : Int) (start? : Option (Int × Int))
    (deadEnds? : Option (List (Int × Int))) : Option (Option (List (Int × Int)) × Nat) :=
  match grid?, start? with
  | some w, some st => bfsRun w cols rows st (deadEnds?.getD [])
  | _, _ => some (none, 0)

/-- The in-bounds coordinates, as a finite set (spec side, for counting). -/
def boundsFinset (cols rows : Int) : Finset (Int × Int) :=
  ((Finset.range cols.toNat) ×ˢ (Finset.range rows.toNat)).image
    (fun p => ((p.1 : Int), (p.2 : Int)))

/-! ## Spec-side path semantics

Modelled from the spec: the reference "exhaustive BFS" shortest-path notion
(§8.2) and reachability over walkable cells, with the step semantics both
workers use: a step moves one cell in a 4-direction onto an in-bounds cell
the snapshot marks walkable. -/

/-- One 4-directional unit step between coordinates. -/
def adjStep (c c2 : Int × Int) : Prop :=
  (c2.1 = c.1 + 1 ∧ c2.2 = c.2) ∨ (c2.1 = c.1 - 1 ∧ c2.2 = c.2) ∨
    (c2.1 = c.1 ∧ c2.2 = c.2 + 1) ∨ (c2.1 = c.1 ∧ c2.2 = c.2 - 1)

/-- `Steps w cols rows st c n`: there is a walk of `n` unit steps from `st`
to `c` whose every visited cell after `st` is in bounds and walkable. -/
inductive Steps (w : Walk) (cols rows : Int) (st : Int × Int) :
    (Int × Int) → Nat → Prop where
  | refl : Steps w cols rows st st 0
  | tail {c c2 : Int × Int} {n : Nat} :
      Steps w cols rows st c n → adjStep c c2 →
      inBounds cols rows c2.1 c2.2 = true → w c2.1 c2.2 = true →
      Steps w cols rows st c2 (n + 1)

/-- Reachability over walkable cells. -/
def Reaches (w : Walk) (cols rows : Int) (st c : Int × Int) : Prop :=
  ∃ n, Steps w cols rows st c n

/-- The hop count of a shortest walk (the length an exhaustive BFS finds). -/
def ShortestSteps (w : Walk) (cols rows : Int) (st c : Int × Int) (n : Nat) : Prop :=
  IsLeast {k | Steps w cols rows st c k} n

/-- A non-empty coordinate list is a valid walk when each subsequent entry is
one unit step from its predecessor, in bounds, and walkable (spec side). -/
def ValidPath (w : Walk) (cols rows : Int) : List (Int × Int) → Prop
  | [] => False
  | [_] => True
  | c :: c2 :: rest =>
    adjStep c c2 ∧ inBounds cols rows c2.1 c2.2 = true ∧ w c2.1 c2.2 = true ∧
      ValidPath w cols rows (c2 :: rest)

/-- The parent back-links of the BFS worker trace a valid walk from the start
to `c` of the given length, through visited cells (spec side; used as a loop
invariant). -/
inductive ParChain (w : Walk) (cols rows : Int) (st : Int × Int)
    (vis : Int × Int → Bool) (par : (Int × Int) → Option (Int × Int)) :
    (Int × Int) → Nat → Prop where
  | base : vis st = true → par st = none → ParChain w cols rows st vis par st 0
  | step {p c : Int × Int} {n : Nat} :
      ParChain w cols rows st vis par p n → par c = some p → vis c = true →
      adjStep p c → inBounds cols rows c.1 c.2 = true → w c.1 c.2 = true →
      ParChain w cols rows st vis par c (n + 1)

/-- The BFS loop invariant (spec side).  The queue splits into a level-`k`
segment `qa` followed by a level-`k+1` segment `qb`; visited cells are exactly
the discovered ones, every cell at hop distance `≤ k` is already visited,
dequeued (visited, no longer queued) cells are fully expanded and are not
targets, parent links trace shortest walks, and every level `≤ k` is
inhabited by a visited cell. -/
structure BfsInv (w : Walk) (cols rows : Int) (st : Int × Int)
    (isTarget : Int × Int → Bool)
    (q : List (Int × Int)) (vis : Int × Int → Bool)
    (par : (Int × Int) → Option (Int × Int))
    (k : Nat) (qa qb : List (Int × Int)) : Prop where
  hsplit : q = qa ++ qb
  hqa : ∀ c ∈ qa, ShortestSteps w cols rows st c k
  hqb : ∀ c ∈ qb, ShortestSteps w cols rows st c (k + 1)
  hvq : ∀ c ∈ q, vis c = true
  hvb : ∀ c, vis c = true → inBounds cols rows c.1 c.2 = true
  hcomp : ∀ c n, Steps w cols rows st c n → n ≤ k → vis c = true
  hexp : ∀ c, vis c = true → c ∉ q →
    ∀ c2, adjStep c c2 → inBounds cols rows c2.1 c2.2 = true →
      w c2.1 c2.2 = true → vis c2 = true
  hnt : ∀ c, vis c = true → c ∉ q → isTarget c = false
  hchain : ∀ c, vis c = true → ∃ n, ParChain w cols rows st vis par c n ∧
    ShortestSteps w cols rows st c n
  hlev : ∀ j, j ≤ k → ∃ c, vis c = true ∧ ShortestSteps w cols rows st c j

/-- What the BFS worker's non-null answer means (spec side): the returned
path starts at the start cell, is a valid walk, ends at a target whose hop
distance is least among all reachable targets, and has shortest length. -/
def BfsPost (w : Walk) (cols rows : Int) (st : Int × Int)
    (isTarget : Int × Int → Bool) (p : List (Int × Int)) : Prop :=
  ∃ t n, p.getLast? = some t ∧ isTarget t = true ∧ p.head? = some st ∧
    ValidPath w cols rows p ∧ ShortestSteps w cols rows st t n ∧
    p.length = n + 1 ∧
    ∀ t2 m, isTarget t2 = true → Steps w cols rows st t2 m → n ≤ m

/-- The walkability view of a grid by `type` alone, ignoring `filled`
(spec side: \u201ca path over cells of kind Path, ignoring the filled flag\u201d). -/
def pathW (m : Maze) : Walk := fun x y => decide ((m x y).type = CellType.path)

/-- The carve-loop invariant (spec side).  Stack entries are odd-odd interior
room cells already carved to path; every carved room is reachable from the
seed `(1,1)` over path cells; and any carved room no longer on the stack has
been fully explored: each of its in-range two-step room neighbors is path. -/
structure CarveInv (cols rows : Int) (m : Maze) (stack : List (Int × Int)) : Prop where
  hstack : ∀ c ∈ stack, c.1 % 2 = 1 ∧ c.2 % 2 = 1 ∧
    inCarveRange cols rows c.1 c.2 = true ∧ (m c.1 c.2).type = CellType.path
  hrooms : ∀ x y, x % 2 = 1 → y % 2 = 1 → inCarveRange cols rows x y = true →
    (m x y).type = CellType.path → Reaches (pathW m) cols rows (1, 1) (x, y)
  hpop : ∀ x y, x % 2 = 1 → y % 2 = 1 → inCarveRange cols rows x y = true →
    (m x y).type = CellType.path → (x, y) ∉ stack →
    ∀ d ∈ ([(2, 0), (-2, 0), (0, 2), (0, -2)] : List (Int × Int)),
      inCarveRange cols rows (x + d.1) (y + d.2) = true →
      (m (x + d.1) (y + d.2)).type = CellType.path

/-- The heap key of index `i` of the frontier array: the `f` score. -/
def hKey (l : List ANode) (i : Nat) : Nat := (l.getD i dfltNode).f

/-- The binary min-heap property of the frontier array `PQ.a`: every entry is
at least its parent (spec side). -/
def HeapOrd (l : List ANode) : Prop :=
  ∀ j, 0 < j → j < l.length → hKey l ((j - 1) / 2) ≤ hKey l j

/-- The back-link chain of an A* node is a valid walk from the start whose
length is the node's `g` (spec side; invariant of every node the loop
creates). -/
inductive ChainOK (w : Walk) (cols rows : Int) (st : Int × Int) : ANode → Prop where
  | base (f : Nat) : ChainOK w cols rows st (ANode.mk st.1 st.2 0 f none)
  | step (p : ANode) (x y : Int) (f : Nat) :
      ChainOK w cols rows st p → adjStep (p.x, p.y) (x, y) →
      inBounds cols rows x y = true → w x y = true →
      ChainOK w cols rows st (ANode.mk x y (p.g + 1) f (some p))

/-- The A* loop invariant (spec side), with ghost set `S` of settled cells:
the frontier is a heap of valid nodes with `f = g + h`; the open map records
the best `g` pushed per cell; settled cells carry an optimal entry and have
relaxed all their edges; the best entry of any cell is still queued or fully
relaxed; an optimal entry is queued unless its cell is settled; every
reachable unsettled cell has a queued optimal entry on one of its shortest
walks; and the goal is unsettled. -/
structure AStarInv (w : Walk) (cols rows : Int) (st en : Int × Int)
    (omap : OpenMap) (pq : List ANode) (S : Finset (Int × Int)) : Prop where
  hheap : HeapOrd pq
  hpq : ∀ nd ∈ pq, ChainOK w cols rows st nd ∧ nd.f = nd.g + manh (nd.x, nd.y) en
  homap : ∀ z nd, omap z = some nd → (nd.x, nd.y) = z ∧ ChainOK w cols rows st nd ∧
    nd.f = nd.g + manh z en
  hbest : ∀ nd ∈ pq, ∃ nd0, omap (nd.x, nd.y) = some nd0 ∧ nd0.g ≤ nd.g
  hSb : ∀ z ∈ S, inBounds cols rows z.1 z.2 = true
  hSdist : ∀ z ∈ S, ∃ n nd, ShortestSteps w cols rows st z n ∧ omap z = some nd ∧
    nd.g = n
  hSexp : ∀ z ∈ S, ∀ z2 : Int × Int, adjStep z z2 →
    inBounds cols rows z2.1 z2.2 = true → w z2.1 z2.2 = true →
    ∃ nd2 n, omap z2 = some nd2 ∧ ShortestSteps w cols rows st z n ∧ nd2.g ≤ n + 1
  hI8 : ∀ z nd0, omap z = some nd0 →
    nd0 ∈ pq ∨ (∀ z2 : Int × Int, adjStep z z2 → inBounds cols rows z2.1 z2.2 = true →
      w z2.1 z2.2 = true → ∃ nd2, omap z2 = some nd2 ∧ nd2.g ≤ nd0.g + 1)
  hlive : ∀ z nd n, omap z = some nd → ShortestSteps w cols rows st z n → nd.g = n →
    (∃ nd2 ∈ pq, (nd2.x, nd2.y) = z ∧ nd2.g = n) ∨ z ∈ S
  hfront : ∀ z, Reaches w cols rows st z → z ∉ S →
    ∃ y a b, ShortestSteps w cols rows st y a ∧ Steps w cols rows y z b ∧
      ShortestSteps w cols rows st z (a + b) ∧
      ∃ nd ∈ pq, (nd.x, nd.y) = y ∧ nd.g = a
  hgoal : en ∉ S

/-! ## Concrete instances used by witnesses and counterexamples -/

/-- A tiny session: a 3-cell corridor `(1,1)-(2,1)-(3,1)` plus the stub
`(2,2)`, which is a dead end; start `(1,1)`, end `(3,1)`, player at `(2,1)`.
All `deadEnd` flags agree with the dead-end definition. -/
def demoMaze : Maze := fun x y =>
  if x = 2 ∧ y = 2 then ⟨CellType.path, false, true⟩
  else if (x = 1 ∧ y = 1) ∨ (x = 2 ∧ y = 1) ∨ (x = 3 ∧ y = 1) then
    ⟨CellType.path, false, false⟩
  else wallCell

/-- See `demoMaze`. -/
def demoState : GameState :=
  { cols := 5, rows := 4, maze := demoMaze, player := (2, 1), start := (1, 1),
    end_ := (3, 1), originalPathCount := 4, visitedCount := 1, undoStack := [], score := 0 }

/-- A grid with a filled path cell `(2,1)` whose only path neighbor is
`(1,1)`: the full recompute marks it a dead end even though it is filled. -/
def filledCorridorMaze : Maze := fun x y =>
  if x = 1 ∧ y = 1 then ⟨CellType.path, false, false⟩
  else if x = 2 ∧ y = 1 then ⟨CellType.path, true, false⟩
  else wallCell

/-- See `filledCorridorMaze`. -/
def filledCorridorState : GameState :=
  { cols := 7, rows := 3, maze := filledCorridorMaze, player := (1, 1), start := (1, 1),
    end_ := (5, 1), originalPathCount := 2, visitedCount := 1, undoStack := [], score := 0 }

/-- The zero random stream (every `Math.random()` draw is `0`). -/
def zeroSrc : RandSrc := fun _ => 0

/-! # Theorems

## Basic grid lemmas -/

lemma updCell_self (m : Maze) (x y : Int) (f : MazeCell → MazeCell) :
    updCell m x y f x y = f (m x y) := by
  simp [updCell]

lemma updCell_ne (m : Maze) (x y : Int) (f : MazeCell → MazeCell) {a b : Int}
    (h : ¬(a = x ∧ b = y)) : updCell m x y f a b = m a b := by
  simp [updCell, h]

lemma countPathNeighbors_congr (cols rows : Int) (m m2 : Maze) (x y : Int)
    (hT : ∀ a b, (m a b).type = (m2 a b).type) :
    countPathNeighbors cols rows m x y = countPathNeighbors cols rows m2 x y := by
  simp [countPathNeighbors, nbr4, hT]

lemma countWalkableNeighbors_congr (cols rows : Int) (m m2 : Maze) (x y : Int)
    (hT : ∀ a b, (m a b).type = (m2 a b).type)
    (hF : ∀ a b, (m a b).filled = (m2 a b).filled) :
    countWalkableNeighbors cols rows m x y = countWalkableNeighbors cols rows m2 x y := by
  simp [countWalkableNeighbors, nbr4, hT, hF]

lemma countWalkable_eq_countPath (cols rows : Int) (m : Maze) (x y : Int)
    (hF : ∀ a b, (m a b).filled = false) :
    countWalkableNeighbors cols rows m x y = countPathNeighbors cols rows m x y := by
  simp [countWalkableNeighbors, countPathNeighbors, nbr4, hF]

lemma nearDeadEndVal_eq_spec (cols rows : Int) (st en : Int × Int) (m : Maze) (x y : Int) :
    nearDeadEndVal cols rows st en m x y = specIsDeadEnd cols rows st en m x y := by
  by_cases hT : (m x y).type = CellType.path
  · by_cases hF : (m x y).filled = true
    · simp [nearDeadEndVal, specIsDeadEnd, hT, hF]
    · simp only [Bool.not_eq_true] at hF
      simp [nearDeadEndVal, specIsDeadEnd, hT, hF]
  · simp [nearDeadEndVal, specIsDeadEnd, hT]

lemma specIsDeadEnd_congr (cols rows : Int) (st en : Int × Int) (m m2 : Maze) (x y : Int)
    (hT : ∀ a b, (m a b).type = (m2 a b).type)
    (hF : ∀ a b, (m a b).filled = (m2 a b).filled) :
    specIsDeadEnd cols rows st en m x y = specIsDeadEnd cols rows st en m2 x y := by
  simp only [specIsDeadEnd, hT, hF,
    countWalkableNeighbors_congr cols rows m m2 x y hT hF]

/-! ## Characterizing the local recompute -/

lemma nearStep_type (cols rows : Int) (st en : Int × Int) (x y : Int) (m : Maze)
    (d : Int × Int) (a b : Int) :
    ((nearStep cols rows st en x y m d) a b).type = (m a b).type := by
  unfold nearStep
  split
  · by_cases h : a = x + d.1 ∧ b = y + d.2
    · obtain ⟨h1, h2⟩ := h
      subst h1; subst h2
      rw [updCell_self]
    · rw [updCell_ne _ _ _ _ h]
  · rfl

lemma nearStep_filled (cols rows : Int) (st en : Int × Int) (x y : Int) (m : Maze)
    (d : Int × Int) (a b : Int) :
    ((nearStep cols rows st en x y m d) a b).filled = (m a b).filled := by
  unfold nearStep
  split
  · by_cases h : a = x + d.1 ∧ b = y + d.2
    · obtain ⟨h1, h2⟩ := h
      subst h1; subst h2
      rw [updCell_self]
    · rw [updCell_ne _ _ _ _ h]
  · rfl

lemma nearFold_spec (cols rows : Int) (st en : Int × Int) (x y : Int) :
    ∀ (offs : List (Int × Int)) (m0 m : Maze),
      (∀ a b, (m a b).type = (m0 a b).type) →
      (∀ a b, (m a b).filled = (m0 a b).filled) →
      ∀ a b,
        ((offs.foldl (nearStep cols rows st en x y) m) a b).type = (m0 a b).type ∧
        ((offs.foldl (nearStep cols rows st en x y) m) a b).filled = (m0 a b).filled ∧
        ((offs.foldl (nearStep cols rows st en x y) m) a b).deadEnd =
          (if (∃ d ∈ offs, a = x + d.1 ∧ b = y + d.2) ∧ inBounds cols rows a b = true then
            specIsDeadEnd cols rows st en m0 a b
          else (m a b).deadEnd) := by
  intro offs
  induction offs with
  | nil =>
    intro m0 m hT hF a b
    refine ⟨hT a b, hF a b, ?_⟩
    simp
  | cons d offs ih =>
    intro m0 m hT hF a b
    have hT1 : ∀ a b, ((nearStep cols rows st en x y m d) a b).type = (m0 a b).type :=
      fun a b => (nearStep_type cols rows st en x y m d a b).trans (hT a b)
    have hF1 : ∀ a b, ((nearStep cols rows st en x y m d) a b).filled = (m0 a b).filled :=
      fun a b => (nearStep_filled cols rows st en x y m d a b).trans (hF a b)
    have ihab := ih m0 (nearStep cols rows st en x y m d) hT1 hF1 a b
    rw [List.foldl_cons]
    refine ⟨ihab.1, ihab.2.1, ?_⟩
    rw [ihab.2.2]
    by_cases h1 : (∃ d2 ∈ offs, a = x + d2.1 ∧ b = y + d2.2) ∧ inBounds cols rows a b = true
    · rw [if_pos h1, if_pos ⟨⟨h1.1.choose, List.mem_cons_of_mem _ h1.1.choose_spec.1,
        h1.1.choose_spec.2⟩, h1.2⟩]
    · rw [if_neg h1]
      by_cases hd : (a = x + d.1 ∧ b = y + d.2) ∧ inBounds cols rows a b = true
      · rw [if_pos ⟨⟨d, List.mem_cons_self d offs, hd.1⟩, hd.2⟩]
        unfold nearStep
        obtain ⟨⟨ha, hb⟩, hib⟩ := hd
        subst ha; subst hb
        rw [if_pos hib, updCell_self]
        exact (nearDeadEndVal_eq_spec cols rows st en m (x + d.1) (y + d.2)).trans
          (specIsDeadEnd_congr cols rows st en m m0 (x + d.1) (y + d.2) hT hF)
      · have hcons : ¬((∃ d2 ∈ d :: offs, a = x + d2.1 ∧ b = y + d2.2) ∧
            inBounds cols rows a b = true) := by
          rintro ⟨⟨d2, hd2, he⟩, hib⟩
          rcases List.mem_cons.mp hd2 with h | h
          · exact hd ⟨h ▸ he, hib⟩
          · exact h1 ⟨⟨d2, h, he⟩, hib⟩
        rw [if_neg hcons]
        unfold nearStep
        split
        · by_cases he : a = x + d.1 ∧ b = y + d.2
          · exfalso
            obtain ⟨ha, hb⟩ := he
            subst ha; subst hb
            rename_i hib
            exact hd ⟨⟨rfl, rfl⟩, hib⟩
          · rw [updCell_ne _ _ _ _ he]
        · rfl

lemma rdn_maze_type (s : GameState) (x y a b : Int) :
    ((recomputeDeadendsNear s x y).maze a b).type = (s.maze a b).type :=
  (nearFold_spec s.cols s.rows s.start s.end_ x y nearOffsets s.maze s.maze
    (fun _ _ => rfl) (fun _ _ => rfl) a b).1

lemma rdn_maze_filled (s : GameState) (x y a b : Int) :
    ((recomputeDeadendsNear s x y).maze a b).filled = (s.maze a b).filled :=
  (nearFold_spec s.cols s.rows s.start s.end_ x y nearOffsets s.maze s.maze
    (fun _ _ => rfl) (fun _ _ => rfl) a b).2.1

lemma rdn_maze_deadEnd (s : GameState) (x y a b : Int) :
    ((recomputeDeadendsNear s x y).maze a b).deadEnd =
      (if NearCross x y a b ∧ inBounds s.cols s.rows a b = true then
        specIsDeadEnd s.cols s.rows s.start s.end_ s.maze a b
      else (s.maze a b).deadEnd) := by
  rw [show ((recomputeDeadendsNear s x y).maze a b).deadEnd = _ from
    (nearFold_spec s.cols s.rows s.start s.end_ x y nearOffsets s.maze s.maze
      (fun _ _ => rfl) (fun _ _ => rfl) a b).2.2]
  exact if_congr Iff.rfl rfl rfl

lemma rdn_cols (s : GameState) (x y : Int) : (recomputeDeadendsNear s x y).cols = s.cols := rfl

lemma rdn_rows (s : GameState) (x y : Int) : (recomputeDeadendsNear s x y).rows = s.rows := rfl

lemma rdn_start (s : GameState) (x y : Int) : (recomputeDeadendsNear s x y).start = s.start := rfl

lemma rdn_end (s : GameState) (x y : Int) : (recomputeDeadendsNear s x y).end_ = s.end_ := rfl

lemma rdn_player (s : GameState) (x y : Int) :
    (recomputeDeadendsNear s x y).player = s.player := rfl

lemma rdn_undoStack (s : GameState) (x y : Int) :
    (recomputeDeadendsNear s x y).undoStack = s.undoStack := rfl

lemma countWalkableNeighbors_congr_local (cols rows : Int) (m m2 : Maze) (a b : Int)
    (h1t : (m (a + 1) b).type = (m2 (a + 1) b).type)
    (h1f : (m (a + 1) b).filled = (m2 (a + 1) b).filled)
    (h2t : (m (a - 1) b).type = (m2 (a - 1) b).type)
    (h2f : (m (a - 1) b).filled = (m2 (a - 1) b).filled)
    (h3t : (m a (b + 1)).type = (m2 a (b + 1)).type)
    (h3f : (m a (b + 1)).filled = (m2 a (b + 1)).filled)
    (h4t : (m a (b - 1)).type = (m2 a (b - 1)).type)
    (h4f : (m a (b - 1)).filled = (m2 a (b - 1)).filled) :
    countWalkableNeighbors cols rows m a b = countWalkableNeighbors cols rows m2 a b := by
  simp only [countWalkableNeighbors, nbr4, List.foldl_cons, List.foldl_nil, add_zero,
    ← sub_eq_add_neg]
  rw [h1t, h1f, h2t, h2f, h3t, h3f, h4t, h4f]

/-- The dead-end predicate at `(a,b)` reads only the `type`/`filled` fields of
the cell and its 4 neighbors. -/
lemma specIsDeadEnd_congr_local (cols rows : Int) (st en : Int × Int) (m m2 : Maze)
    (a b : Int)
    (h0t : (m a b).type = (m2 a b).type) (h0f : (m a b).filled = (m2 a b).filled)
    (h1t : (m (a + 1) b).type = (m2 (a + 1) b).type)
    (h1f : (m (a + 1) b).filled = (m2 (a + 1) b).filled)
    (h2t : (m (a - 1) b).type = (m2 (a - 1) b).type)
    (h2f : (m (a - 1) b).filled = (m2 (a - 1) b).filled)
    (h3t : (m a (b + 1)).type = (m2 a (b + 1)).type)
    (h3f : (m a (b + 1)).filled = (m2 a (b + 1)).filled)
    (h4t : (m a (b - 1)).type = (m2 a (b - 1)).type)
    (h4f : (m a (b - 1)).filled = (m2 a (b - 1)).filled) :
    specIsDeadEnd cols rows st en m a b = specIsDeadEnd cols rows st en m2 a b := by
  unfold specIsDeadEnd
  rw [h0t, h0f, countWalkableNeighbors_congr_local cols rows m m2 a b
    h1t h1f h2t h2f h3t h3f h4t h4f]

/-- If `(a,b)` lies outside the cross centred at `(px,py)`, then none of the
five cells the dead-end predicate at `(a,b)` reads is `(px,py)`. -/
lemma offCross_local_ne (px py a b : Int) (h : ¬ NearCross px py a b) :
    ¬(a = px ∧ b = py) ∧ ¬(a + 1 = px ∧ b = py) ∧ ¬(a - 1 = px ∧ b = py) ∧
      ¬(a = px ∧ b + 1 = py) ∧ ¬(a = px ∧ b - 1 = py) := by
  refine ⟨?_, ?_, ?_, ?_, ?_⟩
  · rintro ⟨rfl, rfl⟩
    exact h ⟨(0, 0), by simp [nearOffsets]⟩
  · rintro ⟨hx, hy⟩
    exact h ⟨(-1, 0), by simp [nearOffsets], by omega, by omega⟩
  · rintro ⟨hx, hy⟩
    exact h ⟨(1, 0), by simp [nearOffsets], by omega, by omega⟩
  · rintro ⟨hx, hy⟩
    exact h ⟨(0, -1), by simp [nearOffsets], by omega, by omega⟩
  · rintro ⟨hx, hy⟩
    exact h ⟨(0, 1), by simp [nearOffsets], by omega, by omega⟩

/-- A single-cell update at a point outside the `recomputeDeadendsNear`
neighborhood of `(a,b)` cannot change the dead-end predicate at `(a,b)`. -/
lemma specIsDeadEnd_updCell_off_cross (cols rows : Int) (st en : Int × Int) (m : Maze)
    (px py : Int) (f : MazeCell → MazeCell) (a b : Int) (h : ¬ NearCross px py a b) :
    specIsDeadEnd cols rows st en (updCell m px py f) a b =
      specIsDeadEnd cols rows st en m a b := by
  obtain ⟨n0, n1, n2, n3, n4⟩ := offCross_local_ne px py a b h
  apply specIsDeadEnd_congr_local <;>
    rw [updCell_ne m px py f (by assumption)]

/-- After any maze edit at `(px,py)` (and any edits of `deadEnd` fields
elsewhere), running the local recompute at `(px,py)` re-establishes the
dead-end invariant, provided cells outside the rewritten cross already
satisfied it. -/
lemma rdn_inv (s : GameState) (px py : Int)
    (h : ∀ a b, inBounds s.cols s.rows a b = true → ¬ NearCross px py a b →
      (s.maze a b).deadEnd = specIsDeadEnd s.cols s.rows s.start s.end_ s.maze a b) :
    DeadEndInv (recomputeDeadendsNear s px py) := by
  intro a b hin
  rw [rdn_cols, rdn_rows] at hin
  have hT := rdn_maze_type s px py
  have hF := rdn_maze_filled s px py
  rw [rdn_cols, rdn_rows, rdn_start, rdn_end,
    specIsDeadEnd_congr s.cols s.rows s.start s.end_ _ s.maze a b hT hF,
    rdn_maze_deadEnd]
  by_cases hc : NearCross px py a b
  · rw [if_pos ⟨hc, hin⟩]
  · rw [if_neg (fun hx => hc hx.1)]
    exact h a b hin hc

/-! ## The full recompute -/

lemma rall_maze_type (s : GameState) (x y : Int) :
    ((recomputeAllDeadEnds s).maze x y).type = (s.maze x y).type := by
  unfold recomputeAllDeadEnds
  dsimp only
  split <;> rfl

lemma rall_maze_filled (s : GameState) (x y : Int) :
    ((recomputeAllDeadEnds s).maze x y).filled = (s.maze x y).filled := by
  unfold recomputeAllDeadEnds
  dsimp only
  split <;> rfl

lemma rall_maze_deadEnd (s : GameState) (x y : Int) :
    ((recomputeAllDeadEnds s).maze x y).deadEnd =
      (if inBounds s.cols s.rows x y = true then allDeadEndCalc s x y
       else (s.maze x y).deadEnd) := by
  unfold recomputeAllDeadEnds
  dsimp only
  split <;> rfl

lemma allDeadEndCalc_eq_spec (s : GameState) (h : Unfilled s) (x y : Int) :
    allDeadEndCalc s x y = specIsDeadEnd s.cols s.rows s.start s.end_ s.maze x y := by
  unfold allDeadEndCalc specIsDeadEnd
  rw [countWalkable_eq_countPath s.cols s.rows s.maze x y h]
  by_cases hT : (s.maze x y).type = CellType.path
  · simp [hT, h x y]
  · simp [hT]

lemma rall_inv (s : GameState) (h : Unfilled s) : DeadEndInv (recomputeAllDeadEnds s) := by
  intro a b hin
  have hT := rall_maze_type s
  have hF := rall_maze_filled s
  have hcols : (recomputeAllDeadEnds s).cols = s.cols := rfl
  have hrows : (recomputeAllDeadEnds s).rows = s.rows := rfl
  rw [hcols, hrows] at hin
  have hst : (recomputeAllDeadEnds s).start = s.start := rfl
  have hen : (recomputeAllDeadEnds s).end_ = s.end_ := rfl
  rw [hcols, hrows, hst, hen,
    specIsDeadEnd_congr s.cols s.rows s.start s.end_ _ s.maze a b (fun a b => hT a b)
      (fun a b => hF a b),
    rall_maze_deadEnd, if_pos hin]
  exact allDeadEndCalc_eq_spec s h a b

/-! ## Claim C2: the full recompute versus the dead-end definition -/

lemma demoState_unfilled : Unfilled demoState := by
  intro a b
  show (demoMaze a b).filled = false
  unfold demoMaze
  split
  · rfl
  · split <;> rfl

/-- C2, as stated, is false: the full recompute ignores the `filled` flag, so
on a grid with a filled path cell having exactly one path neighbor it sets
`isDeadEnd = true` on a filled cell, which the claimed definition forbids. -/
theorem full_recompute_filled_cell_cex :
    ((recomputeAllDeadEnds filledCorridorState).maze 2 1).deadEnd = true ∧
    ((recomputeAllDeadEnds filledCorridorState).maze 2 1).filled = true := by
  constructor
  · decide
  · decide

/-- C2 (amended): after the full recompute runs on a grid in which no cell is
filled — which is the case whenever the program runs it: at generation and on
reset, both on freshly cleared grids — every in-bounds cell satisfies the
dead-end definition: `isDeadEnd` is true iff the cell is `Path`, not filled,
has exactly one walkable 4-neighbor, and is neither Start nor End.  (On grids
with filled cells the source's full recompute counts neighbors by `type`
alone and ignores `filled`, so the definition can fail there.) -/
theorem full_recompute_establishes_deadend_definition (s : GameState) (h : Unfilled s)
    (x y : Int) (hin : inBounds s.cols s.rows x y = true) :
    ((recomputeAllDeadEnds s).maze x y).deadEnd =
      specIsDeadEnd s.cols s.rows s.start s.end_ (recomputeAllDeadEnds s).maze x y :=
  rall_inv s h x y hin

/-- Witness for C2's amended theorem at a concrete unfilled grid and cell. -/
theorem full_recompute_establishes_deadend_definition_witness :
    Unfilled demoState ∧ inBounds demoState.cols demoState.rows 2 2 = true ∧
    ((recomputeAllDeadEnds demoState).maze 2 2).deadEnd =
      specIsDeadEnd demoState.cols demoState.rows demoState.start demoState.end_
        (recomputeAllDeadEnds demoState).maze 2 2 :=
  ⟨demoState_unfilled, by decide,
    full_recompute_establishes_deadend_definition demoState demoState_unfilled 2 2 (by decide)⟩

/-! ## Claim C9: invalid moves are silent no-ops -/

/-- C9: an `attemptMove` whose destination is not walkable (wall, out of
bounds, or filled) returns the state unchanged — grid, agent position, score,
visited count and undo stack included — and, being a total function here as
in the source (the guard is the first statement), raises nothing. -/
theorem invalid_move_is_noop (s : GameState) (dx dy : Int) (rev : Bool) (diff : String)
    (h : isWalkable s (s.player.1 + dx) (s.player.2 + dy) = false) :
    attemptMove s dx dy rev diff = s := by
  simp [attemptMove, h]

/-- Witness for C9: at `demoState`, moving up from `(2,1)` hits the wall
`(2,0)` and changes nothing. -/
theorem invalid_move_is_noop_witness :
    isWalkable demoState (demoState.player.1 + 0) (demoState.player.2 + (-1)) = false ∧
    attemptMove demoState 0 (-1) false "normal" = demoState :=
  ⟨by decide, invalid_move_is_noop demoState 0 (-1) false "normal" (by decide)⟩

/-! ## Unfolding a successful filling move -/

lemma isWalkable_iff (s : GameState) (x y : Int) :
    isWalkable s x y = true ↔
      inBounds s.cols s.rows x y = true ∧ (s.maze x y).type = CellType.path ∧
        (s.maze x y).filled = false := by
  simp [isWalkable]

/-- A successful move with reverse mode off, from a walkable cell, staged as:
counter/stack/player updates, the conditional dead-end bonus, the fill of the
departed cell, then the local recompute there. -/
lemma attemptMove_succ (s : GameState) (dx dy : Int) (diff : String)
    (h : isWalkable s (s.player.1 + dx) (s.player.2 + dy) = true)
    (hT : (s.maze s.player.1 s.player.2).type = CellType.path)
    (hF : (s.maze s.player.1 s.player.2).filled = false) :
    attemptMove s dx dy false diff =
      recomputeDeadendsNear
        { cols := s.cols, rows := s.rows,
          maze := updCell
            (if (s.maze (s.player.1 + dx) (s.player.2 + dy)).deadEnd = true ∧
                ¬(s.player.1 + dx = s.start.1 ∧ s.player.2 + dy = s.start.2) ∧
                ¬(s.player.1 + dx = s.end_.1 ∧ s.player.2 + dy = s.end_.2) then
              updCell s.maze (s.player.1 + dx) (s.player.2 + dy)
                (fun c => { c with deadEnd := false })
            else s.maze)
            s.player.1 s.player.2 (fun c => { c with filled := true }),
          player := (s.player.1 + dx, s.player.2 + dy),
          start := s.start, end_ := s.end_,
          originalPathCount := s.originalPathCount,
          visitedCount := s.visitedCount + 1,
          undoStack := ⟨s.player.1, s.player.2, some (s.player.1, s.player.2)⟩ :: s.undoStack,
          score := (if (s.maze (s.player.1 + dx) (s.player.2 + dy)).deadEnd = true ∧
                ¬(s.player.1 + dx = s.start.1 ∧ s.player.2 + dy = s.start.2) ∧
                ¬(s.player.1 + dx = s.end_.1 ∧ s.player.2 + dy = s.end_.2) then
              s.score + 1 + bonusFor diff
            else s.score + 1) }
        s.player.1 s.player.2 := by
  unfold attemptMove
  rw [if_pos h]
  dsimp only
  rw [if_pos ⟨rfl, hT, hF⟩]
  dsimp only
  split
  · rfl
  · rfl

lemma mazeCell_eq (c1 c2 : MazeCell) (hT : c1.type = c2.type) (hF : c1.filled = c2.filled)
    (hD : c1.deadEnd = c2.deadEnd) : c1 = c2 := by
  cases c1
  cases c2
  simp only [MazeCell.mk.injEq]
  exact ⟨hT, hF, hD⟩

lemma unitStep_nearCross (px py dx dy : Int) (hu : UnitStep dx dy) :
    NearCross px py (px + dx) (py + dy) := by
  rcases hu with ⟨rfl, rfl⟩ | ⟨rfl, rfl⟩ | ⟨rfl, rfl⟩ | ⟨rfl, rfl⟩
  · exact ⟨(1, 0), by simp [nearOffsets]⟩
  · exact ⟨(-1, 0), by simp [nearOffsets]⟩
  · exact ⟨(0, 1), by simp [nearOffsets]⟩
  · exact ⟨(0, -1), by simp [nearOffsets]⟩

lemma nearCross_self (px py : Int) : NearCross px py px py :=
  ⟨(0, 0), by simp [nearOffsets]⟩


lemma updCell_pres_type (m : Maze) (x y : Int) (f : MazeCell → MazeCell)
    (hf : ∀ c, (f c).type = c.type) (a b : Int) :
    ((updCell m x y f) a b).type = (m a b).type := by
  by_cases hab : a = x ∧ b = y
  · obtain ⟨rfl, rfl⟩ := hab
    rw [updCell_self]
    exact hf _
  · rw [updCell_ne m x y f hab]

lemma updCell_pres_filled (m : Maze) (x y : Int) (f : MazeCell → MazeCell)
    (hf : ∀ c, (f c).filled = c.filled) (a b : Int) :
    ((updCell m x y f) a b).filled = (m a b).filled := by
  by_cases hab : a = x ∧ b = y
  · obtain ⟨rfl, rfl⟩ := hab
    rw [updCell_self]
    exact hf _
  · rw [updCell_ne m x y f hab]

lemma updCell_pres_deadEnd (m : Maze) (x y : Int) (f : MazeCell → MazeCell)
    (hf : ∀ c, (f c).deadEnd = c.deadEnd) (a b : Int) :
    ((updCell m x y f) a b).deadEnd = (m a b).deadEnd := by
  by_cases hab : a = x ∧ b = y
  · obtain ⟨rfl, rfl⟩ := hab
    rw [updCell_self]
    exact hf _
  · rw [updCell_ne m x y f hab]

lemma attemptMove_of_not_walkable (s : GameState) (dx dy : Int) (rev : Bool) (diff : String)
    (h : isWalkable s (s.player.1 + dx) (s.player.2 + dy) = false) :
    attemptMove s dx dy rev diff = s := by
  simp [attemptMove, h]

lemma am_projections (s : GameState) (dx dy : Int) (diff : String)
    (h : isWalkable s (s.player.1 + dx) (s.player.2 + dy) = true)
    (hT : (s.maze s.player.1 s.player.2).type = CellType.path)
    (hF : (s.maze s.player.1 s.player.2).filled = false) :
    (attemptMove s dx dy false diff).cols = s.cols ∧
    (attemptMove s dx dy false diff).rows = s.rows ∧
    (attemptMove s dx dy false diff).start = s.start ∧
    (attemptMove s dx dy false diff).end_ = s.end_ ∧
    (attemptMove s dx dy false diff).player = (s.player.1 + dx, s.player.2 + dy) ∧
    (attemptMove s dx dy false diff).undoStack =
      ⟨s.player.1, s.player.2, some (s.player.1, s.player.2)⟩ :: s.undoStack := by
  rw [attemptMove_succ s dx dy diff h hT hF]
  exact ⟨rfl, rfl, rfl, rfl, rfl, rfl⟩

lemma am_maze_type (s : GameState) (dx dy : Int) (diff : String)
    (h : isWalkable s (s.player.1 + dx) (s.player.2 + dy) = true)
    (hT : (s.maze s.player.1 s.player.2).type = CellType.path)
    (hF : (s.maze s.player.1 s.player.2).filled = false) (a b : Int) :
    ((attemptMove s dx dy false diff).maze a b).type = (s.maze a b).type := by
  rw [attemptMove_succ s dx dy diff h hT hF, rdn_maze_type]
  dsimp only
  rw [updCell_pres_type _ _ _ (fun c => { c with filled := true }) (fun _ => rfl)]
  split
  · rw [updCell_pres_type _ _ _ (fun c => { c with deadEnd := false }) (fun _ => rfl)]
  · rfl

lemma am_maze_filled (s : GameState) (dx dy : Int) (diff : String)
    (h : isWalkable s (s.player.1 + dx) (s.player.2 + dy) = true)
    (hT : (s.maze s.player.1 s.player.2).type = CellType.path)
    (hF : (s.maze s.player.1 s.player.2).filled = false) (a b : Int) :
    ((attemptMove s dx dy false diff).maze a b).filled =
      (if a = s.player.1 ∧ b = s.player.2 then true else (s.maze a b).filled) := by
  rw [attemptMove_succ s dx dy diff h hT hF, rdn_maze_filled]
  dsimp only
  by_cases hab : a = s.player.1 ∧ b = s.player.2
  · obtain ⟨rfl, rfl⟩ := hab
    rw [updCell_self,
      if_pos (⟨rfl, rfl⟩ : s.player.1 = s.player.1 ∧ s.player.2 = s.player.2)]
  · rw [updCell_ne _ _ _ _ hab, if_neg hab]
    split
    · rw [updCell_pres_filled _ _ _ (fun c => { c with deadEnd := false }) (fun _ => rfl)]
    · rfl

lemma am_maze_deadEnd_off (s : GameState) (dx dy : Int) (diff : String)
    (h : isWalkable s (s.player.1 + dx) (s.player.2 + dy) = true)
    (hT : (s.maze s.player.1 s.player.2).type = CellType.path)
    (hF : (s.maze s.player.1 s.player.2).filled = false)
    (hu : UnitStep dx dy) (a b : Int)
    (hnc : ¬(NearCross s.player.1 s.player.2 a b ∧ inBounds s.cols s.rows a b = true)) :
    ((attemptMove s dx dy false diff).maze a b).deadEnd = (s.maze a b).deadEnd := by
  have hdin : inBounds s.cols s.rows (s.player.1 + dx) (s.player.2 + dy) = true :=
    ((isWalkable_iff s _ _).mp h).1
  rw [attemptMove_succ s dx dy diff h hT hF, rdn_maze_deadEnd]
  rw [if_neg hnc]
  dsimp only
  rw [updCell_pres_deadEnd _ _ _ (fun c => { c with filled := true }) (fun _ => rfl)]
  have hne : ¬(a = s.player.1 + dx ∧ b = s.player.2 + dy) := by
    rintro ⟨rfl, rfl⟩
    exact hnc ⟨unitStep_nearCross s.player.1 s.player.2 dx dy hu, hdin⟩
  split
  · rw [updCell_ne _ _ _ _ hne]
  · rfl

lemma am_maze_deadEnd_cross (s : GameState) (dx dy : Int) (diff : String)
    (h : isWalkable s (s.player.1 + dx) (s.player.2 + dy) = true)
    (hT : (s.maze s.player.1 s.player.2).type = CellType.path)
    (hF : (s.maze s.player.1 s.player.2).filled = false) (a b : Int)
    (hc : NearCross s.player.1 s.player.2 a b ∧ inBounds s.cols s.rows a b = true) :
    ((attemptMove s dx dy false diff).maze a b).deadEnd =
      specIsDeadEnd s.cols s.rows s.start s.end_ (attemptMove s dx dy false diff).maze a b := by
  have hTall := am_maze_type s dx dy diff h hT hF
  have hFall : ∀ a2 b2, ((attemptMove s dx dy false diff).maze a2 b2).filled =
      (if a2 = s.player.1 ∧ b2 = s.player.2 then true else (s.maze a2 b2).filled) :=
    am_maze_filled s dx dy diff h hT hF
  rw [attemptMove_succ s dx dy diff h hT hF] at hTall hFall ⊢
  rw [rdn_maze_deadEnd, if_pos hc]
  apply specIsDeadEnd_congr
  · intro a2 b2
    rw [hTall a2 b2]
    dsimp only
    rw [updCell_pres_type _ _ _ (fun c => { c with filled := true }) (fun _ => rfl)]
    split
    · rw [updCell_pres_type _ _ _ (fun c => { c with deadEnd := false }) (fun _ => rfl)]
    · rfl
  · intro a2 b2
    rw [hFall a2 b2]
    dsimp only
    by_cases hab : a2 = s.player.1 ∧ b2 = s.player.2
    · obtain ⟨rfl, rfl⟩ := hab
      rw [updCell_self,
        if_pos (⟨rfl, rfl⟩ : s.player.1 = s.player.1 ∧ s.player.2 = s.player.2)]
    · rw [updCell_ne _ _ _ _ hab, if_neg hab]
      split
      · rw [updCell_pres_filled _ _ _ (fun c => { c with deadEnd := false }) (fun _ => rfl)]
      · rfl

lemma undo_eq_of_stack (s2 : GameState) (pX pY : Int) (rest : List UndoRecord)
    (hstack : s2.undoStack = ⟨pX, pY, some (pX, pY)⟩ :: rest) :
    undo s2 =
      { (recomputeDeadendsNear
          { s2 with
            undoStack := rest
            maze := updCell s2.maze pX pY (fun c => { c with filled := false }) } pX pY)
        with player := (pX, pY) } := by
  unfold undo
  rw [hstack]

/-- C4 (amended): from a state whose dead-end flags satisfy the dead-end
definition and whose agent stands on a walkable cell, a successful unit-step
`attemptMove` with fill suppression (reverse mode) off, followed immediately
by `undo()`, restores the entire grid (every cell's `type`, `filled` and
`isDeadEnd`), the agent position, and the undo stack; the accumulated score
and the visited counter are not restored.  With reverse mode on, the one-time
dead-end bonus clears the destination's `isDeadEnd` and no fill/recompute
happens, so the flag is not restored (see the counterexample). -/
theorem undo_reverses_move (s : GameState) (dx dy : Int) (diff : String)
    (hInv : DeadEndInv s)
    (hpw : isWalkable s s.player.1 s.player.2 = true)
    (hu : UnitStep dx dy)
    (h : isWalkable s (s.player.1 + dx) (s.player.2 + dy) = true) :
    (undo (attemptMove s dx dy false diff)).maze = s.maze ∧
    (undo (attemptMove s dx dy false diff)).player = s.player ∧
    (undo (attemptMove s dx dy false diff)).undoStack = s.undoStack := by
  obtain ⟨hpin, hpT, hpF⟩ := (isWalkable_iff s s.player.1 s.player.2).mp hpw
  have hSt := am_projections s dx dy diff h hpT hpF
  have hTt := am_maze_type s dx dy diff h hpT hpF
  have hFf := am_maze_filled s dx dy diff h hpT hpF
  have hDoff := am_maze_deadEnd_off s dx dy diff h hpT hpF hu
  rw [undo_eq_of_stack (attemptMove s dx dy false diff) s.player.1 s.player.2 s.undoStack
    hSt.2.2.2.2.2]
  have hUt : ∀ a b,
      ((updCell (attemptMove s dx dy false diff).maze s.player.1 s.player.2
        (fun c => { c with filled := false })) a b).type = (s.maze a b).type := by
    intro a b
    rw [updCell_pres_type _ _ _ (fun c => { c with filled := false }) (fun _ => rfl)]
    exact hTt a b
  have hUf : ∀ a b,
      ((updCell (attemptMove s dx dy false diff).maze s.player.1 s.player.2
        (fun c => { c with filled := false })) a b).filled = (s.maze a b).filled := by
    intro a b
    by_cases hab : a = s.player.1 ∧ b = s.player.2
    · obtain ⟨rfl, rfl⟩ := hab
      rw [updCell_self]
      exact hpF.symm
    · rw [updCell_ne _ _ _ _ hab, hFf a b, if_neg hab]
  refine ⟨?_, rfl, rfl⟩
  funext a b
  apply mazeCell_eq
  · rw [rdn_maze_type]
    exact hUt a b
  · rw [rdn_maze_filled]
    exact hUf a b
  · rw [rdn_maze_deadEnd]
    dsimp only
    rw [hSt.1, hSt.2.1, hSt.2.2.1, hSt.2.2.2.1]
    by_cases hc : NearCross s.player.1 s.player.2 a b ∧ inBounds s.cols s.rows a b = true
    · rw [if_pos hc, hInv a b hc.2]
      exact specIsDeadEnd_congr s.cols s.rows s.start s.end_ _ s.maze a b hUt hUf
    · rw [if_neg hc]
      rw [updCell_pres_deadEnd _ _ _ (fun c => { c with filled := false }) (fun _ => rfl)]
      exact hDoff a b hc

lemma demoState_deadEndInv : DeadEndInv demoState := by
  intro a b hin
  have hb : 0 ≤ a ∧ 0 ≤ b ∧ a < 5 ∧ b < 4 := by
    simpa [inBounds, demoState, and_assoc] using hin
  obtain ⟨h1, h2, h3, h4⟩ := hb
  interval_cases a <;> interval_cases b <;> decide

/-- C4, as stated, is false: a successful move onto a dead end with reverse
mode on (fill suppression) collects the one-time bonus and clears the
destination's `isDeadEnd`; the immediately following `undo` restores the agent
position but not that flag. -/
theorem undo_reverses_move_cex :
    isWalkable demoState (demoState.player.1 + 0) (demoState.player.2 + 1) = true ∧
    (demoState.maze 2 2).deadEnd = true ∧
    (undo (attemptMove demoState 0 1 true "normal")).player = demoState.player ∧
    ((undo (attemptMove demoState 0 1 true "normal")).maze 2 2).deadEnd = false := by
  refine ⟨by decide, by decide, by decide, by decide⟩

/-- Witness for C4's amended theorem: a filling move down onto the dead end
`(2,2)` of `demoState` and back. -/
theorem undo_reverses_move_witness :
    isWalkable demoState demoState.player.1 demoState.player.2 = true ∧
    isWalkable demoState (demoState.player.1 + 0) (demoState.player.2 + 1) = true ∧
    ((undo (attemptMove demoState 0 1 false "normal")).maze = demoState.maze ∧
      (undo (attemptMove demoState 0 1 false "normal")).player = demoState.player ∧
      (undo (attemptMove demoState 0 1 false "normal")).undoStack = demoState.undoStack) :=
  ⟨by decide, by decide,
    undo_reverses_move demoState 0 1 "normal" demoState_deadEndInv (by decide)
      (Or.inr (Or.inr (Or.inl ⟨rfl, rfl⟩))) (by decide)⟩

/-! ## Preservation of the session invariants -/

lemma attemptMove_StateOK (s : GameState) (dx dy : Int) (diff : String)
    (hOK : StateOK s) (hu : UnitStep dx dy) :
    StateOK (attemptMove s dx dy false diff) := by
  obtain ⟨hInv, hpw, hstk⟩ := hOK
  by_cases h : isWalkable s (s.player.1 + dx) (s.player.2 + dy) = true
  · obtain ⟨hpin, hpT, hpF⟩ := (isWalkable_iff s s.player.1 s.player.2).mp hpw
    obtain ⟨hdin, hdT, hdF⟩ :=
      (isWalkable_iff s (s.player.1 + dx) (s.player.2 + dy)).mp h
    have hSt := am_projections s dx dy diff h hpT hpF
    have hTt := am_maze_type s dx dy diff h hpT hpF
    have hFf := am_maze_filled s dx dy diff h hpT hpF
    have hdne : ¬(s.player.1 + dx = s.player.1 ∧ s.player.2 + dy = s.player.2) := by
      rcases hu with ⟨rfl, rfl⟩ | ⟨rfl, rfl⟩ | ⟨rfl, rfl⟩ | ⟨rfl, rfl⟩ <;>
        rintro ⟨e1, e2⟩ <;> omega
    refine ⟨?_, ?_, ?_⟩
    · intro a b hin
      rw [hSt.1, hSt.2.1] at hin
      rw [hSt.1, hSt.2.1, hSt.2.2.1, hSt.2.2.2.1]
      by_cases hc : NearCross s.player.1 s.player.2 a b ∧ inBounds s.cols s.rows a b = true
      · exact am_maze_deadEnd_cross s dx dy diff h hpT hpF a b hc
      · rw [am_maze_deadEnd_off s dx dy diff h hpT hpF hu a b hc, hInv a b hin]
        obtain ⟨n0, n1, n2, n3, n4⟩ :=
          offCross_local_ne s.player.1 s.player.2 a b (fun hx => hc ⟨hx, hin⟩)
        apply specIsDeadEnd_congr_local
        · exact (hTt a b).symm
        · rw [hFf a b, if_neg n0]
        · exact (hTt (a + 1) b).symm
        · rw [hFf (a + 1) b, if_neg n1]
        · exact (hTt (a - 1) b).symm
        · rw [hFf (a - 1) b, if_neg n2]
        · exact (hTt a (b + 1)).symm
        · rw [hFf a (b + 1), if_neg n3]
        · exact (hTt a (b - 1)).symm
        · rw [hFf a (b - 1), if_neg n4]
    · rw [isWalkable_iff, hSt.1, hSt.2.1, hSt.2.2.2.2.1]
      refine ⟨hdin, ?_, ?_⟩
      · rw [hTt]
        exact hdT
      · rw [hFf, if_neg hdne]
        exact hdF
    · intro rec2 hr
      rw [hSt.2.2.2.2.2] at hr
      rw [hSt.1, hSt.2.1]
      rcases List.mem_cons.mp hr with rfl | hr2
      · refine ⟨rfl, ?_, hpin⟩
        rw [hTt]
        exact hpT
      · obtain ⟨e1, e2, e3⟩ := hstk rec2 hr2
        refine ⟨e1, ?_, e3⟩
        rw [hTt]
        exact e2
  · have hff : isWalkable s (s.player.1 + dx) (s.player.2 + dy) = false := by
      revert h
      cases isWalkable s (s.player.1 + dx) (s.player.2 + dy) <;> simp
    rw [attemptMove_of_not_walkable s dx dy false diff hff]
    exact ⟨hInv, hpw, hstk⟩

lemma undo_StateOK (s : GameState) (hOK : StateOK s) : StateOK (undo s) := by
  obtain ⟨hInv, hpw, hstk⟩ := hOK
  cases hst : s.undoStack with
  | nil =>
    have he : undo s = s := by
      unfold undo
      rw [hst]
    rw [he]
    exact ⟨hInv, hpw, hstk⟩
  | cons last rest =>
    obtain ⟨hrf, hrT, hrin⟩ := hstk last (by rw [hst]; exact List.mem_cons_self last rest)
    have hlast : last = ⟨last.prevX, last.prevY, some (last.prevX, last.prevY)⟩ := by
      cases last
      simpa using hrf
    have he := undo_eq_of_stack s last.prevX last.prevY rest (by rw [hst]; rw [← hlast])
    rw [he]
    have hUt : ∀ a b,
        ((updCell s.maze last.prevX last.prevY (fun c => { c with filled := false })) a b).type =
          (s.maze a b).type := fun a b =>
      updCell_pres_type _ _ _ (fun c => { c with filled := false }) (fun _ => rfl) a b
    refine ⟨?_, ?_, ?_⟩
    · intro a b hin
      have hin2 : inBounds s.cols s.rows a b = true := hin
      show ((recomputeDeadendsNear
          { s with
            undoStack := rest
            maze := updCell s.maze last.prevX last.prevY
              (fun c => { c with filled := false }) } last.prevX last.prevY).maze a b).deadEnd =
        specIsDeadEnd s.cols s.rows s.start s.end_
          (recomputeDeadendsNear
            { s with
              undoStack := rest
              maze := updCell s.maze last.prevX last.prevY
                (fun c => { c with filled := false }) } last.prevX last.prevY).maze a b
      rw [rdn_maze_deadEnd]
      by_cases hc : NearCross last.prevX last.prevY a b ∧ inBounds s.cols s.rows a b = true
      · rw [if_pos hc]
        exact specIsDeadEnd_congr s.cols s.rows s.start s.end_ _ _ a b
          (fun a2 b2 => (rdn_maze_type { s with
              undoStack := rest
              maze := updCell s.maze last.prevX last.prevY
                (fun c => { c with filled := false }) } last.prevX last.prevY a2 b2).symm)
          (fun a2 b2 => (rdn_maze_filled { s with
              undoStack := rest
              maze := updCell s.maze last.prevX last.prevY
                (fun c => { c with filled := false }) } last.prevX last.prevY a2 b2).symm)
      · rw [if_neg hc]
        calc (updCell s.maze last.prevX last.prevY
              (fun c => { c with filled := false }) a b).deadEnd
            = (s.maze a b).deadEnd :=
              updCell_pres_deadEnd _ _ _ (fun c => { c with filled := false })
                (fun _ => rfl) a b
          _ = specIsDeadEnd s.cols s.rows s.start s.end_ s.maze a b := hInv a b hin2
          _ = specIsDeadEnd s.cols s.rows s.start s.end_
                (updCell s.maze last.prevX last.prevY
                  (fun c => { c with filled := false })) a b :=
              (specIsDeadEnd_updCell_off_cross s.cols s.rows s.start s.end_ s.maze
                last.prevX last.prevY (fun c => { c with filled := false }) a b
                (fun hx => hc ⟨hx, hin2⟩)).symm
          _ = _ :=
              specIsDeadEnd_congr s.cols s.rows s.start s.end_ _ _ a b
                (fun a2 b2 => (rdn_maze_type { s with
              undoStack := rest
              maze := updCell s.maze last.prevX last.prevY
                (fun c => { c with filled := false }) } last.prevX last.prevY a2 b2).symm)
                (fun a2 b2 => (rdn_maze_filled { s with
              undoStack := rest
              maze := updCell s.maze last.prevX last.prevY
                (fun c => { c with filled := false }) } last.prevX last.prevY a2 b2).symm)
    · show isWalkable _ last.prevX last.prevY = true
      rw [isWalkable_iff]
      refine ⟨hrin, ?_, ?_⟩
      · show ((recomputeDeadendsNear _ last.prevX last.prevY).maze last.prevX last.prevY).type =
          CellType.path
        rw [rdn_maze_type]
        rw [hUt]
        exact hrT
      · show ((recomputeDeadendsNear _ last.prevX last.prevY).maze last.prevX last.prevY).filled =
          false
        rw [rdn_maze_filled]
        show (updCell s.maze last.prevX last.prevY
          (fun c => { c with filled := false }) last.prevX last.prevY).filled = false
        rw [updCell_self]
    · intro rec2 hr
      have hr2 : rec2 ∈ rest := hr
      obtain ⟨e1, e2, e3⟩ := hstk rec2 (by rw [hst]; exact List.mem_cons_of_mem last hr2)
      refine ⟨e1, ?_, e3⟩
      show ((recomputeDeadendsNear _ last.prevX last.prevY).maze rec2.prevX rec2.prevY).type =
        CellType.path
      rw [rdn_maze_type, hUt]
      exact e2

lemma applyOps_StateOK (diff : String) (ops : List MoveOp) (s : GameState)
    (hOK : StateOK s) (hu : ∀ op ∈ ops, OpUnit op) : StateOK (applyOps diff ops s) := by
  induction ops generalizing s with
  | nil => exact hOK
  | cons op rest ih =>
    cases op with
    | move dx dy =>
      exact ih (attemptMove s dx dy false diff)
        (attemptMove_StateOK s dx dy diff hOK (hu (MoveOp.move dx dy) (List.mem_cons_self _ _)))
        (fun o ho => hu o (List.mem_cons_of_mem _ ho))
    | undoMove =>
      exact ih (undo s) (undo_StateOK s hOK) (fun o ho => hu o (List.mem_cons_of_mem _ ho))

/-! ## The freshly generated state satisfies the invariants -/

lemma statOK_of_recomputeAll (s0 : GameState) (hU : Unfilled s0)
    (hpT : (s0.maze s0.player.1 s0.player.2).type = CellType.path)
    (hpin : inBounds s0.cols s0.rows s0.player.1 s0.player.2 = true)
    (hstk : s0.undoStack = []) : StateOK (recomputeAllDeadEnds s0) := by
  refine ⟨rall_inv s0 hU, ?_, ?_⟩
  · rw [isWalkable_iff]
    refine ⟨hpin, ?_, ?_⟩
    · rw [rall_maze_type]
      exact hpT
    · rw [rall_maze_filled]
      exact hU s0.player.1 s0.player.2
  · intro rec2 hr
    have : rec2 ∈ s0.undoStack := hr
    rw [hstk] at this
    exact absurd this (List.not_mem_nil rec2)

lemma carveLoop_pres_filled_deadEnd (fuel : Nat) :
    ∀ (cols rows : Int) (r : RandSrc) (m : Maze) (st : List (Int × Int)) (n : Nat),
      (∀ a b, (m a b).filled = false ∧ (m a b).deadEnd = false) →
      ∀ a b, (((carveLoop fuel cols rows r m st n).1) a b).filled = false ∧
        (((carveLoop fuel cols rows r m st n).1) a b).deadEnd = false := by
  induction fuel with
  | zero =>
    intro cols rows r m st n hm a b
    exact hm a b
  | succ fuel ih =>
    intro cols rows r m st n hm a b
    match st with
    | [] => exact hm a b
    | (cx, cy) :: rest =>
      rw [carveLoop]
      cases hfind : (shuffleDirs r n [(2, 0), (-2, 0), (0, 2), (0, -2)]).find?
          (fun d => inCarveRange cols rows (cx + d.1) (cy + d.2) &&
            decide ((m (cx + d.1) (cy + d.2)).type = CellType.wall)) with
      | some d =>
        simp only [hfind]
        refine ih cols rows r _ _ _ ?_ a b
        intro a2 b2
        constructor
        · rw [updCell_pres_filled _ _ _ (fun c => { c with type := CellType.path })
            (fun _ => rfl),
            updCell_pres_filled _ _ _ (fun c => { c with type := CellType.path })
            (fun _ => rfl)]
          exact (hm a2 b2).1
        · rw [updCell_pres_deadEnd _ _ _ (fun c => { c with type := CellType.path })
            (fun _ => rfl),
            updCell_pres_deadEnd _ _ _ (fun c => { c with type := CellType.path })
            (fun _ => rfl)]
          exact (hm a2 b2).2
      | none =>
        simp only [hfind]
        exact ih cols rows r m rest (n + 3) hm a b

lemma extraLoop_pres_filled_deadEnd (k : Nat) :
    ∀ (cols rows : Int) (shuf : ℚ) (r : RandSrc) (m : Maze) (n : Nat),
      (∀ a b, (m a b).filled = false ∧ (m a b).deadEnd = false) →
      ∀ a b, (((extraLoop k cols rows shuf r m n).1) a b).filled = false ∧
        (((extraLoop k cols rows shuf r m n).1) a b).deadEnd = false := by
  induction k with
  | zero =>
    intro cols rows shuf r m n hm a b
    exact hm a b
  | succ k ih =>
    intro cols rows shuf r m n hm a b
    rw [extraLoop]
    refine ih cols rows shuf r _ _ ?_ a b
    intro a2 b2
    dsimp only
    split
    · constructor
      · rw [updCell_pres_filled _ _ _ (fun c => { c with type := CellType.path })
          (fun _ => rfl)]
        exact (hm a2 b2).1
      · rw [updCell_pres_deadEnd _ _ _ (fun c => { c with type := CellType.path })
          (fun _ => rfl)]
        exact (hm a2 b2).2
    · exact hm a2 b2

lemma oddify_ge_three (n : Int) (h : 2 ≤ n) : 3 ≤ (if n % 2 = 0 then n + 1 else n) := by
  split <;> omega

lemma updCell_type_path_at (m : Maze) (x y a b : Int) (h : (m a b).type = CellType.path) :
    ((updCell m x y (fun c => { c with type := CellType.path })) a b).type = CellType.path := by
  by_cases hab : a = x ∧ b = y
  · obtain ⟨rfl, rfl⟩ := hab
    rw [updCell_self]
  · rw [updCell_ne _ _ _ _ hab]
    exact h

lemma generate_StateOK (cols0 rows0 : Int) (diff : String) (r : RandSrc)
    (h1 : 2 ≤ cols0) (h2 : 2 ≤ rows0) :
    StateOK (generateMazeIterative cols0 rows0 diff r) := by
  have h3 := oddify_ge_three cols0 h1
  have h4 := oddify_ge_three rows0 h2
  unfold generateMazeIterative
  dsimp only
  apply statOK_of_recomputeAll
  · intro a b
    dsimp only
    rw [updCell_pres_filled _ _ _ (fun c => { c with type := CellType.path }) (fun _ => rfl),
      updCell_pres_filled _ _ _ (fun c => { c with type := CellType.path }) (fun _ => rfl)]
    refine (extraLoop_pres_filled_deadEnd _ _ _ _ _ _ _ ?_ a b).1
    refine carveLoop_pres_filled_deadEnd _ _ _ _ _ _ _ ?_
    intro a2 b2
    constructor
    · rw [updCell_pres_filled _ _ _ (fun c => { c with type := CellType.path }) (fun _ => rfl)]
      rfl
    · rw [updCell_pres_deadEnd _ _ _ (fun c => { c with type := CellType.path }) (fun _ => rfl)]
      rfl
  · dsimp only
    apply updCell_type_path_at
    rw [updCell_self]
  · dsimp only
    simp only [inBounds, Bool.and_eq_true, decide_eq_true_eq]
    omega
  · rfl

/-! ## Claim C1: incremental maintenance versus full recompute -/

/-- C1, as stated, is false: on the 7×7 maze generated with the all-zeros
random stream, one successful move fills the start cell `(1,1)` and the local
recompute marks the corridor cell `(1,2)` a dead end (its only walkable
neighbor left is `(1,3)`); a full recompute over the resulting grid clears
that flag again, because it counts neighbors by `type` alone and ignores the
`filled` flag. -/
theorem incremental_vs_full_recompute_cex :
    (((applyOps "normal" [MoveOp.move 0 1]
        (generateMazeIterative 7 7 "normal" zeroSrc)).maze 1 2).deadEnd = true) ∧
    (((recomputeAllDeadEnds (applyOps "normal" [MoveOp.move 0 1]
        (generateMazeIterative 7 7 "normal" zeroSrc))).maze 1 2).deadEnd = false) :=
  ⟨by decide, by decide⟩

/-- C1 (amended): after any sequence of unit-step `attemptMove`/`undo` calls
with filling enabled (reverse mode off) on a freshly generated grid, the
incremental maintenance leaves `isDeadEnd = true` on exactly the in-bounds
cells satisfying the walkable dead-end definition of spec §3; and whenever
the resulting grid has no filled cell (for instance when every move has been
undone), this coincides with what one full `recomputeAllDeadEnds` over the
resulting grid produces.  (On grids with filled cells the full recompute
differs, since it ignores `filled` — see the counterexample.) -/
theorem incremental_deadends_match_definition (cols0 rows0 : Int) (diff : String)
    (r : RandSrc) (ops : List MoveOp)
    (h1 : 2 ≤ cols0) (h2 : 2 ≤ rows0) (hops : ∀ op ∈ ops, OpUnit op) :
    (∀ a b,
      inBounds (applyOps diff ops (generateMazeIterative cols0 rows0 diff r)).cols
        (applyOps diff ops (generateMazeIterative cols0 rows0 diff r)).rows a b = true →
      ((applyOps diff ops (generateMazeIterative cols0 rows0 diff r)).maze a b).deadEnd =
        specIsDeadEnd (applyOps diff ops (generateMazeIterative cols0 rows0 diff r)).cols
          (applyOps diff ops (generateMazeIterative cols0 rows0 diff r)).rows
          (applyOps diff ops (generateMazeIterative cols0 rows0 diff r)).start
          (applyOps diff ops (generateMazeIterative cols0 rows0 diff r)).end_
          (applyOps diff ops (generateMazeIterative cols0 rows0 diff r)).maze a b) ∧
    (Unfilled (applyOps diff ops (generateMazeIterative cols0 rows0 diff r)) →
      ∀ a b,
        inBounds (applyOps diff ops (generateMazeIterative cols0 rows0 diff r)).cols
          (applyOps diff ops (generateMazeIterative cols0 rows0 diff r)).rows a b = true →
        ((recomputeAllDeadEnds
            (applyOps diff ops (generateMazeIterative cols0 rows0 diff r))).maze a b).deadEnd =
          ((applyOps diff ops (generateMazeIterative cols0 rows0 diff r)).maze a b).deadEnd) := by
  obtain ⟨hInv, hpw, hstk⟩ :=
    applyOps_StateOK diff ops (generateMazeIterative cols0 rows0 diff r)
      (generate_StateOK cols0 rows0 diff r h1 h2) hops
  refine ⟨hInv, ?_⟩
  intro hU a b hin
  rw [rall_inv (applyOps diff ops (generateMazeIterative cols0 rows0 diff r)) hU a b hin,
    hInv a b hin]
  exact specIsDeadEnd_congr _ _ _ _ _ _ a b
    (rall_maze_type (applyOps diff ops (generateMazeIterative cols0 rows0 diff r)))
    (rall_maze_filled (applyOps diff ops (generateMazeIterative cols0 rows0 diff r)))

/-- Witness for C1's amended theorem: the generated 7×7 maze with the
all-zeros stream, one move down followed by its undo. -/
theorem incremental_deadends_match_definition_witness :
    (2 ≤ (7 : Int)) ∧ (∀ op ∈ [MoveOp.move 0 1, MoveOp.undoMove], OpUnit op) ∧
    ((∀ a b,
      inBounds (applyOps "normal" [MoveOp.move 0 1, MoveOp.undoMove]
          (generateMazeIterative 7 7 "normal" zeroSrc)).cols
        (applyOps "normal" [MoveOp.move 0 1, MoveOp.undoMove]
          (generateMazeIterative 7 7 "normal" zeroSrc)).rows a b = true →
      ((applyOps "normal" [MoveOp.move 0 1, MoveOp.undoMove]
          (generateMazeIterative 7 7 "normal" zeroSrc)).maze a b).deadEnd =
        specIsDeadEnd
          (applyOps "normal" [MoveOp.move 0 1, MoveOp.undoMove]
            (generateMazeIterative 7 7 "normal" zeroSrc)).cols
          (applyOps "normal" [MoveOp.move 0 1, MoveOp.undoMove]
            (generateMazeIterative 7 7 "normal" zeroSrc)).rows
          (applyOps "normal" [MoveOp.move 0 1, MoveOp.undoMove]
            (generateMazeIterative 7 7 "normal" zeroSrc)).start
          (applyOps "normal" [MoveOp.move 0 1, MoveOp.undoMove]
            (generateMazeIterative 7 7 "normal" zeroSrc)).end_
          (applyOps "normal" [MoveOp.move 0 1, MoveOp.undoMove]
            (generateMazeIterative 7 7 "normal" zeroSrc)).maze a b) ∧
    (Unfilled (applyOps "normal" [MoveOp.move 0 1, MoveOp.undoMove]
        (generateMazeIterative 7 7 "normal" zeroSrc)) →
      ∀ a b,
        inBounds (applyOps "normal" [MoveOp.move 0 1, MoveOp.undoMove]
            (generateMazeIterative 7 7 "normal" zeroSrc)).cols
          (applyOps "normal" [MoveOp.move 0 1, MoveOp.undoMove]
            (generateMazeIterative 7 7 "normal" zeroSrc)).rows a b = true →
        ((recomputeAllDeadEnds (applyOps "normal" [MoveOp.move 0 1, MoveOp.undoMove]
            (generateMazeIterative 7 7 "normal" zeroSrc))).maze a b).deadEnd =
          ((applyOps "normal" [MoveOp.move 0 1, MoveOp.undoMove]
            (generateMazeIterative 7 7 "normal" zeroSrc)).maze a b).deadEnd)) :=
  ⟨by decide,
    by
      intro op hop
      rcases List.mem_cons.mp hop with rfl | hop2
      · exact Or.inr (Or.inr (Or.inl ⟨rfl, rfl⟩))
      · rcases List.mem_cons.mp hop2 with rfl | hop3
        · trivial
        · exact absurd hop3 (List.not_mem_nil op),
    incremental_deadends_match_definition 7 7 "normal" zeroSrc
      [MoveOp.move 0 1, MoveOp.undoMove] (by decide) (by decide)
      (by
        intro op hop
        rcases List.mem_cons.mp hop with rfl | hop2
        · exact Or.inr (Or.inr (Or.inl ⟨rfl, rfl⟩))
        · rcases List.mem_cons.mp hop2 with rfl | hop3
          · trivial
          · exact absurd hop3 (List.not_mem_nil op))⟩

/-! ## Claim C5: malformed search requests -/

/-- C5, as stated, is false for the A* service: it has no missing-field
guard, so a request without `start` raises a `TypeError` at the first
heuristic evaluation `h(start, end)` (reading `.x` of `undefined`) and posts
no result at all — encoded here as the handler returning `none` rather than
`some Option.none` (the posted `{path: null}`). -/
theorem astar_missing_start_raises_cex :
    astarOnMessage (some (fun _ _ => true)) 3 3 none (some (2, 2)) = none := rfl

/-- C5 (amended): the nearest-target BFS service guards missing `grid`/`start`
and posts an immediate `null` result (after zero dequeues) without raising.
The A* service has no such guard: a request with a missing `start` (or `end`)
raises at the first heuristic evaluation and posts nothing; a request with
only the `grid` missing raises at the first neighbor filtering, which is
reached unless the search ends first — a non-positive expansion budget or a
start distinct from the end with no bounds-eligible neighbor candidates
posts `null` without touching the grid, and a start equal to the end posts
the single-coordinate path `[start]`. -/
theorem missing_fields_null_result :
    (∀ (cols rows : Int) (start? : Option (Int × Int))
        (de : Option (List (Int × Int))),
      bfsOnMessage none cols rows start? de = some (none, 0)) ∧
    (∀ (w? : Option Walk) (cols rows : Int) (de : Option (List (Int × Int))),
      bfsOnMessage w? cols rows none de = some (none, 0)) ∧
    (∀ (w : Walk) (cols rows : Int) (en : Int × Int),
      astarOnMessage (some w) cols rows none (some en) = none) ∧
    (∀ (cols rows : Int) (st en : Int × Int), 0 < (cols * rows * 10).toNat →
      st ≠ en → neighborCands cols rows st.1 st.2 ≠ [] →
      astarOnMessage none cols rows (some st) (some en) = none) ∧
    (∀ (cols rows : Int) (st : Int × Int), 0 < (cols * rows * 10).toNat →
      astarOnMessage none cols rows (some st) (some st) = some (some [st])) ∧
    (∀ (cols rows : Int) (st en : Int × Int),
      ((cols * rows * 10).toNat = 0 ∨
        (st ≠ en ∧ neighborCands cols rows st.1 st.2 = [])) →
      astarOnMessage none cols rows (some st) (some en) = some none) := by
  refine ⟨?_, ?_, ?_, ?_, ?_, ?_⟩
  · intro cols rows start? de
    cases start? <;> rfl
  · intro w? cols rows de
    cases w? <;> rfl
  · intro w cols rows en
    rfl
  · intro cols rows st en hb hne hc
    show (if (cols * rows * 10).toNat = 0 then some none
      else if st = en then some (some [st])
      else if neighborCands cols rows st.1 st.2 = [] then some none
      else none : Option (Option (List (Int × Int)))) = none
    rw [if_neg (by omega), if_neg hne, if_neg hc]
  · intro cols rows st hb
    show (if (cols * rows * 10).toNat = 0 then some none
      else if st = st then some (some [st])
      else if neighborCands cols rows st.1 st.2 = [] then some none
      else none : Option (Option (List (Int × Int)))) = some (some [st])
    rw [if_neg (by omega), if_pos rfl]
  · intro cols rows st en h
    show (if (cols * rows * 10).toNat = 0 then some none
      else if st = en then some (some [st])
      else if neighborCands cols rows st.1 st.2 = [] then some none
      else none : Option (Option (List (Int × Int)))) = some none
    rcases h with hb | ⟨hne, hc⟩
    · rw [if_pos hb]
    · by_cases hb : (cols * rows * 10).toNat = 0
      · rw [if_pos hb]
      · rw [if_neg hb, if_neg hne, if_pos hc]

/-- See `missing_fields_null_result`: its guarded A* missing-grid cases at
concrete requests — a 3x3 request with distinct start and end raises, the
same request with start equal to end posts `[start]`, and a 1x1 request
(start without bounds-eligible neighbor candidates) posts `null`. -/
theorem missing_fields_null_result_witness :
    astarOnMessage none 3 3 (some (1, 1)) (some (2, 2)) = none ∧
    astarOnMessage none 3 3 (some (1, 1)) (some (1, 1)) = some (some [(1, 1)]) ∧
    astarOnMessage none 1 1 (some (0, 0)) (some (2, 2)) = some none :=
  ⟨missing_fields_null_result.2.2.2.1 3 3 (1, 1) (2, 2) (by decide) (by decide)
      (by decide),
   missing_fields_null_result.2.2.2.2.1 3 3 (1, 1) (by decide),
   missing_fields_null_result.2.2.2.2.2 1 1 (0, 0) (2, 2)
     (Or.inr ⟨by decide, by decide⟩)⟩

/-! ## Claim C10: BFS termination within `cols · rows` dequeues -/

lemma mem_boundsFinset (cols rows : Int) (c : Int × Int) :
    c ∈ boundsFinset cols rows ↔ inBounds cols rows c.1 c.2 = true := by
  obtain ⟨x, y⟩ := c
  simp only [boundsFinset, Finset.mem_image, Finset.mem_product, Finset.mem_range,
    inBounds, Bool.and_eq_true, decide_eq_true_eq, Prod.mk.injEq]
  constructor
  · rintro ⟨⟨i, j⟩, ⟨hi, hj⟩, hx, hy⟩
    omega
  · rintro ⟨⟨⟨h1, h2⟩, h3⟩, h4⟩
    exact ⟨(x.toNat, y.toNat), ⟨by omega, by omega⟩, by omega, by omega⟩

lemma card_boundsFinset (cols rows : Int) :
    (boundsFinset cols rows).card = cols.toNat * rows.toNat := by
  rw [boundsFinset, Finset.card_image_of_injective, Finset.card_product,
    Finset.card_range, Finset.card_range]
  intro p q hpq
  simp only [Prod.mk.injEq] at hpq
  obtain ⟨h1, h2⟩ := hpq
  exact Prod.ext (by exact_mod_cast h1) (by exact_mod_cast h2)

lemma filter_card_update (B : Finset (Int × Int)) (vis : Int × Int → Bool) (nb : Int × Int)
    (hmem : nb ∈ B) (hnot : vis nb = false) :
    (B.filter (fun d => (if d = nb then true else vis d) = true)).card =
      (B.filter (fun d => vis d = true)).card + 1 := by
  have hins : B.filter (fun d => (if d = nb then true else vis d) = true) =
      insert nb (B.filter (fun d => vis d = true)) := by
    ext d
    simp only [Finset.mem_filter, Finset.mem_insert]
    by_cases hd : d = nb
    · subst hd
      simp [hmem]
    · simp [hd]
  rw [hins, Finset.card_insert_of_not_mem]
  simp [Finset.mem_filter, hnot]

lemma bfsEnqueue_fold_spec (w : Walk) (cols rows : Int)
    (hw : ∀ x y, inBounds cols rows x y = false → w x y = false) (c : Int × Int) :
    ∀ (L : List (Int × Int)) (q0 : List (Int × Int)) (vis0 : Int × Int → Bool)
      (par0 : (Int × Int) → Option (Int × Int)),
      (∀ nb ∈ L, w nb.1 nb.2 = true) →
      (∀ d ∈ q0, vis0 d = true) →
      (∀ d, vis0 d = true → d ∈ boundsFinset cols rows) →
      (∀ d ∈ (L.foldl (bfsEnqueue c) (q0, vis0, par0)).1,
        (L.foldl (bfsEnqueue c) (q0, vis0, par0)).2.1 d = true) ∧
      (∀ d, (L.foldl (bfsEnqueue c) (q0, vis0, par0)).2.1 d = true →
        d ∈ boundsFinset cols rows) ∧
      (∀ d, vis0 d = true → (L.foldl (bfsEnqueue c) (q0, vis0, par0)).2.1 d = true) ∧
      ((L.foldl (bfsEnqueue c) (q0, vis0, par0)).1.length +
          ((boundsFinset cols rows).filter (fun d => vis0 d = true)).card ≤
        q0.length +
          ((boundsFinset cols rows).filter
            (fun d => (L.foldl (bfsEnqueue c) (q0, vis0, par0)).2.1 d = true)).card) := by
  intro L
  induction L with
  | nil =>
    intro q0 vis0 par0 hL ha hb
    exact ⟨ha, hb, fun d h => h, le_refl _⟩
  | cons nb L ih =>
    intro q0 vis0 par0 hL ha hb
    rw [List.foldl_cons]
    have hwnb : w nb.1 nb.2 = true := hL nb (List.mem_cons_self nb L)
    have hLrest : ∀ d ∈ L, w d.1 d.2 = true := fun d hd => hL d (List.mem_cons_of_mem nb hd)
    by_cases hv : vis0 nb = false
    · have hstep : bfsEnqueue c (q0, vis0, par0) nb =
          (q0 ++ [nb], fun k => if k = nb then true else vis0 k,
            fun k => if k = nb then some c else par0 k) := by
        unfold bfsEnqueue
        dsimp only
        rw [if_pos hv]
      rw [hstep]
      have hnbB : nb ∈ boundsFinset cols rows := by
        rw [mem_boundsFinset]
        by_contra hcon
        have : inBounds cols rows nb.1 nb.2 = false := by
          revert hcon
          cases inBounds cols rows nb.1 nb.2 <;> simp
        rw [hw nb.1 nb.2 this] at hwnb
        exact Bool.false_ne_true hwnb
      have ha2 : ∀ d ∈ q0 ++ [nb], (if d = nb then true else vis0 d) = true := by
        intro d hd
        rcases List.mem_append.mp hd with hd2 | hd2
        · by_cases hdn : d = nb
          · rw [if_pos hdn]
          · rw [if_neg hdn]
            exact ha d hd2
        · rw [if_pos (List.mem_singleton.mp hd2)]
      have hb2 : ∀ d, (if d = nb then true else vis0 d) = true →
          d ∈ boundsFinset cols rows := by
        intro d hd
        by_cases hdn : d = nb
        · rw [hdn]
          exact hnbB
        · rw [if_neg hdn] at hd
          exact hb d hd
      obtain ⟨r1, r2, r3, r4⟩ := ih (q0 ++ [nb]) _ _ hLrest ha2 hb2
      refine ⟨r1, r2, ?_, ?_⟩
      · intro d hd
        refine r3 d ?_
        by_cases hdn : d = nb
        · rw [if_pos hdn]
        · rw [if_neg hdn]
          exact hd
      · have hcard := filter_card_update (boundsFinset cols rows) vis0 nb hnbB hv
        rw [List.length_append, List.length_singleton] at r4
        omega
    · have hv2 : vis0 nb = true := by
        revert hv
        cases vis0 nb <;> simp
      have hstep : bfsEnqueue c (q0, vis0, par0) nb = (q0, vis0, par0) := by
        unfold bfsEnqueue
        dsimp only
        rw [if_neg (by simp [hv2])]
      rw [hstep]
      exact ih q0 vis0 par0 hLrest ha hb

lemma bfsLoop_terminates (w : Walk) (cols rows : Int) (isTarget : Int × Int → Bool)
    (rfuel : Nat) (hw : ∀ x y, inBounds cols rows x y = false → w x y = false) :
    ∀ (fuel : Nat) (q : List (Int × Int)) (vis : Int × Int → Bool)
      (par : (Int × Int) → Option (Int × Int)) (deq : Nat),
      (∀ d ∈ q, vis d = true) →
      (∀ d, vis d = true → d ∈ boundsFinset cols rows) →
      (q.length + cols.toNat * rows.toNat + 1 ≤
        fuel + ((boundsFinset cols rows).filter (fun d => vis d = true)).card) →
      (deq + q.length ≤ ((boundsFinset cols rows).filter (fun d => vis d = true)).card) →
      ∃ res deq2, bfsLoop w cols rows isTarget rfuel fuel q vis par deq = some (res, deq2) ∧
        deq2 ≤ cols.toNat * rows.toNat := by
  intro fuel
  induction fuel with
  | zero =>
    intro q vis par deq ha hb h1 h2
    exfalso
    have hVN : ((boundsFinset cols rows).filter (fun d => vis d = true)).card ≤
        cols.toNat * rows.toNat := by
      rw [← card_boundsFinset cols rows]
      exact Finset.card_filter_le _ _
    omega
  | succ fuel ih =>
    intro q vis par deq ha hb h1 h2
    have hVN : ((boundsFinset cols rows).filter (fun d => vis d = true)).card ≤
        cols.toNat * rows.toNat := by
      rw [← card_boundsFinset cols rows]
      exact Finset.card_filter_le _ _
    match q with
    | [] =>
      refine ⟨none, deq, ?_, by simpa using h2.trans hVN⟩
      rw [bfsLoop]
    | c :: qrest =>
      rw [bfsLoop]
      dsimp only
      by_cases ht : isTarget c = true
      · rw [if_pos ht]
        refine ⟨_, deq + 1, rfl, ?_⟩
        have : deq + (c :: qrest).length ≤ cols.toNat * rows.toNat := h2.trans hVN
        rw [List.length_cons] at this
        omega
      · rw [if_neg ht]
        have hL : ∀ d ∈ neighborsW w cols rows c.1 c.2, w d.1 d.2 = true := by
          intro d hd
          have := List.of_mem_filter hd
          simpa using this
        have harest : ∀ d ∈ qrest, vis d = true :=
          fun d hd => ha d (List.mem_cons_of_mem c hd)
        obtain ⟨r1, r2, r3, r4⟩ :=
          bfsEnqueue_fold_spec w cols rows hw c (neighborsW w cols rows c.1 c.2)
            qrest vis par hL harest hb
        obtain ⟨res, deq2, hrun, hle⟩ :=
          ih ((neighborsW w cols rows c.1 c.2).foldl (bfsEnqueue c) (qrest, vis, par)).1
            ((neighborsW w cols rows c.1 c.2).foldl (bfsEnqueue c) (qrest, vis, par)).2.1
            ((neighborsW w cols rows c.1 c.2).foldl (bfsEnqueue c) (qrest, vis, par)).2.2
            (deq + 1) r1 r2
            (by
              rw [List.length_cons] at h1
              omega)
            (by
              rw [List.length_cons] at h2
              omega)
        exact ⟨res, deq2, hrun, hle⟩

/-- C10: on a well-formed request — `start` in bounds and the walkability
snapshot false outside the grid (a JS `grid[y][x] === 1` test on a
`rows × cols` nested array is false for any out-of-range index it evaluates) —
the nearest-target BFS posts a result, whatever the target set (empty, or
with no reachable member, included), after at most `cols · rows` dequeues:
each coordinate is visited-marked before being enqueued and so enters the
queue at most once. -/
theorem bfs_terminates_within_grid_size (w : Walk) (cols rows : Int)
    (st : Int × Int) (targets : List (Int × Int))
    (hst : inBounds cols rows st.1 st.2 = true)
    (hw : ∀ x y, inBounds cols rows x y = false → w x y = false) :
    ∃ res deq, bfsRun w cols rows st targets = some (res, deq) ∧
      deq ≤ cols.toNat * rows.toNat := by
  unfold bfsRun
  have hstart : ((boundsFinset cols rows).filter
      (fun d => (decide (d = st) : Bool) = true)).card = 1 := by
    have : (boundsFinset cols rows).filter (fun d => (decide (d = st) : Bool) = true) =
        {st} := by
      ext d
      simp only [Finset.mem_filter, decide_eq_true_eq, Finset.mem_singleton]
      constructor
      · rintro ⟨_, rfl⟩
        rfl
      · intro hd
        rw [hd]
        exact ⟨(mem_boundsFinset cols rows st).mpr hst, rfl⟩
    rw [this, Finset.card_singleton]
  apply bfsLoop_terminates w cols rows _ _ hw
  · intro d hd
    rw [List.mem_singleton.mp hd]
    simp
  · intro d hd
    rw [decide_eq_true_eq] at hd
    rw [hd]
    exact (mem_boundsFinset cols rows st).mpr hst
  · rw [hstart, List.length_singleton]
    omega
  · rw [hstart, List.length_singleton]

/-- Witness for C10 at a fully walkable 3×3 grid with an empty target set. -/
theorem bfs_terminates_within_grid_size_witness :
    inBounds 3 3 (1, 1).1 (1, 1).2 = true ∧
    (∃ res deq, bfsRun (fun x y => inBounds 3 3 x y) 3 3 (1, 1) [] = some (res, deq) ∧
      deq ≤ (3 : Int).toNat * (3 : Int).toNat) :=
  ⟨by decide,
    bfs_terminates_within_grid_size (fun x y => inBounds 3 3 x y) 3 3 (1, 1) []
      (by decide) (fun x y h => h)⟩

lemma mem_cands_adj (cols rows x y : Int) (nb : Int × Int)
    (h : nb ∈ neighborCands cols rows x y) : adjStep (x, y) nb := by
  simp only [neighborCands, List.mem_append] at h
  rcases h with ((h | h) | h) | h <;> split at h <;>
    simp only [List.mem_singleton, List.not_mem_nil] at h <;> subst h
  · exact Or.inr (Or.inl ⟨rfl, rfl⟩)
  · exact Or.inl ⟨rfl, rfl⟩
  · exact Or.inr (Or.inr (Or.inr ⟨rfl, rfl⟩))
  · exact Or.inr (Or.inr (Or.inl ⟨rfl, rfl⟩))

lemma adj_mem_neighborsW (w : Walk) (cols rows x y : Int) (c2 : Int × Int)
    (hxy : inBounds cols rows x y = true)
    (hadj : adjStep (x, y) c2) (hib : inBounds cols rows c2.1 c2.2 = true)
    (hwc : w c2.1 c2.2 = true) : c2 ∈ neighborsW w cols rows x y := by
  refine List.mem_filter.mpr ⟨?_, hwc⟩
  obtain ⟨cx, cy⟩ := c2
  simp only [inBounds, Bool.and_eq_true, decide_eq_true_eq] at hxy hib
  unfold neighborCands
  rcases hadj with ⟨h1, h2⟩ | ⟨h1, h2⟩ | ⟨h1, h2⟩ | ⟨h1, h2⟩ <;>
    simp only at h1 h2 <;> subst h1 <;> subst h2
  · exact List.mem_append_left _ (List.mem_append_left _ (List.mem_append_right _
      (by rw [if_pos (by omega)]; exact List.mem_singleton_self _)))
  · exact List.mem_append_left _ (List.mem_append_left _ (List.mem_append_left _
      (by rw [if_pos (by omega)]; exact List.mem_singleton_self _)))
  · exact List.mem_append_right _
      (by rw [if_pos (by omega)]; exact List.mem_singleton_self _)
  · exact List.mem_append_left _ (List.mem_append_right _
      (by rw [if_pos (by omega)]; exact List.mem_singleton_self _))

lemma mem_neighborsW_facts (w : Walk) (cols rows : Int)
    (hw : ∀ x y, inBounds cols rows x y = false → w x y = false)
    (x y : Int) (nb : Int × Int) (h : nb ∈ neighborsW w cols rows x y) :
    adjStep (x, y) nb ∧ inBounds cols rows nb.1 nb.2 = true ∧ w nb.1 nb.2 = true := by
  obtain ⟨hc, hwnb⟩ := List.mem_filter.mp h
  refine ⟨mem_cands_adj cols rows x y nb hc, ?_, hwnb⟩
  by_contra hcon
  have hfalse : inBounds cols rows nb.1 nb.2 = false := by
    revert hcon
    cases inBounds cols rows nb.1 nb.2 <;> simp
  rw [hw nb.1 nb.2 hfalse] at hwnb
  exact Bool.false_ne_true hwnb

lemma parChain_mono (w : Walk) (cols rows : Int) (st : Int × Int)
    (vis vis2 : Int × Int → Bool)
    (par par2 : (Int × Int) → Option (Int × Int))
    (hv : ∀ z, vis z = true → vis2 z = true)
    (hp : ∀ z, vis z = true → par2 z = par z) :
    ∀ c n, ParChain w cols rows st vis par c n →
      ParChain w cols rows st vis2 par2 c n := by
  intro c n h
  induction h with
  | base h1 h2 => exact ParChain.base (hv st h1) ((hp st h1).trans h2)
  | step hch hpar hvis hadj hib hwk ih =>
    exact ParChain.step ih ((hp _ hvis).trans hpar) (hv _ hvis) hadj hib hwk

lemma validPath_append (w : Walk) (cols rows : Int) :
    ∀ (xs : List (Int × Int)) (p c : Int × Int),
      ValidPath w cols rows xs → xs.getLast? = some p → adjStep p c →
      inBounds cols rows c.1 c.2 = true → w c.1 c.2 = true →
      ValidPath w cols rows (xs ++ [c]) := by
  intro xs
  induction xs with
  | nil =>
    intro p c hvp
    exact hvp.elim
  | cons a t ih =>
    intro p c hvp hlast hadj hib hwc
    match t with
    | [] =>
      have hpa : p = a := by
        simp only [List.getLast?_singleton, Option.some.injEq] at hlast
        exact hlast.symm
      subst hpa
      exact ⟨hadj, hib, hwc, trivial⟩
    | b :: t2 =>
      obtain ⟨h1, h2, h3, h4⟩ := hvp
      have hlast2 : (b :: t2).getLast? = some p := by
        rw [← List.getLast?_cons_cons (a := a)]
        exact hlast
      exact ⟨h1, h2, h3, ih p c h4 hlast2 hadj hib hwc⟩

lemma parChain_reconstruct (w : Walk) (cols rows : Int) (st : Int × Int)
    (vis : Int × Int → Bool) (par : (Int × Int) → Option (Int × Int)) :
    ∀ c n, ParChain w cols rows st vis par c n →
      ∀ fuel, n < fuel →
        ∃ l, bfsReconstruct fuel par c = c :: l ∧
          (c :: l).length = n + 1 ∧ (c :: l).getLast? = some st ∧
          ValidPath w cols rows (c :: l).reverse := by
  intro c n h
  induction h with
  | base h1 h2 =>
    intro fuel hf
    cases fuel with
    | zero => exact absurd hf (Nat.not_lt_zero 0)
    | succ m =>
      refine ⟨[], ?_, rfl, rfl, trivial⟩
      rw [bfsReconstruct, h2]
  | @step p c2 m2 hch hpar hvis hadj hib hwk ih =>
    intro fuel hf
    cases fuel with
    | zero => exact absurd hf (Nat.not_lt_zero _)
    | succ m =>
      obtain ⟨l, hrec, hlen, hlast, hvp⟩ := ih m (Nat.lt_of_succ_lt_succ hf)
      refine ⟨p :: l, ?_, ?_, ?_, ?_⟩
      · rw [bfsReconstruct, hpar]
        dsimp only
        rw [hrec]
      · simp only [List.length_cons] at hlen ⊢
        omega
      · rw [List.getLast?_cons_cons]
        exact hlast
      · rw [List.reverse_cons]
        refine validPath_append w cols rows _ _ _ hvp ?_ hadj hib hwk
        rw [List.getLast?_reverse]
        rfl

lemma bfsEnqueue_fold_chr (c : Int × Int) :
    ∀ (L q0 : List (Int × Int)) (vis0 : Int × Int → Bool)
      (par0 : (Int × Int) → Option (Int × Int)),
      ∃ new : List (Int × Int),
        (L.foldl (bfsEnqueue c) (q0, vis0, par0)).1 = q0 ++ new ∧
        (∀ d ∈ new, d ∈ L ∧ vis0 d = false) ∧
        (∀ d, (L.foldl (bfsEnqueue c) (q0, vis0, par0)).2.1 d = true ↔
          (vis0 d = true ∨ d ∈ new)) ∧
        (∀ d ∈ new, (L.foldl (bfsEnqueue c) (q0, vis0, par0)).2.2 d = some c) ∧
        (∀ d, d ∉ new → (L.foldl (bfsEnqueue c) (q0, vis0, par0)).2.2 d = par0 d) ∧
        (∀ d ∈ L, (L.foldl (bfsEnqueue c) (q0, vis0, par0)).2.1 d = true) := by
  intro L
  induction L with
  | nil =>
    intro q0 vis0 par0
    exact ⟨[], by simp, by simp, fun d => by simp, by simp, fun d _ => rfl, by simp⟩
  | cons nb L ih =>
    intro q0 vis0 par0
    rw [List.foldl_cons]
    by_cases hv : vis0 nb = false
    · have hstep : bfsEnqueue c (q0, vis0, par0) nb =
          (q0 ++ [nb], fun k => if k = nb then true else vis0 k,
            fun k => if k = nb then some c else par0 k) := by
        unfold bfsEnqueue
        dsimp only
        rw [if_pos hv]
      rw [hstep]
      obtain ⟨new, e1, e2, e3, e4, e5, e6⟩ :=
        ih (q0 ++ [nb]) (fun k => if k = nb then true else vis0 k)
          (fun k => if k = nb then some c else par0 k)
      have hnbnot : nb ∉ new := by
        intro hmem
        have h2 := (e2 nb hmem).2
        rw [if_pos rfl] at h2
        exact Bool.false_ne_true h2.symm
      refine ⟨nb :: new, ?_, ?_, ?_, ?_, ?_, ?_⟩
      · rw [e1, List.append_assoc]
        rfl
      · intro d hd
        rcases List.mem_cons.mp hd with rfl | hd2
        · exact ⟨List.mem_cons_self _ _, hv⟩
        · obtain ⟨hdL, hdv⟩ := e2 d hd2
          have hdnb : d ≠ nb := by
            intro hdd
            rw [if_pos hdd] at hdv
            exact Bool.false_ne_true hdv.symm
          rw [if_neg hdnb] at hdv
          exact ⟨List.mem_cons_of_mem _ hdL, hdv⟩
      · intro d
        rw [e3 d]
        by_cases hdnb : d = nb
        · subst hdnb
          simp
        · rw [if_neg hdnb]
          constructor
          · rintro (h | h)
            · exact Or.inl h
            · exact Or.inr (List.mem_cons_of_mem _ h)
          · rintro (h | h)
            · exact Or.inl h
            · rcases List.mem_cons.mp h with rfl | h2
              · exact absurd rfl hdnb
              · exact Or.inr h2
      · intro d hd
        rcases List.mem_cons.mp hd with rfl | hd2
        · rw [e5 d hnbnot]
          simp
        · exact e4 d hd2
      · intro d hd
        have hdnb : d ≠ nb := fun hdd => hd (hdd ▸ List.mem_cons_self _ _)
        have hdnew : d ∉ new := fun h2 => hd (List.mem_cons_of_mem _ h2)
        rw [e5 d hdnew]
        simp [hdnb]
      · intro d hd
        rcases List.mem_cons.mp hd with rfl | hd2
        · refine (e3 d).mpr (Or.inl ?_)
          simp
        · exact e6 d hd2
    · have hv2 : vis0 nb = true := by
        revert hv
        cases vis0 nb <;> simp
      have hstep : bfsEnqueue c (q0, vis0, par0) nb = (q0, vis0, par0) := by
        unfold bfsEnqueue
        dsimp only
        rw [if_neg (by simp [hv2])]
      rw [hstep]
      obtain ⟨new, e1, e2, e3, e4, e5, e6⟩ := ih q0 vis0 par0
      refine ⟨new, e1, ?_, e3, e4, e5, ?_⟩
      · exact fun d hd => ⟨List.mem_cons_of_mem _ (e2 d hd).1, (e2 d hd).2⟩
      · intro d hd
        rcases List.mem_cons.mp hd with rfl | hd2
        · exact (e3 d).mpr (Or.inl hv2)
        · exact e6 d hd2

lemma shortest_unique (w : Walk) (cols rows : Int) (st c : Int × Int) (a b : Nat)
    (h1 : ShortestSteps w cols rows st c a) (h2 : ShortestSteps w cols rows st c b) :
    a = b := IsLeast.unique h1 h2

lemma shortest_steps (w : Walk) (cols rows : Int) (st c : Int × Int) (n : Nat)
    (h : ShortestSteps w cols rows st c n) : Steps w cols rows st c n := h.1

lemma shortest_min (w : Walk) (cols rows : Int) (st c : Int × Int) (n m : Nat)
    (h : ShortestSteps w cols rows st c n) (hm : Steps w cols rows st c m) : n ≤ m :=
  h.2 hm

lemma shortest_zero (w : Walk) (cols rows : Int) (st : Int × Int) :
    ShortestSteps w cols rows st st 0 :=
  ⟨Steps.refl, fun m _ => Nat.zero_le m⟩

lemma levels_card (w : Walk) (cols rows : Int) (st : Int × Int)
    (vis : Int × Int → Bool) (k : Nat)
    (hvb : ∀ c, vis c = true → inBounds cols rows c.1 c.2 = true)
    (hlev : ∀ j, j ≤ k → ∃ c, vis c = true ∧ ShortestSteps w cols rows st c j) :
    k + 1 ≤ cols.toNat * rows.toNat := by
  classical
  let f : Nat → (Int × Int) := fun j =>
    if h : j ≤ k then Classical.choose (hlev j h) else st
  have hspec : ∀ j, j ≤ k → vis (f j) = true ∧ ShortestSteps w cols rows st (f j) j := by
    intro j hj
    have hfj : f j = Classical.choose (hlev j hj) := dif_pos hj
    rw [hfj]
    exact Classical.choose_spec (hlev j hj)
  have hcard : (Finset.range (k + 1)).card ≤
      ((boundsFinset cols rows).filter (fun d => vis d = true)).card := by
    refine Finset.card_le_card_of_injOn f ?_ ?_
    · intro j hj
      have hjk : j ≤ k := by
        have := Finset.mem_range.mp hj
        omega
      obtain ⟨h1, _⟩ := hspec j hjk
      exact Finset.mem_filter.mpr ⟨(mem_boundsFinset cols rows _).mpr (hvb _ h1), h1⟩
    · intro j1 hj1 j2 hj2 hf
      have hk1 : j1 ≤ k := by
        have := Finset.mem_range.mp (Finset.mem_coe.mp hj1)
        omega
      have hk2 : j2 ≤ k := by
        have := Finset.mem_range.mp (Finset.mem_coe.mp hj2)
        omega
      have hs1 := (hspec j1 hk1).2
      have hs2 := (hspec j2 hk2).2
      rw [hf] at hs1
      exact shortest_unique w cols rows st (f j2) j1 j2 hs1 hs2
  have hb : ((boundsFinset cols rows).filter (fun d => vis d = true)).card ≤
      cols.toNat * rows.toNat := by
    rw [← card_boundsFinset cols rows]
    exact Finset.card_filter_le _ _
  rw [Finset.card_range] at hcard
  omega

lemma bfsInv_shift (w : Walk) (cols rows : Int) (st : Int × Int)
    (isTarget : Int × Int → Bool) (q : List (Int × Int)) (vis : Int × Int → Bool)
    (par : (Int × Int) → Option (Int × Int)) (k : Nat) (qb : List (Int × Int))
    (hne : qb ≠ [])
    (inv : BfsInv w cols rows st isTarget q vis par k [] qb) :
    BfsInv w cols rows st isTarget q vis par (k + 1) qb [] := by
  obtain ⟨hsplit, hqa, hqb, hvq, hvb, hcomp, hexp, hnt, hchain, hlev⟩ := inv
  rw [List.nil_append] at hsplit
  refine ⟨?_, hqb, ?_, hvq, hvb, ?_, hexp, hnt, hchain, ?_⟩
  · rw [hsplit, List.append_nil]
  · exact fun c hc => absurd hc (List.not_mem_nil c)
  · intro c n hsteps hn
    rcases Nat.lt_or_ge n (k + 1) with h | h
    · exact hcomp c n hsteps (by omega)
    · have hn2 : n = k + 1 := by omega
      subst hn2
      cases hsteps with
      | @tail u c2x nx hu hadj hib hwk =>
        have hvu : vis u = true := hcomp u k hu (le_refl k)
        have hunq : u ∉ q := by
          intro hmem
          rw [hsplit] at hmem
          have hsd := hqb u hmem
          have := shortest_min w cols rows st u (k + 1) k hsd hu
          omega
        exact hexp u hvu hunq _ hadj hib hwk
  · intro j hj
    rcases Nat.lt_or_ge j (k + 1) with h | h
    · exact hlev j (by omega)
    · have hj2 : j = k + 1 := by omega
      subst hj2
      cases qb with
      | nil => exact absurd rfl hne
      | cons c restb =>
        refine ⟨c, hvq c ?_, hqb c (List.mem_cons_self c restb)⟩
        rw [hsplit]
        exact List.mem_cons_self c restb

lemma bfsInv_step (w : Walk) (cols rows : Int) (st : Int × Int)
    (isTarget : Int × Int → Bool)
    (hw : ∀ x y, inBounds cols rows x y = false → w x y = false)
    (c : Int × Int) (rest : List (Int × Int)) (vis : Int × Int → Bool)
    (par : (Int × Int) → Option (Int × Int)) (k : Nat)
    (qa2 qb : List (Int × Int))
    (inv : BfsInv w cols rows st isTarget (c :: rest) vis par k (c :: qa2) qb)
    (hct : isTarget c = false) :
    ∃ qb2, BfsInv w cols rows st isTarget
      ((neighborsW w cols rows c.1 c.2).foldl (bfsEnqueue c) (rest, vis, par)).1
      ((neighborsW w cols rows c.1 c.2).foldl (bfsEnqueue c) (rest, vis, par)).2.1
      ((neighborsW w cols rows c.1 c.2).foldl (bfsEnqueue c) (rest, vis, par)).2.2
      k qa2 qb2 := by
  obtain ⟨hsplit, hqa, hqb, hvq, hvb, hcomp, hexp, hnt, hchain, hlev⟩ := inv
  have hrest : rest = qa2 ++ qb := by
    rw [List.cons_append] at hsplit
    injection hsplit with h1 h2
  obtain ⟨new, e1, e2, e3, e4, e5, e6⟩ :=
    bfsEnqueue_fold_chr c (neighborsW w cols rows c.1 c.2) rest vis par
  have hvc : vis c = true := hvq c (List.mem_cons_self _ _)
  have hcK : ShortestSteps w cols rows st c k := hqa c (List.mem_cons_self _ _)
  have hcb : inBounds cols rows c.1 c.2 = true := hvb c hvc
  have hnewfacts : ∀ d ∈ new, adjStep c d ∧ inBounds cols rows d.1 d.2 = true ∧
      w d.1 d.2 = true ∧ vis d = false := by
    intro d hd
    obtain ⟨hdL, hdv⟩ := e2 d hd
    obtain ⟨ha, hb2, hc2⟩ := mem_neighborsW_facts w cols rows hw c.1 c.2 d hdL
    exact ⟨ha, hb2, hc2, hdv⟩
  have hnewdist : ∀ d ∈ new, ShortestSteps w cols rows st d (k + 1) := by
    intro d hd
    obtain ⟨ha, hb2, hc2, hdv⟩ := hnewfacts d hd
    constructor
    · exact Steps.tail (shortest_steps w cols rows st c k hcK) ha hb2 hc2
    · intro m hm
      by_contra hcon
      have hvt : vis d = true := hcomp d m hm (by omega)
      rw [hvt] at hdv
      exact Bool.false_ne_true hdv.symm
  refine ⟨qb ++ new, ?_, ?_, ?_, ?_, ?_, ?_, ?_, ?_, ?_, ?_⟩
  · rw [e1, hrest, List.append_assoc]
  · exact fun d hd => hqa d (List.mem_cons_of_mem c hd)
  · intro d hd
    rcases List.mem_append.mp hd with h | h
    · exact hqb d h
    · exact hnewdist d h
  · intro d hd
    rw [e1] at hd
    rcases List.mem_append.mp hd with h | h
    · exact (e3 d).mpr (Or.inl (hvq d (List.mem_cons_of_mem c h)))
    · exact (e3 d).mpr (Or.inr h)
  · intro d hd
    rcases (e3 d).mp hd with h | h
    · exact hvb d h
    · exact (hnewfacts d h).2.1
  · intro d n hsteps hn
    exact (e3 d).mpr (Or.inl (hcomp d n hsteps hn))
  · intro d hd hdq c2 hadj hib hwk
    by_cases hdc : d = c
    · subst hdc
      exact e6 c2 (adj_mem_neighborsW w cols rows d.1 d.2 c2 hcb hadj hib hwk)
    · rcases (e3 d).mp hd with h | h
      · have hdq0 : d ∉ c :: rest := by
          intro hmem
          rcases List.mem_cons.mp hmem with h2 | h2
          · exact hdc h2
          · exact hdq (by rw [e1]; exact List.mem_append_left _ h2)
        exact (e3 c2).mpr (Or.inl (hexp d h hdq0 c2 hadj hib hwk))
      · exact absurd (by rw [e1]; exact List.mem_append_right _ h) hdq
  · intro d hd hdq
    by_cases hdc : d = c
    · subst hdc
      exact hct
    · rcases (e3 d).mp hd with h | h
      · have hdq0 : d ∉ c :: rest := by
          intro hmem
          rcases List.mem_cons.mp hmem with h2 | h2
          · exact hdc h2
          · exact hdq (by rw [e1]; exact List.mem_append_left _ h2)
        exact hnt d h hdq0
      · exact absurd (by rw [e1]; exact List.mem_append_right _ h) hdq
  · intro d hd
    have hmono_v : ∀ z, vis z = true →
        ((neighborsW w cols rows c.1 c.2).foldl (bfsEnqueue c) (rest, vis, par)).2.1 z =
          true := fun z hz => (e3 z).mpr (Or.inl hz)
    have hmono_p : ∀ z, vis z = true →
        ((neighborsW w cols rows c.1 c.2).foldl (bfsEnqueue c) (rest, vis, par)).2.2 z =
          par z := by
      intro z hz
      refine e5 z ?_
      intro hmem
      rw [(e2 z hmem).2] at hz
      exact Bool.false_ne_true hz
    rcases (e3 d).mp hd with h | h
    · obtain ⟨n, hch, hsd⟩ := hchain d h
      exact ⟨n, parChain_mono w cols rows st vis _ par _ hmono_v hmono_p d n hch, hsd⟩
    · obtain ⟨n, hchc, hsdc⟩ := hchain c hvc
      have hnk : n = k := shortest_unique w cols rows st c n k hsdc hcK
      subst hnk
      obtain ⟨ha, hb2, hc2, hdv⟩ := hnewfacts d h
      refine ⟨n + 1, ?_, hnewdist d h⟩
      exact ParChain.step (parChain_mono w cols rows st vis _ par _ hmono_v hmono_p c n hchc)
        (e4 d h) ((e3 d).mpr (Or.inr h)) ha hb2 hc2
  · intro j hj
    obtain ⟨d, hdv2, hsd⟩ := hlev j hj
    exact ⟨d, (e3 d).mpr (Or.inl hdv2), hsd⟩

lemma bfsLoop_correct_body (w : Walk) (cols rows : Int) (isTarget : Int × Int → Bool)
    (st : Int × Int) (rfuel fuel : Nat)
    (hw : ∀ x y, inBounds cols rows x y = false → w x y = false)
    (hrf : cols.toNat * rows.toNat < rfuel)
    (ih : ∀ (q : List (Int × Int)) (vis : Int × Int → Bool)
      (par : (Int × Int) → Option (Int × Int)) (deq k : Nat)
      (qa qb : List (Int × Int)),
      BfsInv w cols rows st isTarget q vis par k qa qb →
      ∀ p deq2, bfsLoop w cols rows isTarget rfuel fuel q vis par deq =
        some (some p, deq2) → BfsPost w cols rows st isTarget p)
    (c : Int × Int) (rest : List (Int × Int)) (vis : Int × Int → Bool)
    (par : (Int × Int) → Option (Int × Int)) (deq k : Nat)
    (qa2 qb : List (Int × Int))
    (inv : BfsInv w cols rows st isTarget (c :: rest) vis par k (c :: qa2) qb)
    (p : List (Int × Int)) (deq2 : Nat)
    (hrun : bfsLoop w cols rows isTarget rfuel (fuel + 1) (c :: rest) vis par deq =
      some (some p, deq2)) :
    BfsPost w cols rows st isTarget p := by
  rw [bfsLoop] at hrun
  dsimp only at hrun
  by_cases hct : isTarget c = true
  · rw [if_pos hct] at hrun
    simp only [Option.some.injEq, Prod.mk.injEq] at hrun
    obtain ⟨hp, -⟩ := hrun
    obtain ⟨hsplit, hqa, hqb, hvq, hvb, hcomp, hexp, hnt, hchain, hlev⟩ := inv
    have hvc : vis c = true := hvq c (List.mem_cons_self _ _)
    have hcK : ShortestSteps w cols rows st c k := hqa c (List.mem_cons_self _ _)
    obtain ⟨n, hch, hsd⟩ := hchain c hvc
    have hnk : n = k := shortest_unique w cols rows st c n k hsd hcK
    subst hnk
    have hcard : n + 1 ≤ cols.toNat * rows.toNat := levels_card w cols rows st vis n hvb hlev
    obtain ⟨l, hrec, hlen, hlast, hvp⟩ :=
      parChain_reconstruct w cols rows st vis par c n hch rfuel (by omega)
    refine ⟨c, n, ?_, hct, ?_, ?_, hsd, ?_, ?_⟩
    · rw [← hp, hrec, List.getLast?_reverse]
      rfl
    · rw [← hp, hrec, List.head?_reverse]
      exact hlast
    · rw [← hp, hrec]
      exact hvp
    · rw [← hp, List.length_reverse, hrec, hlen]
    · intro t2 m ht2 hm
      by_contra hcon
      have hvt2 : vis t2 = true := hcomp t2 m hm (by omega)
      by_cases hq : t2 ∈ c :: rest
      · rw [hsplit] at hq
        rcases List.mem_append.mp hq with h | h
        · exact hcon (shortest_min w cols rows st t2 n m (hqa t2 h) hm)
        · have := shortest_min w cols rows st t2 (n + 1) m (hqb t2 h) hm
          omega
      · have hfalse := hnt t2 hvt2 hq
        rw [hfalse] at ht2
        exact Bool.false_ne_true ht2
  · rw [if_neg hct] at hrun
    have hct2 : isTarget c = false := by
      revert hct
      cases isTarget c <;> simp
    obtain ⟨qb2, inv2⟩ :=
      bfsInv_step w cols rows st isTarget hw c rest vis par k qa2 qb inv hct2
    exact ih _ _ _ (deq + 1) k qa2 qb2 inv2 p deq2 hrun

lemma bfsLoop_correct (w : Walk) (cols rows : Int) (isTarget : Int × Int → Bool)
    (st : Int × Int) (rfuel : Nat)
    (hw : ∀ x y, inBounds cols rows x y = false → w x y = false)
    (hrf : cols.toNat * rows.toNat < rfuel) :
    ∀ (fuel : Nat) (q : List (Int × Int)) (vis : Int × Int → Bool)
      (par : (Int × Int) → Option (Int × Int)) (deq k : Nat)
      (qa qb : List (Int × Int)),
      BfsInv w cols rows st isTarget q vis par k qa qb →
      ∀ p deq2,
        bfsLoop w cols rows isTarget rfuel fuel q vis par deq = some (some p, deq2) →
        BfsPost w cols rows st isTarget p := by
  intro fuel
  induction fuel with
  | zero =>
    intro q vis par deq k qa qb inv p deq2 hrun
    rw [bfsLoop] at hrun
    exact Option.noConfusion hrun
  | succ fuel ih =>
    intro q vis par deq k qa qb inv p deq2 hrun
    cases q with
    | nil =>
      rw [bfsLoop] at hrun
      simp at hrun
    | cons c rest =>
      cases qa with
      | nil =>
        have hq : qb = c :: rest := by
          have h := inv.hsplit
          rw [List.nil_append] at h
          exact h.symm
        have inv2 := bfsInv_shift w cols rows st isTarget (c :: rest) vis par k qb
          (by rw [hq]; exact List.cons_ne_nil c rest) inv
        rw [hq] at inv2
        exact bfsLoop_correct_body w cols rows isTarget st rfuel fuel hw hrf ih
          c rest vis par deq (k + 1) rest [] inv2 p deq2 hrun
      | cons c0 qa2 =>
        have h := inv.hsplit
        rw [List.cons_append] at h
        injection h with h1 h2
        subst h1
        exact bfsLoop_correct_body w cols rows isTarget st rfuel fuel hw hrf ih
          c rest vis par deq k qa2 qb inv p deq2 hrun

lemma any_target_iff (targets : List (Int × Int)) (c : Int × Int) :
    (targets.any fun t => decide (t = c)) = true ↔ c ∈ targets := by
  simp only [List.any_eq_true, decide_eq_true_eq]
  constructor
  · rintro ⟨t, ht, rfl⟩
    exact ht
  · intro hc
    exact ⟨c, hc, rfl⟩

lemma bfsInv_init (w : Walk) (cols rows : Int) (st : Int × Int)
    (isTarget : Int × Int → Bool)
    (hst : inBounds cols rows st.1 st.2 = true) :
    BfsInv w cols rows st isTarget [st] (fun k => decide (k = st)) (fun _ => none)
      0 [st] [] := by
  refine ⟨rfl, ?_, ?_, ?_, ?_, ?_, ?_, ?_, ?_, ?_⟩
  · intro c hc
    rw [List.mem_singleton.mp hc]
    exact shortest_zero w cols rows st
  · exact fun c hc => absurd hc (List.not_mem_nil c)
  · intro c hc
    rw [List.mem_singleton.mp hc]
    simp
  · intro c hc
    have hcs : c = st := of_decide_eq_true hc
    rw [hcs]
    exact hst
  · intro c n hsteps hn
    have hn0 : n = 0 := Nat.le_zero.mp hn
    subst hn0
    cases hsteps with
    | refl => simp
  · intro c hc hcq
    exact absurd (by rw [of_decide_eq_true hc]; exact List.mem_singleton_self st) hcq
  · intro c hc hcq
    exact absurd (by rw [of_decide_eq_true hc]; exact List.mem_singleton_self st) hcq
  · intro c hc
    have hcs : c = st := of_decide_eq_true hc
    subst hcs
    exact ⟨0, ParChain.base (by simp) rfl, shortest_zero w cols rows c⟩
  · intro j hj
    have hj0 : j = 0 := Nat.le_zero.mp hj
    subst hj0
    exact ⟨st, by simp, shortest_zero w cols rows st⟩

/-- C7: whenever the nearest-target BFS posts a non-null path on a well-formed
request (`start` in bounds, walkability false outside the grid), the path
starts at `start`, is a valid walk over walkable in-bounds cells, ends at a
member of the target set whose hop distance from `start` is least among all
reachable targets, its length is that least distance plus one, and if `start`
itself is a target the posted path is exactly `[start]`. -/
theorem bfs_nearest_target (w : Walk) (cols rows : Int) (st : Int × Int)
    (targets : List (Int × Int)) (p : List (Int × Int)) (deq : Nat)
    (hst : inBounds cols rows st.1 st.2 = true)
    (hw : ∀ x y, inBounds cols rows x y = false → w x y = false)
    (hres : bfsRun w cols rows st targets = some (some p, deq)) :
    (∃ t n, p.getLast? = some t ∧ t ∈ targets ∧ p.head? = some st ∧
      ValidPath w cols rows p ∧ ShortestSteps w cols rows st t n ∧
      p.length = n + 1 ∧
      ∀ t2 ∈ targets, ∀ m, Steps w cols rows st t2 m → n ≤ m) ∧
    (st ∈ targets → p = [st]) := by
  constructor
  · have hres2 : bfsLoop w cols rows (fun c => targets.any fun t => decide (t = c))
        (cols.toNat * rows.toNat + 1) (cols.toNat * rows.toNat + 1)
        [st] (fun k => decide (k = st)) (fun _ => none) 0 = some (some p, deq) := hres
    have hpost := bfsLoop_correct w cols rows
      (fun c => targets.any fun t => decide (t = c)) st
      (cols.toNat * rows.toNat + 1) hw (by omega)
      (cols.toNat * rows.toNat + 1) [st] (fun k => decide (k = st)) (fun _ => none)
      0 0 [st] []
      (bfsInv_init w cols rows st _ hst) p deq hres2
    obtain ⟨t, n, h1, h2, h3, h4, h5, h6, h7⟩ := hpost
    exact ⟨t, n, h1, (any_target_iff targets t).mp h2, h3, h4, h5, h6,
      fun t2 ht2 m hm => h7 t2 m ((any_target_iff targets t2).mpr ht2) hm⟩
  · intro hstt
    have hcomp : bfsRun w cols rows st targets = some (some [st], 1) := by
      unfold bfsRun
      rw [bfsLoop]
      dsimp only
      rw [if_pos ((any_target_iff targets st).mpr hstt)]
      rw [bfsReconstruct]
      rfl
    rw [hres] at hcomp
    simp only [Option.some.injEq, Prod.mk.injEq] at hcomp
    exact hcomp.1

/-- Witness for C7 on a fully walkable 3×3 grid, start `(0,0)`, single target
`(2,0)`: the run posts the path `[(0,0), (1,0), (2,0)]` after 4 dequeues. -/
theorem bfs_nearest_target_witness :
    inBounds 3 3 ((0, 0) : Int × Int).1 ((0, 0) : Int × Int).2 = true ∧
    bfsRun (fun x y => inBounds 3 3 x y) 3 3 (0, 0) [(2, 0)] =
      some (some [(0, 0), (1, 0), (2, 0)], 4) ∧
    ((∃ t n, ([(0, 0), (1, 0), (2, 0)] : List (Int × Int)).getLast? = some t ∧
      t ∈ ([(2, 0)] : List (Int × Int)) ∧
      ([(0, 0), (1, 0), (2, 0)] : List (Int × Int)).head? = some (0, 0) ∧
      ValidPath (fun x y => inBounds 3 3 x y) 3 3 [(0, 0), (1, 0), (2, 0)] ∧
      ShortestSteps (fun x y => inBounds 3 3 x y) 3 3 (0, 0) t n ∧
      ([(0, 0), (1, 0), (2, 0)] : List (Int × Int)).length = n + 1 ∧
      ∀ t2 ∈ ([(2, 0)] : List (Int × Int)), ∀ m,
        Steps (fun x y => inBounds 3 3 x y) 3 3 (0, 0) t2 m → n ≤ m) ∧
    ((0, 0) ∈ ([(2, 0)] : List (Int × Int)) →
      ([(0, 0), (1, 0), (2, 0)] : List (Int × Int)) = [(0, 0)])) :=
  ⟨by decide, by decide,
    bfs_nearest_target (fun x y => inBounds 3 3 x y) 3 3 (0, 0) [(2, 0)]
      [(0, 0), (1, 0), (2, 0)] 4 (by decide) (fun x y h => h) (by decide)⟩

lemma listSwap_length {α : Type} (l : List α) (i j : Nat) (d : α) :
    (listSwap l i j d).length = l.length := by
  simp [listSwap]

lemma listSwap_subset {α : Type} (l : List α) (i j : Nat) (d : α)
    (hi : i < l.length) (hj : j < l.length) :
    ∀ x ∈ listSwap l i j d, x ∈ l := by
  intro x hx
  have hgj : l.getD j d ∈ l := by
    rw [List.getD_eq_getElem?_getD, List.getElem?_eq_getElem hj]
    exact List.getElem_mem hj
  have hgi : l.getD i d ∈ l := by
    rw [List.getD_eq_getElem?_getD, List.getElem?_eq_getElem hi]
    exact List.getElem_mem hi
  rcases List.mem_or_eq_of_mem_set hx with hx2 | hx2
  · rcases List.mem_or_eq_of_mem_set hx2 with hx3 | hx3
    · exact hx3
    · exact hx3 ▸ hgj
  · exact hx2 ▸ hgi

lemma siftUpF_subset : ∀ (fuel : Nat) (l : List ANode) (i : Nat), i < l.length →
    ∀ x ∈ siftUpF fuel l i, x ∈ l := by
  intro fuel
  induction fuel with
  | zero => exact fun l i _ x hx => hx
  | succ fuel ih =>
    intro l i hi x hx
    rw [siftUpF] at hx
    by_cases h0 : i = 0
    · rw [if_pos h0] at hx
      exact hx
    · rw [if_neg h0] at hx
      dsimp only at hx
      have hp : (i - 1) / 2 < l.length := by omega
      split at hx
      · have hswap : ∀ y ∈ siftUpF fuel (listSwap l i ((i - 1) / 2) dfltNode) ((i - 1) / 2),
            y ∈ listSwap l i ((i - 1) / 2) dfltNode := by
          refine ih _ _ ?_
          rw [listSwap_length]
          exact hp
        exact listSwap_subset l i ((i - 1) / 2) dfltNode hi hp x (hswap x hx)
      · exact hx

lemma pqPush_subset (l : List ANode) (item : ANode) :
    ∀ x ∈ pqPush l item, x ∈ l ∨ x = item := by
  intro x hx
  have hsub : ∀ y ∈ pqPush l item, y ∈ l ++ [item] := by
    refine siftUpF_subset (l.length + 1) (l ++ [item]) l.length ?_
    simp
  rcases List.mem_append.mp (hsub x hx) with h | h
  · exact Or.inl h
  · exact Or.inr (List.mem_singleton.mp h)

lemma siftDownF_subset : ∀ (fuel : Nat) (l : List ANode) (i : Nat), i < l.length →
    ∀ x ∈ siftDownF fuel l i, x ∈ l := by
  intro fuel
  induction fuel with
  | zero => exact fun l i _ x hx => hx
  | succ fuel ih =>
    intro l i hi x hx
    rw [siftDownF] at hx
    set m1 := if 2 * i + 1 < l.length ∧
        (l.getD (2 * i + 1) dfltNode).f < (l.getD i dfltNode).f then 2 * i + 1 else i
      with hm1
    set m2 := if 2 * i + 1 + 1 < l.length ∧
        (l.getD (2 * i + 1 + 1) dfltNode).f < (l.getD m1 dfltNode).f then 2 * i + 1 + 1
      else m1 with hm2
    have hm1lt : m1 < l.length := by
      rw [hm1]
      split
      · omega
      · exact hi
    have hm2lt : m2 < l.length := by
      rw [hm2]
      split
      · omega
      · exact hm1lt
    by_cases hmi : m2 = i
    · rw [if_pos hmi] at hx
      exact hx
    · rw [if_neg hmi] at hx
      have hsub : ∀ y ∈ siftDownF fuel (listSwap l i m2 dfltNode) m2,
          y ∈ listSwap l i m2 dfltNode := by
        refine ih _ _ ?_
        rw [listSwap_length]
        exact hm2lt
      exact listSwap_subset l i m2 dfltNode hi hm2lt x (hsub x hx)

lemma pqPop_subset (l : List ANode) (cur : ANode) (pq2 : List ANode)
    (h : pqPop l = (some cur, pq2)) : cur ∈ l ∧ ∀ x ∈ pq2, x ∈ l := by
  match l with
  | [] => exact absurd h (by rw [pqPop]; simp)
  | r :: t =>
    rw [pqPop] at h
    have hlast : (r :: t).getLastD dfltNode ∈ r :: t := by
      rw [List.getLastD_eq_getLast?, List.getLast?_eq_getLast _ (by simp)]
      exact List.getLast_mem _
    match hrest : (r :: t).dropLast with
    | [] =>
      rw [hrest] at h
      dsimp only at h
      injection h with h1 h2
      injection h1 with h1
      subst h1
      subst h2
      exact ⟨List.mem_cons_self _ _, by simp⟩
    | s :: t2 =>
      rw [hrest] at h
      dsimp only at h
      injection h with h1 h2
      injection h1 with h1
      subst h1
      refine ⟨List.mem_cons_self _ _, ?_⟩
      intro x hx
      rw [← h2] at hx
      have hset : ∀ y ∈ (s :: t2).set 0 ((r :: t).getLastD dfltNode), y ∈ r :: t := by
        intro y hy
        rcases List.mem_or_eq_of_mem_set hy with hy2 | hy2
        · have : y ∈ (r :: t).dropLast := by
            rw [hrest]
            exact hy2
          exact List.dropLast_subset _ this
        · exact hy2 ▸ hlast
      have hlen : 0 < ((s :: t2).set 0 ((r :: t).getLastD dfltNode)).length := by
        simp
      exact hset x (siftDownF_subset (s :: t2).length _ 0 hlen x hx)

lemma relax_fold_pres (w : Walk) (cols rows : Int) (en : Int × Int) (cur : ANode)
    (P : Int × Int → Prop) :
    ∀ (L : List (Int × Int)) (acc : OpenMap × List ANode),
      (∀ x ∈ acc.2, P (x.x, x.y)) →
      (∀ nb ∈ L, P nb) →
      ∀ x ∈ (L.foldl
        (fun acc2 nb =>
          let ng := cur.g + 1
          let nf := ng + manh nb en
          match acc2.1 nb with
          | some existing =>
              if ng < existing.g then
                let node := ANode.mk nb.1 nb.2 ng nf (some cur)
                (omSet acc2.1 nb node, pqPush acc2.2 node)
              else acc2
          | none =>
              let node := ANode.mk nb.1 nb.2 ng nf (some cur)
              (omSet acc2.1 nb node, pqPush acc2.2 node))
        acc).2, P (x.x, x.y) := by
  intro L
  induction L with
  | nil => exact fun acc hacc _ x hx => hacc x hx
  | cons nb L ih =>
    intro acc hacc hL x hx
    rw [List.foldl_cons] at hx
    have hPnb : P nb := hL nb (List.mem_cons_self _ _)
    have hLrest : ∀ d ∈ L, P d := fun d hd => hL d (List.mem_cons_of_mem nb hd)
    refine ih _ ?_ hLrest x hx
    intro y hy
    obtain ⟨om, pqq⟩ := acc
    dsimp only at hy hacc
    rcases hnb : om nb with _ | existing
    · rw [hnb] at hy
      dsimp only at hy
      rcases pqPush_subset _ _ y hy with h | h
      · exact hacc y h
      · subst h
        exact hPnb
    · rw [hnb] at hy
      dsimp only at hy
      by_cases hg : cur.g + 1 < existing.g
      · rw [if_pos hg] at hy
        dsimp only at hy
        rcases pqPush_subset _ _ y hy with h | h
        · exact hacc y h
        · subst h
          exact hPnb
      · rw [if_neg hg] at hy
        exact hacc y hy

lemma relaxAll_pq_pres (w : Walk) (cols rows : Int) (en : Int × Int) (cur : ANode)
    (omap : OpenMap) (pq2 : List ANode) (P : Int × Int → Prop)
    (hpq : ∀ x ∈ pq2, P (x.x, x.y))
    (hnb : ∀ nb ∈ neighborsW w cols rows cur.x cur.y, P nb) :
    ∀ x ∈ (relaxAll w cols rows en cur (omap, pq2)).2, P (x.x, x.y) := by
  intro x hx
  exact relax_fold_pres w cols rows en cur P (neighborsW w cols rows cur.x cur.y)
    (omap, pq2) hpq hnb x hx

lemma astarLoop_unreachable (w : Walk) (cols rows : Int) (st en : Int × Int)
    (hw : ∀ x y, inBounds cols rows x y = false → w x y = false)
    (hnr : ¬ Reaches w cols rows st en) :
    ∀ (fuel : Nat) (omap : OpenMap) (pq : List ANode) (steps : Nat),
      (∀ nd ∈ pq, Reaches w cols rows st (nd.x, nd.y)) →
      ∃ steps2, astarLoop w cols rows en fuel omap pq steps = (none, steps2) ∧
        steps2 ≤ steps + fuel := by
  intro fuel
  induction fuel with
  | zero =>
    intro omap pq steps hpq
    exact ⟨steps, by rw [astarLoop], by omega⟩
  | succ fuel ih =>
    intro omap pq steps hpq
    cases pq with
    | nil => exact ⟨steps, by rw [astarLoop], by omega⟩
    | cons a t =>
      rw [astarLoop]
      dsimp only
      rcases hpop : pqPop (a :: t) with ⟨o, pq2⟩
      cases o with
      | none => exact ⟨steps + 1, rfl, by omega⟩
      | some cur =>
        obtain ⟨hcur, hpq2⟩ := pqPop_subset (a :: t) cur pq2 hpop
        have hcurR : Reaches w cols rows st (cur.x, cur.y) := hpq cur hcur
        have hne : ¬ (cur.x = en.1 ∧ cur.y = en.2) := by
          rintro ⟨h1, h2⟩
          refine hnr ?_
          have hen : (cur.x, cur.y) = en := by
            rw [h1, h2]
          rw [← hen]
          exact hcurR
        dsimp only
        rw [if_neg hne]
        have hinv : ∀ nd ∈ (relaxAll w cols rows en cur (omap, pq2)).2,
            Reaches w cols rows st (nd.x, nd.y) := by
          refine relaxAll_pq_pres w cols rows en cur omap pq2
            (fun c => Reaches w cols rows st c) (fun x hx => hpq x (hpq2 x hx)) ?_
          intro nb hnb
          obtain ⟨hadj, hib, hwk⟩ := mem_neighborsW_facts w cols rows hw cur.x cur.y nb hnb
          obtain ⟨n, hsteps⟩ := hcurR
          exact ⟨n + 1, Steps.tail hsteps hadj hib hwk⟩
        obtain ⟨steps2, hrun, hle⟩ := ih (relaxAll w cols rows en cur (omap, pq2)).1
          (relaxAll w cols rows en cur (omap, pq2)).2 (steps + 1) hinv
        exact ⟨steps2, hrun, by omega⟩

/-- C8: on any grid snapshot (walkability false outside the bounds) with the
goal unreachable from the start over walkable cells, the A* service stops
with a null path after at most `cols · rows · 10` expansions (pops): every
frontier node's coordinate is reachable from the start, so the goal test
never fires, and each iteration spends one unit of the expansion budget. -/
theorem astar_unreachable_budget (w : Walk) (cols rows : Int) (st en : Int × Int)
    (hw : ∀ x y, inBounds cols rows x y = false → w x y = false)
    (hnr : ¬ Reaches w cols rows st en) :
    ∃ steps, astarRun w cols rows st en = (none, steps) ∧
      steps ≤ (cols * rows * 10).toNat := by
  have hinv : ∀ nd ∈ pqPush [] (ANode.mk st.1 st.2 0 (manh st en) none),
      Reaches w cols rows st (nd.x, nd.y) := by
    intro nd hnd
    rcases pqPush_subset [] _ nd hnd with h | h
    · exact absurd h (List.not_mem_nil nd)
    · subst h
      exact ⟨0, Steps.refl⟩
  obtain ⟨steps2, hrun, hle⟩ := astarLoop_unreachable w cols rows st en hw hnr
    (cols * rows * 10).toNat
    (omSet (fun _ => none) st (ANode.mk st.1 st.2 0 (manh st en) none))
    (pqPush [] (ANode.mk st.1 st.2 0 (manh st en) none)) 0 hinv
  exact ⟨steps2, hrun, by omega⟩

/-- Witness for C8: a 2×2 grid with no walkable cell at all; `(1,0)` is
unreachable from `(0,0)`. -/
theorem astar_unreachable_budget_witness :
    (∀ x y, inBounds 2 2 x y = false → (fun _ _ => false : Walk) x y = false) ∧
    ¬ Reaches (fun _ _ => false) 2 2 (0, 0) (1, 0) ∧
    (∃ steps, astarRun (fun _ _ => false) 2 2 (0, 0) (1, 0) = (none, steps) ∧
      steps ≤ ((2 : Int) * 2 * 10).toNat) := by
  have hnr : ¬ Reaches (fun _ _ => false) 2 2 (0, 0) (1, 0) := by
    rintro ⟨n, hsteps⟩
    cases hsteps with
    | tail h hadj hib hwk => exact Bool.false_ne_true hwk
  exact ⟨fun x y h => rfl, hnr,
    astar_unreachable_budget (fun _ _ => false) 2 2 (0, 0) (1, 0)
      (fun x y h => rfl) hnr⟩

lemma steps_mono (w1 w2 : Walk) (cols rows : Int) (st : Int × Int)
    (hmono : ∀ x y, w1 x y = true → w2 x y = true) :
    ∀ c n, Steps w1 cols rows st c n → Steps w2 cols rows st c n := by
  intro c n h
  induction h with
  | refl => exact Steps.refl
  | tail h hadj hib hwk ih => exact Steps.tail ih hadj hib (hmono _ _ hwk)

lemma jsFloorMul_range (q : ℚ) (k : Int) (h0 : 0 ≤ q) (h1 : q < 1) (hk : 0 < k) :
    0 ≤ jsFloorMul q k ∧ jsFloorMul q k < k := by
  have hden : (0 : Int) < (q.den : Int) := by exact_mod_cast q.pos
  have hnum : 0 ≤ q.num := Rat.num_nonneg.mpr h0
  have hnd : q.num < (q.den : Int) := by
    have := Rat.lt_one_iff_num_lt_denom.mp h1
    exact_mod_cast this
  constructor
  · exact Int.fdiv_nonneg (by positivity) (by omega)
  · rw [jsFloorMul, Int.fdiv_eq_ediv _ (by omega)]
    refine Int.ediv_lt_of_lt_mul hden ?_
    calc q.num * k < (q.den : Int) * k := by
          exact mul_lt_mul_of_pos_right hnd hk
      _ = k * (q.den : Int) := mul_comm _ _

lemma shuffle_mem_aux : ∀ (j1 : Fin 4) (j2 : Fin 3) (j3 : Fin 2),
    ∀ d ∈ ([(2, 0), (-2, 0), (0, 2), (0, -2)] : List (Int × Int)),
      d ∈ listSwap (listSwap (listSwap
        ([(2, 0), (-2, 0), (0, 2), (0, -2)] : List (Int × Int)) 3 j1.val (0, 0))
          2 j2.val (0, 0)) 1 j3.val (0, 0) := by
  decide

lemma shuffle_mem_aux2 : ∀ (j1 : Fin 4) (j2 : Fin 3) (j3 : Fin 2),
    ∀ d ∈ listSwap (listSwap (listSwap
        ([(2, 0), (-2, 0), (0, 2), (0, -2)] : List (Int × Int)) 3 j1.val (0, 0))
          2 j2.val (0, 0)) 1 j3.val (0, 0),
      d ∈ ([(2, 0), (-2, 0), (0, 2), (0, -2)] : List (Int × Int)) := by
  decide

lemma shuffleDirs_mem (r : RandSrc) (n : Nat) (hr : ∀ k, 0 ≤ r k ∧ r k < 1) :
    (∀ d ∈ ([(2, 0), (-2, 0), (0, 2), (0, -2)] : List (Int × Int)),
      d ∈ shuffleDirs r n [(2, 0), (-2, 0), (0, 2), (0, -2)]) ∧
    (∀ d ∈ shuffleDirs r n [(2, 0), (-2, 0), (0, 2), (0, -2)],
      d ∈ ([(2, 0), (-2, 0), (0, 2), (0, -2)] : List (Int × Int))) := by
  have h1 := jsFloorMul_range (r n) 4 (hr n).1 (hr n).2 (by omega)
  have h2 := jsFloorMul_range (r (n + 1)) 3 (hr (n + 1)).1 (hr (n + 1)).2 (by omega)
  have h3 := jsFloorMul_range (r (n + 2)) 2 (hr (n + 2)).1 (hr (n + 2)).2 (by omega)
  have hj1 : (jsFloorMul (r n) 4).toNat < 4 := by omega
  have hj2 : (jsFloorMul (r (n + 1)) 3).toNat < 3 := by omega
  have hj3 : (jsFloorMul (r (n + 2)) 2).toNat < 2 := by omega
  exact ⟨fun d hd => shuffle_mem_aux ⟨_, hj1⟩ ⟨_, hj2⟩ ⟨_, hj3⟩ d hd,
    fun d hd => shuffle_mem_aux2 ⟨_, hj1⟩ ⟨_, hj2⟩ ⟨_, hj3⟩ d hd⟩

lemma type_path_of_ne_wall (c : MazeCell) (h : ¬ c.type = CellType.wall) :
    c.type = CellType.path := by
  cases htype : c.type with
  | wall => exact absurd htype h
  | path => rfl

lemma updCell_type_mono (m : Maze) (x y : Int) (a b : Int)
    (h : (m a b).type = CellType.path) :
    ((updCell m x y (fun c => { c with type := CellType.path }) a b)).type =
      CellType.path := by
  unfold updCell
  split
  · rfl
  · exact h

lemma inCarveRange_iff (cols rows x y : Int) :
    inCarveRange cols rows x y = true ↔
      0 < x ∧ x < cols - 1 ∧ 0 < y ∧ y < rows - 1 := by
  simp [inCarveRange, Bool.and_eq_true, decide_eq_true_eq, and_assoc]

lemma inCarveRange_inBounds (cols rows x y : Int)
    (h : inCarveRange cols rows x y = true) : inBounds cols rows x y = true := by
  rw [inCarveRange_iff] at h
  simp only [inBounds, Bool.and_eq_true, decide_eq_true_eq]
  omega

lemma carve_step_inv (cols rows : Int) (m : Maze) (cx cy dx dy : Int)
    (rest : List (Int × Int))
    (hd0 : (dx = 2 ∧ dy = 0) ∨ (dx = -2 ∧ dy = 0) ∨ (dx = 0 ∧ dy = 2) ∨
      (dx = 0 ∧ dy = -2))
    (inv : CarveInv cols rows m ((cx, cy) :: rest))
    (hrange : inCarveRange cols rows (cx + dx) (cy + dy) = true)
    (hwall : (m (cx + dx) (cy + dy)).type = CellType.wall) :
    CarveInv cols rows
      (updCell (updCell m (cx + dx / 2) (cy + dy / 2)
          (fun c => { c with type := CellType.path }))
        (cx + dx) (cy + dy) (fun c => { c with type := CellType.path }))
      ((cx + dx, cy + dy) :: (cx, cy) :: rest) := by
  obtain ⟨hsk, hrm, hpp⟩ := inv
  obtain ⟨hcx, hcy, hcr, hcp⟩ := hsk (cx, cy) (List.mem_cons_self _ _)
  have hcr' := (inCarveRange_iff cols rows cx cy).mp hcr
  have hrange' := (inCarveRange_iff cols rows (cx + dx) (cy + dy)).mp hrange
  have hdxodd : (cx + dx) % 2 = 1 ∧ (cy + dy) % 2 = 1 := by
    rcases hd0 with ⟨rfl, rfl⟩ | ⟨rfl, rfl⟩ | ⟨rfl, rfl⟩ | ⟨rfl, rfl⟩ <;>
      constructor <;> omega
  have hmid_half : dx / 2 * 2 = dx ∧ dy / 2 * 2 = dy := by
    rcases hd0 with ⟨rfl, rfl⟩ | ⟨rfl, rfl⟩ | ⟨rfl, rfl⟩ | ⟨rfl, rfl⟩ <;> constructor <;> rfl
  have hmid_notroom : ¬((cx + dx / 2) % 2 = 1 ∧ (cy + dy / 2) % 2 = 1) := by
    rcases hd0 with ⟨rfl, rfl⟩ | ⟨rfl, rfl⟩ | ⟨rfl, rfl⟩ | ⟨rfl, rfl⟩ <;>
      intro hctr <;> omega
  have hmid_ne : ¬(cx + dx / 2 = cx + dx ∧ cy + dy / 2 = cy + dy) := by
    rcases hd0 with ⟨rfl, rfl⟩ | ⟨rfl, rfl⟩ | ⟨rfl, rfl⟩ | ⟨rfl, rfl⟩ <;> intro hctr <;> omega
  have hm2target :
      ((updCell (updCell m (cx + dx / 2) (cy + dy / 2)
          (fun c => { c with type := CellType.path }))
        (cx + dx) (cy + dy) (fun c => { c with type := CellType.path }))
        (cx + dx) (cy + dy)).type = CellType.path := by
    rw [updCell_self]
  have hm2mid :
      ((updCell (updCell m (cx + dx / 2) (cy + dy / 2)
          (fun c => { c with type := CellType.path }))
        (cx + dx) (cy + dy) (fun c => { c with type := CellType.path }))
        (cx + dx / 2) (cy + dy / 2)).type = CellType.path := by
    rw [updCell_ne _ _ _ _ hmid_ne, updCell_self]
  have hpres : ∀ a b, ¬(a = cx + dx / 2 ∧ b = cy + dy / 2) →
      ¬(a = cx + dx ∧ b = cy + dy) →
      (updCell (updCell m (cx + dx / 2) (cy + dy / 2)
          (fun c => { c with type := CellType.path }))
        (cx + dx) (cy + dy) (fun c => { c with type := CellType.path })) a b = m a b := by
    intro a b h1 h2
    rw [updCell_ne _ _ _ _ h2, updCell_ne _ _ _ _ h1]
  have hmono : ∀ a b, (m a b).type = CellType.path →
      ((updCell (updCell m (cx + dx / 2) (cy + dy / 2)
          (fun c => { c with type := CellType.path }))
        (cx + dx) (cy + dy) (fun c => { c with type := CellType.path })) a b).type =
        CellType.path := by
    intro a b h
    exact updCell_type_mono _ _ _ _ _ (updCell_type_mono _ _ _ _ _ h)
  have hmonoW : ∀ a b, pathW m a b = true →
      pathW (updCell (updCell m (cx + dx / 2) (cy + dy / 2)
          (fun c => { c with type := CellType.path }))
        (cx + dx) (cy + dy) (fun c => { c with type := CellType.path })) a b = true := by
    intro a b h
    rw [pathW, decide_eq_true_eq] at h ⊢
    exact hmono a b h
  refine ⟨?_, ?_, ?_⟩
  · intro c hc
    rcases List.mem_cons.mp hc with rfl | hc2
    · exact ⟨hdxodd.1, hdxodd.2, hrange, hm2target⟩
    · obtain ⟨h1, h2, h3, h4⟩ := hsk c hc2
      exact ⟨h1, h2, h3, hmono c.1 c.2 h4⟩
  · intro x y hox hoy hr2 hp2
    by_cases hxy : x = cx + dx ∧ y = cy + dy
    · obtain ⟨rfl, rfl⟩ := hxy
      obtain ⟨k, hsteps⟩ := hrm cx cy hcx hcy hcr hcp
      have hsteps2 := steps_mono (pathW m) _ cols rows (1, 1) hmonoW (cx, cy) k hsteps
      have hmidstep : Steps (pathW (updCell (updCell m (cx + dx / 2) (cy + dy / 2)
          (fun c => { c with type := CellType.path }))
        (cx + dx) (cy + dy) (fun c => { c with type := CellType.path })))
          cols rows (1, 1) (cx + dx / 2, cy + dy / 2) (k + 1) := by
        refine Steps.tail hsteps2 ?_ ?_ ?_
        · rcases hd0 with ⟨rfl, rfl⟩ | ⟨rfl, rfl⟩ | ⟨rfl, rfl⟩ | ⟨rfl, rfl⟩ <;>
            unfold adjStep <;> dsimp only <;> omega
        · simp only [inBounds, Bool.and_eq_true, decide_eq_true_eq]
          rcases hd0 with ⟨rfl, rfl⟩ | ⟨rfl, rfl⟩ | ⟨rfl, rfl⟩ | ⟨rfl, rfl⟩ <;>
            refine ⟨⟨⟨?_, ?_⟩, ?_⟩, ?_⟩ <;> omega
        · rw [pathW, decide_eq_true_eq]
          exact hm2mid
      refine ⟨k + 2, Steps.tail hmidstep ?_ ?_ ?_⟩
      · rcases hd0 with ⟨rfl, rfl⟩ | ⟨rfl, rfl⟩ | ⟨rfl, rfl⟩ | ⟨rfl, rfl⟩ <;>
          unfold adjStep <;> dsimp only <;> omega
      · simp only [inBounds, Bool.and_eq_true, decide_eq_true_eq]
        rcases hd0 with ⟨rfl, rfl⟩ | ⟨rfl, rfl⟩ | ⟨rfl, rfl⟩ | ⟨rfl, rfl⟩ <;>
          refine ⟨⟨⟨?_, ?_⟩, ?_⟩, ?_⟩ <;> omega
      · rw [pathW, decide_eq_true_eq]
        exact hm2target
    · have hmid2 : ¬(x = cx + dx / 2 ∧ y = cy + dy / 2) := by
        intro hctr
        obtain ⟨rfl, rfl⟩ := hctr
        exact hmid_notroom ⟨hox, hoy⟩
      have hmp : (m x y).type = CellType.path := by
        rw [hpres x y hmid2 hxy] at hp2
        exact hp2
      obtain ⟨k, hsteps⟩ := hrm x y hox hoy hr2 hmp
      exact ⟨k, steps_mono (pathW m) _ cols rows (1, 1) hmonoW (x, y) k hsteps⟩
  · intro x y hox hoy hr2 hp2 hnotin d2 hd2 hr3
    have hne1 : ¬(x = cx + dx ∧ y = cy + dy) := by
      intro hctr
      exact hnotin (by rw [hctr.1, hctr.2]; exact List.mem_cons_self _ _)
    have hmid2 : ¬(x = cx + dx / 2 ∧ y = cy + dy / 2) := by
      intro hctr
      obtain ⟨rfl, rfl⟩ := hctr
      exact hmid_notroom ⟨hox, hoy⟩
    have hmp : (m x y).type = CellType.path := by
      rw [hpres x y hmid2 hne1] at hp2
      exact hp2
    have hnotold : (x, y) ∉ (cx, cy) :: rest := by
      intro hctr
      exact hnotin (List.mem_cons_of_mem _ hctr)
    exact hmono _ _ (hpp x y hox hoy hr2 hmp hnotold d2 hd2 hr3)

lemma carve_measure_drop (cols rows : Int) (m : Maze) (cx cy dx dy : Int)
    (hd0 : (dx = 2 ∧ dy = 0) ∨ (dx = -2 ∧ dy = 0) ∨ (dx = 0 ∧ dy = 2) ∨
      (dx = 0 ∧ dy = -2))
    (hodd : (cx + dx) % 2 = 1 ∧ (cy + dy) % 2 = 1)
    (hrange : inCarveRange cols rows (cx + dx) (cy + dy) = true)
    (hwall : (m (cx + dx) (cy + dy)).type = CellType.wall) :
    ((boundsFinset cols rows).filter
        (fun c => c.1 % 2 = 1 ∧ c.2 % 2 = 1 ∧ inCarveRange cols rows c.1 c.2 = true ∧
          ((updCell (updCell m (cx + dx / 2) (cy + dy / 2)
              (fun c2 => { c2 with type := CellType.path }))
            (cx + dx) (cy + dy) (fun c2 => { c2 with type := CellType.path }))
              c.1 c.2).type = CellType.wall)).card + 1 =
    ((boundsFinset cols rows).filter
        (fun c => c.1 % 2 = 1 ∧ c.2 % 2 = 1 ∧ inCarveRange cols rows c.1 c.2 = true ∧
          (m c.1 c.2).type = CellType.wall)).card := by
  have hmid_notroom : ¬((cx + dx / 2) % 2 = 1 ∧ (cy + dy / 2) % 2 = 1) := by
    rcases hd0 with ⟨rfl, rfl⟩ | ⟨rfl, rfl⟩ | ⟨rfl, rfl⟩ | ⟨rfl, rfl⟩ <;>
      intro hctr <;> omega
  have hset : (boundsFinset cols rows).filter
      (fun c => c.1 % 2 = 1 ∧ c.2 % 2 = 1 ∧ inCarveRange cols rows c.1 c.2 = true ∧
        ((updCell (updCell m (cx + dx / 2) (cy + dy / 2)
            (fun c2 => { c2 with type := CellType.path }))
          (cx + dx) (cy + dy) (fun c2 => { c2 with type := CellType.path }))
            c.1 c.2).type = CellType.wall) =
      ((boundsFinset cols rows).filter
        (fun c => c.1 % 2 = 1 ∧ c.2 % 2 = 1 ∧ inCarveRange cols rows c.1 c.2 = true ∧
          (m c.1 c.2).type = CellType.wall)).erase (cx + dx, cy + dy) := by
    ext c
    obtain ⟨a, b⟩ := c
    simp only [Finset.mem_filter, Finset.mem_erase, ne_eq, Prod.mk.injEq, not_and]
    constructor
    · rintro ⟨hB, h1, h2, h3, h4⟩
      have hne1 : ¬(a = cx + dx ∧ b = cy + dy) := by
        rintro ⟨rfl, rfl⟩
        rw [updCell_self] at h4
        exact CellType.noConfusion h4
      have hne2 : ¬(a = cx + dx / 2 ∧ b = cy + dy / 2) := by
        rintro ⟨rfl, rfl⟩
        exact hmid_notroom ⟨h1, h2⟩
      rw [updCell_ne _ _ _ _ hne1, updCell_ne _ _ _ _ hne2] at h4
      exact ⟨fun ha hb => hne1 ⟨ha, hb⟩, hB, h1, h2, h3, h4⟩
    · rintro ⟨hne, hB, h1, h2, h3, h4⟩
      have hne1 : ¬(a = cx + dx ∧ b = cy + dy) := fun hctr => hne hctr.1 hctr.2
      have hne2 : ¬(a = cx + dx / 2 ∧ b = cy + dy / 2) := by
        rintro ⟨rfl, rfl⟩
        exact hmid_notroom ⟨h1, h2⟩
      refine ⟨hB, h1, h2, h3, ?_⟩
      rw [updCell_ne _ _ _ _ hne1, updCell_ne _ _ _ _ hne2]
      exact h4
  rw [hset, Finset.card_erase_of_mem]
  · have hpos : 0 < ((boundsFinset cols rows).filter
        (fun c => c.1 % 2 = 1 ∧ c.2 % 2 = 1 ∧ inCarveRange cols rows c.1 c.2 = true ∧
          (m c.1 c.2).type = CellType.wall)).card := by
      refine Finset.card_pos.mpr ⟨(cx + dx, cy + dy), ?_⟩
      exact Finset.mem_filter.mpr ⟨(mem_boundsFinset cols rows _).mpr
        (inCarveRange_inBounds cols rows _ _ hrange), hodd.1, hodd.2, hrange, hwall⟩
    omega
  · exact Finset.mem_filter.mpr ⟨(mem_boundsFinset cols rows _).mpr
      (inCarveRange_inBounds cols rows _ _ hrange), hodd.1, hodd.2, hrange, hwall⟩

lemma carveLoop_drains (cols rows : Int) (r : RandSrc)
    (hr : ∀ k, 0 ≤ r k ∧ r k < 1) :
    ∀ (fuel : Nat) (m : Maze) (stack : List (Int × Int)) (n : Nat),
      CarveInv cols rows m stack →
      2 * ((boundsFinset cols rows).filter
          (fun c => c.1 % 2 = 1 ∧ c.2 % 2 = 1 ∧
            inCarveRange cols rows c.1 c.2 = true ∧
            (m c.1 c.2).type = CellType.wall)).card + stack.length ≤ fuel →
      (carveLoop fuel cols rows r m stack n).2.1 = [] ∧
      CarveInv cols rows (carveLoop fuel cols rows r m stack n).1 [] ∧
      (∀ x y, (m x y).type = CellType.path →
        ((carveLoop fuel cols rows r m stack n).1 x y).type = CellType.path) := by
  intro fuel
  induction fuel with
  | zero =>
    intro m stack n inv hms
    cases stack with
    | nil => exact ⟨rfl, inv, fun x y h => h⟩
    | cons c t =>
      rw [List.length_cons] at hms
      omega
  | succ fuel ih =>
    intro m stack n inv hms
    cases stack with
    | nil => exact ⟨rfl, inv, fun x y h => h⟩
    | cons hd rest =>
      obtain ⟨cx, cy⟩ := hd
      rw [carveLoop]
      dsimp only
      rcases hf : (shuffleDirs r n [(2, 0), (-2, 0), (0, 2), (0, -2)]).find?
          (fun d => inCarveRange cols rows (cx + d.1) (cy + d.2) &&
            decide ((m (cx + d.1) (cy + d.2)).type = CellType.wall)) with _ | d
      · -- exhausted: pop
        rw [hf]
        have hnone := List.find?_eq_none.mp hf
        have inv2 : CarveInv cols rows m rest := by
          obtain ⟨hsk, hrm, hpp⟩ := inv
          refine ⟨fun c hc => hsk c (List.mem_cons_of_mem _ hc), hrm, ?_⟩
          intro x y hox hoy hr2 hp2 hnotin d2 hd2 hr3
          by_cases hxy : (x, y) = (cx, cy)
          · obtain ⟨rfl, rfl⟩ : x = cx ∧ y = cy := by
              rw [Prod.mk.injEq] at hxy
              exact hxy
            have hd2' := (shuffleDirs_mem r n hr).1 d2 hd2
            have := hnone d2 hd2'
            rw [Bool.and_eq_true, not_and_or] at this
            rcases this with h | h
            · exact absurd hr3 h
            · refine type_path_of_ne_wall _ ?_
              intro hctr
              exact h (by rw [decide_eq_true_eq]; exact hctr)
          · refine hpp x y hox hoy hr2 hp2 ?_ d2 hd2 hr3
            intro hctr
            rcases List.mem_cons.mp hctr with h | h
            · exact hxy h
            · exact hnotin h
        refine ih m rest (n + 3) inv2 ?_
        rw [List.length_cons] at hms
        omega
      · -- carve
        rw [hf]
        dsimp only
        have hdmem : d ∈ shuffleDirs r n [(2, 0), (-2, 0), (0, 2), (0, -2)] :=
          List.mem_of_find?_eq_some hf
        have hd0' : d ∈ ([(2, 0), (-2, 0), (0, 2), (0, -2)] : List (Int × Int)) :=
          (shuffleDirs_mem r n hr).2 d hdmem
        obtain ⟨dx, dy⟩ := d
        have hd0 : (dx = 2 ∧ dy = 0) ∨ (dx = -2 ∧ dy = 0) ∨ (dx = 0 ∧ dy = 2) ∨
            (dx = 0 ∧ dy = -2) := by
          simpa [Prod.mk.injEq] using hd0'
        have hpred := List.find?_some hf
        rw [Bool.and_eq_true, decide_eq_true_eq] at hpred
        obtain ⟨hrange, hwall⟩ := hpred
        have hodd : (cx + dx) % 2 = 1 ∧ (cy + dy) % 2 = 1 := by
          obtain ⟨hcx, hcy, -, -⟩ := inv.hstack (cx, cy) (List.mem_cons_self _ _)
          rcases hd0 with ⟨rfl, rfl⟩ | ⟨rfl, rfl⟩ | ⟨rfl, rfl⟩ | ⟨rfl, rfl⟩ <;>
            constructor <;> omega
        have inv2 := carve_step_inv cols rows m cx cy dx dy rest hd0 inv hrange hwall
        have hdrop := carve_measure_drop cols rows m cx cy dx dy hd0 hodd hrange hwall
        have hmono2 : ∀ x y, (m x y).type = CellType.path →
            ((updCell (updCell m (cx + dx / 2) (cy + dy / 2)
                (fun c => { c with type := CellType.path }))
              (cx + dx) (cy + dy) (fun c => { c with type := CellType.path })) x y).type =
              CellType.path := by
          intro x y h
          exact updCell_type_mono _ _ _ _ _ (updCell_type_mono _ _ _ _ _ h)
        obtain ⟨hres1, hres2, hres3⟩ := ih
          (updCell (updCell m (cx + dx / 2) (cy + dy / 2)
              (fun c => { c with type := CellType.path }))
            (cx + dx) (cy + dy) (fun c => { c with type := CellType.path }))
          ((cx + dx, cy + dy) :: (cx, cy) :: rest) (n + 3) inv2
          (by
            simp only [List.length_cons] at hms ⊢
            omega)
        exact ⟨hres1, hres2, fun x y h => hres3 x y (hmono2 x y h)⟩

lemma carve_row_path (cols rows : Int) (m : Maze)
    (hr3 : 3 ≤ rows) (inv : CarveInv cols rows m [])
    (hseed : (m 1 1).type = CellType.path) :
    ∀ t : Nat, 1 + 2 * (t : Int) ≤ cols - 2 →
      (m (1 + 2 * (t : Int)) 1).type = CellType.path := by
  intro t
  induction t with
  | zero =>
    intro ht
    simpa using hseed
  | succ t ih =>
    intro ht
    push_cast at ht ⊢
    have hpath := ih (by omega)
    have happ := inv.hpop (1 + 2 * (t : Int)) 1 (by omega) (by omega)
      ((inCarveRange_iff cols rows _ _).mpr (by omega)) hpath (List.not_mem_nil _)
      (2, 0) (by decide) ((inCarveRange_iff cols rows _ _).mpr (by omega))
    have heq : (1 : Int) + 2 * ((t : Int) + 1) = 1 + 2 * (t : Int) + 2 := by ring
    rw [heq]
    simpa using happ

lemma carve_col_path (cols rows : Int) (m : Maze)
    (hc3 : 3 ≤ cols) (x0 : Int) (hx0 : x0 % 2 = 1) (hx0r : 0 < x0 ∧ x0 < cols - 1)
    (inv : CarveInv cols rows m [])
    (hbase : (m x0 1).type = CellType.path) :
    ∀ t : Nat, 1 + 2 * (t : Int) ≤ rows - 2 →
      (m x0 (1 + 2 * (t : Int))).type = CellType.path := by
  intro t
  induction t with
  | zero =>
    intro ht
    simpa using hbase
  | succ t ih =>
    intro ht
    push_cast at ht ⊢
    have hpath := ih (by omega)
    have happ := inv.hpop x0 (1 + 2 * (t : Int)) hx0 (by omega)
      ((inCarveRange_iff cols rows _ _).mpr (by omega)) hpath (List.not_mem_nil _)
      (0, 2) (by decide) ((inCarveRange_iff cols rows _ _).mpr (by omega))
    have heq : (1 : Int) + 2 * ((t : Int) + 1) = 1 + 2 * (t : Int) + 2 := by ring
    rw [heq]
    simpa using happ

lemma carve_end_path (cols rows : Int) (m : Maze)
    (hoc : cols % 2 = 1) (hor : rows % 2 = 1) (hc3 : 3 ≤ cols) (hr3 : 3 ≤ rows)
    (inv : CarveInv cols rows m [])
    (hseed : (m 1 1).type = CellType.path) :
    (m (cols - 2) (rows - 2)).type = CellType.path := by
  have hrowt := carve_row_path cols rows m hr3 inv hseed ((cols - 3) / 2).toNat
  have hcast1 : ((((cols - 3) / 2).toNat : Int)) = (cols - 3) / 2 :=
    Int.toNat_of_nonneg (by omega)
  rw [hcast1] at hrowt
  have heq1 : (1 : Int) + 2 * ((cols - 3) / 2) = cols - 2 := by omega
  rw [heq1] at hrowt
  have hrow : (m (cols - 2) 1).type = CellType.path := hrowt (by omega)
  have hcolt := carve_col_path cols rows m hc3 (cols - 2) (by omega)
    ⟨by omega, by omega⟩ inv hrow ((rows - 3) / 2).toNat
  have hcast2 : ((((rows - 3) / 2).toNat : Int)) = (rows - 3) / 2 :=
    Int.toNat_of_nonneg (by omega)
  rw [hcast2] at hcolt
  have heq2 : (1 : Int) + 2 * ((rows - 3) / 2) = rows - 2 := by omega
  rw [heq2] at hcolt
  exact hcolt (by omega)

lemma extraLoop_type_mono :
    ∀ (k : Nat) (cols rows : Int) (shuf : ℚ) (r : RandSrc) (m : Maze) (n : Nat)
      (x y : Int), (m x y).type = CellType.path →
      ((extraLoop k cols rows shuf r m n).1 x y).type = CellType.path := by
  intro k
  induction k with
  | zero => exact fun cols rows shuf r m n x y h => h
  | succ k ih =>
    intro cols rows shuf r m n x y h
    rw [extraLoop]
    split
    · exact ih cols rows shuf r _ (n + 3) x y (updCell_type_mono _ _ _ _ _ h)
    · exact ih cols rows shuf r m (n + 3) x y h

lemma generate_m3_connected (cols rows : Int) (diff : String) (r : RandSrc)
    (hoc : cols % 2 = 1) (hor : rows % 2 = 1) (hc3 : 3 ≤ cols) (hr3 : 3 ≤ rows)
    (hr01 : ∀ n, 0 ≤ r n ∧ r n < 1) :
    Reaches (pathW (updCell (updCell
        (extraLoop (jsFloorMul (carvePreset diff).2 (cols * rows)).toNat cols rows
          (carvePreset diff).1 r
          (carveLoop (2 * (cols.toNat * rows.toNat) + 2) cols rows r
            (updCell (fun _ _ => wallCell) 1 1 (fun c => { c with type := CellType.path }))
            [(1, 1)] 0).1
          (carveLoop (2 * (cols.toNat * rows.toNat) + 2) cols rows r
            (updCell (fun _ _ => wallCell) 1 1 (fun c => { c with type := CellType.path }))
            [(1, 1)] 0).2.2).1
        1 1 (fun c => { c with type := CellType.path }))
      (cols - 2) (rows - 2) (fun c => { c with type := CellType.path })))
      cols rows (1, 1) (cols - 2, rows - 2) := by
  have inv0 : CarveInv cols rows
      (updCell (fun _ _ => wallCell) 1 1 (fun c => { c with type := CellType.path }))
      [(1, 1)] := by
    refine ⟨?_, ?_, ?_⟩
    · intro c hc
      rw [List.mem_singleton] at hc
      subst hc
      refine ⟨by decide, by decide, (inCarveRange_iff cols rows 1 1).mpr (by omega), ?_⟩
      rw [updCell_self]
    · intro x y hox hoy hrg hp
      by_cases hxy : x = 1 ∧ y = 1
      · obtain ⟨rfl, rfl⟩ := hxy
        exact ⟨0, Steps.refl⟩
      · rw [updCell_ne _ _ _ _ hxy] at hp
        exact absurd hp (by decide)
    · intro x y hox hoy hrg hp hnotin d2 hd2 hr2
      by_cases hxy : x = 1 ∧ y = 1
      · obtain ⟨rfl, rfl⟩ := hxy
        exact absurd (List.mem_singleton_self _) hnotin
      · rw [updCell_ne _ _ _ _ hxy] at hp
        exact absurd hp (by decide)
  have hmeasure : 2 * ((boundsFinset cols rows).filter
      (fun c => c.1 % 2 = 1 ∧ c.2 % 2 = 1 ∧ inCarveRange cols rows c.1 c.2 = true ∧
        ((updCell (fun _ _ => wallCell) 1 1
          (fun c2 => { c2 with type := CellType.path })) c.1 c.2).type =
          CellType.wall)).card + ([((1 : Int), (1 : Int))]).length ≤
      2 * (cols.toNat * rows.toNat) + 2 := by
    have hle := Finset.card_filter_le (boundsFinset cols rows)
      (fun c => c.1 % 2 = 1 ∧ c.2 % 2 = 1 ∧ inCarveRange cols rows c.1 c.2 = true ∧
        ((updCell (fun _ _ => wallCell) 1 1
          (fun c2 => { c2 with type := CellType.path })) c.1 c.2).type = CellType.wall)
    rw [card_boundsFinset] at hle
    rw [List.length_singleton]
    omega
  obtain ⟨hempty, invF, hmonoC⟩ := carveLoop_drains cols rows r hr01
    (2 * (cols.toNat * rows.toNat) + 2)
    (updCell (fun _ _ => wallCell) 1 1 (fun c => { c with type := CellType.path }))
    [(1, 1)] 0 inv0 hmeasure
  have hseed : ((carveLoop (2 * (cols.toNat * rows.toNat) + 2) cols rows r
      (updCell (fun _ _ => wallCell) 1 1 (fun c => { c with type := CellType.path }))
      [(1, 1)] 0).1 1 1).type = CellType.path := by
    refine hmonoC 1 1 ?_
    rw [updCell_self]
  have hend := carve_end_path cols rows _ hoc hor hc3 hr3 invF hseed
  obtain ⟨k, hsteps⟩ := invF.hrooms (cols - 2) (rows - 2) (by omega) (by omega)
    ((inCarveRange_iff cols rows _ _).mpr (by omega)) hend
  refine ⟨k, steps_mono _ _ cols rows (1, 1) ?_ _ k hsteps⟩
  intro x y h
  rw [pathW, decide_eq_true_eq] at h ⊢
  exact updCell_type_mono _ _ _ _ _ (updCell_type_mono _ _ _ _ _
    (extraLoop_type_mono _ cols rows _ r _ _ x y h))

lemma rall_cols (s : GameState) : (recomputeAllDeadEnds s).cols = s.cols := rfl

lemma rall_rows (s : GameState) : (recomputeAllDeadEnds s).rows = s.rows := rfl

lemma rall_start (s : GameState) : (recomputeAllDeadEnds s).start = s.start := rfl

lemma rall_end (s : GameState) : (recomputeAllDeadEnds s).end_ = s.end_ := rfl

/-- C6: every maze the generator produces — any dimensions at least 2, any
difficulty string, any random draws (all in `[0,1)` per the `Math.random`
contract) — has its End cell `(cols-2, rows-2)` reachable from its Start cell
`(1,1)` by unit steps over cells of kind Path, ignoring the `filled` flag. -/
theorem generated_maze_connected (cols0 rows0 : Int) (diff : String) (r : RandSrc)
    (hc : 2 ≤ cols0) (hrw : 2 ≤ rows0) (hr01 : ∀ n, 0 ≤ r n ∧ r n < 1) :
    Reaches (pathW (generateMazeIterative cols0 rows0 diff r).maze)
      (generateMazeIterative cols0 rows0 diff r).cols
      (generateMazeIterative cols0 rows0 diff r).rows
      (generateMazeIterative cols0 rows0 diff r).start
      (generateMazeIterative cols0 rows0 diff r).end_ := by
  have hoc : (if cols0 % 2 = 0 then cols0 + 1 else cols0) % 2 = 1 := by
    split <;> omega
  have hor : (if rows0 % 2 = 0 then rows0 + 1 else rows0) % 2 = 1 := by
    split <;> omega
  have hc3 : 3 ≤ (if cols0 % 2 = 0 then cols0 + 1 else cols0) := oddify_ge_three cols0 hc
  have hr3 : 3 ≤ (if rows0 % 2 = 0 then rows0 + 1 else rows0) := oddify_ge_three rows0 hrw
  obtain ⟨k, hsteps⟩ := generate_m3_connected
    (if cols0 % 2 = 0 then cols0 + 1 else cols0)
    (if rows0 % 2 = 0 then rows0 + 1 else rows0) diff r hoc hor hc3 hr3 hr01
  simp only [generateMazeIterative, rall_cols, rall_rows, rall_start, rall_end]
  refine ⟨k, steps_mono _ _ _ _ _ ?_ _ k hsteps⟩
  intro x y h
  rw [pathW, decide_eq_true_eq] at h ⊢
  rw [rall_maze_type]
  exact h

/-- Witness for C6 at a 7×7 request with the all-zero draw stream. -/
theorem generated_maze_connected_witness :
    (2 : Int) ≤ 7 ∧ (2 : Int) ≤ 7 ∧ (∀ n, 0 ≤ zeroSrc n ∧ zeroSrc n < 1) ∧
    Reaches (pathW (generateMazeIterative 7 7 "normal" zeroSrc).maze)
      (generateMazeIterative 7 7 "normal" zeroSrc).cols
      (generateMazeIterative 7 7 "normal" zeroSrc).rows
      (generateMazeIterative 7 7 "normal" zeroSrc).start
      (generateMazeIterative 7 7 "normal" zeroSrc).end_ :=
  ⟨by decide, by decide, fun n => ⟨le_refl 0, (by norm_num : (0 : ℚ) < 1)⟩,
    generated_maze_connected 7 7 "normal" zeroSrc (by decide) (by decide)
      (fun n => ⟨le_refl 0, (by norm_num : (0 : ℚ) < 1)⟩)⟩

lemma set_cons_perm {α : Type} :
    ∀ (t : List α) (k : Nat) (hk : k < t.length) (a : α),
      List.Perm (t.get ⟨k, hk⟩ :: t.set k a) (a :: t) := by
  intro t
  induction t with
  | nil =>
    intro k hk
    exact absurd hk (by simp)
  | cons b t ih =>
    intro k hk a
    cases k with
    | zero => exact List.Perm.swap a b t
    | succ k =>
      have hk2 : k < t.length := by
        simpa using hk
      have step1 : List.Perm ((b :: t).get ⟨k + 1, hk⟩ :: (b :: t).set (k + 1) a)
          (b :: t.get ⟨k, hk2⟩ :: t.set k a) := by
        exact List.Perm.swap b _ _
      refine step1.trans ?_
      refine ((ih k hk2 a).cons b).trans ?_
      exact List.Perm.swap a b t

lemma listSwap_perm {α : Type} (l : List α) (i j : Nat) (d : α)
    (hi : i < l.length) (hj : j < l.length) :
    List.Perm (listSwap l i j d) l := by
  have hgj : l.getD j d = l.get ⟨j, hj⟩ := by
    rw [List.getD_eq_getElem?_getD, List.getElem?_eq_getElem hj]
    rfl
  have hgi : l.getD i d = l.get ⟨i, hi⟩ := by
    rw [List.getD_eq_getElem?_getD, List.getElem?_eq_getElem hi]
    rfl
  rw [listSwap, hgj, hgi]
  clear hgj hgi
  induction l generalizing i j with
  | nil => exact absurd hi (by simp)
  | cons a t ih =>
    cases i with
    | zero =>
      cases j with
      | zero =>
        simp only [List.get, List.set]
        exact List.Perm.refl _
      | succ j =>
        have hj2 : j < t.length := by simpa using hj
        have he1 : (a :: t).get ⟨j + 1, hj⟩ = t.get ⟨j, hj2⟩ := rfl
        have he2 : (a :: t).set 0 (t.get ⟨j, hj2⟩) = t.get ⟨j, hj2⟩ :: t := rfl
        have he3 : (a :: t).get ⟨0, hi⟩ = a := rfl
        rw [he1, he2, he3]
        have he4 : (t.get ⟨j, hj2⟩ :: t).set (j + 1) a =
            t.get ⟨j, hj2⟩ :: t.set j a := rfl
        rw [he4]
        exact set_cons_perm t j hj2 a
    | succ i =>
      cases j with
      | zero =>
        have hi2 : i < t.length := by simpa using hi
        have he1 : (a :: t).get ⟨0, hj⟩ = a := rfl
        have he2 : (a :: t).set (i + 1) a = a :: t.set i a := rfl
        have he3 : (a :: t).get ⟨i + 1, hi⟩ = t.get ⟨i, hi2⟩ := rfl
        rw [he1, he2, he3]
        have he4 : (a :: t.set i a).set 0 (t.get ⟨i, hi2⟩) =
            t.get ⟨i, hi2⟩ :: t.set i a := rfl
        rw [he4]
        exact set_cons_perm t i hi2 a
      | succ j =>
        have hi2 : i < t.length := by simpa using hi
        have hj2 : j < t.length := by simpa using hj
        have he1 : (a :: t).get ⟨j + 1, hj⟩ = t.get ⟨j, hj2⟩ := rfl
        have he2 : (a :: t).get ⟨i + 1, hi⟩ = t.get ⟨i, hi2⟩ := rfl
        rw [he1, he2]
        have he3 : ((a :: t).set (i + 1) (t.get ⟨j, hj2⟩)).set (j + 1) (t.get ⟨i, hi2⟩) =
            a :: (t.set i (t.get ⟨j, hj2⟩)).set j (t.get ⟨i, hi2⟩) := rfl
        rw [he3]
        exact (ih i j hi2 hj2).cons a

lemma siftUpF_perm : ∀ (fuel : Nat) (l : List ANode) (i : Nat), i < l.length →
    List.Perm (siftUpF fuel l i) l := by
  intro fuel
  induction fuel with
  | zero => exact fun l i _ => List.Perm.refl l
  | succ fuel ih =>
    intro l i hi
    rw [siftUpF]
    by_cases h0 : i = 0
    · rw [if_pos h0]
    · rw [if_neg h0]
      dsimp only
      have hp : (i - 1) / 2 < l.length := by omega
      split
      · refine List.Perm.trans (ih _ _ ?_) (listSwap_perm l i ((i - 1) / 2) dfltNode hi hp)
        rw [listSwap_length]
        exact hp
      · exact List.Perm.refl l

lemma siftDownF_perm : ∀ (fuel : Nat) (l : List ANode) (i : Nat), i < l.length →
    List.Perm (siftDownF fuel l i) l := by
  intro fuel
  induction fuel with
  | zero => exact fun l i _ => List.Perm.refl l
  | succ fuel ih =>
    intro l i hi
    rw [siftDownF]
    set m1 := if 2 * i + 1 < l.length ∧
        (l.getD (2 * i + 1) dfltNode).f < (l.getD i dfltNode).f then 2 * i + 1 else i
      with hm1
    set m2 := if 2 * i + 1 + 1 < l.length ∧
        (l.getD (2 * i + 1 + 1) dfltNode).f < (l.getD m1 dfltNode).f then 2 * i + 1 + 1
      else m1 with hm2
    have hm1lt : m1 < l.length := by
      rw [hm1]
      split
      · omega
      · exact hi
    have hm2lt : m2 < l.length := by
      rw [hm2]
      split
      · omega
      · exact hm1lt
    by_cases hmi : m2 = i
    · rw [if_pos hmi]
    · rw [if_neg hmi]
      refine List.Perm.trans (ih _ _ ?_) (listSwap_perm l i m2 dfltNode hi hm2lt)
      rw [listSwap_length]
      exact hm2lt

lemma pqPush_perm (l : List ANode) (item : ANode) :
    List.Perm (pqPush l item) (item :: l) := by
  refine List.Perm.trans (siftUpF_perm (l.length + 1) (l ++ [item]) l.length (by simp)) ?_
  exact List.perm_append_singleton item l

lemma pqPop_perm (l : List ANode) (cur : ANode) (pq2 : List ANode)
    (h : pqPop l = (some cur, pq2)) : List.Perm l (cur :: pq2) := by
  match l with
  | [] => exact absurd h (by rw [pqPop]; simp)
  | r :: t =>
    rw [pqPop] at h
    match hrest : (r :: t).dropLast with
    | [] =>
      rw [hrest] at h
      dsimp only at h
      injection h with h1 h3
      injection h1 with h1
      subst h1
      subst h3
      cases t with
      | nil => exact List.Perm.refl _
      | cons b t2 =>
        rw [List.dropLast_cons₂] at hrest
        exact List.noConfusion hrest
    | s :: t3 =>
      rw [hrest] at h
      dsimp only at h
      injection h with h1 h3
      injection h1 with h1
      subst h1
      cases t with
      | nil =>
        have : ([] : List ANode) = s :: t3 := hrest
        exact List.noConfusion this
      | cons b t2 =>
        refine List.Perm.cons r ?_
        rw [← h3]
        have hD : (r :: b :: t2).dropLast = r :: (b :: t2).dropLast := List.dropLast_cons₂
        rw [hD] at hrest
        injection hrest with hs ht3
        subst hs
        subst ht3
        have hset : (r :: (b :: t2).dropLast).set 0 ((r :: b :: t2).getLastD dfltNode) =
            ((r :: b :: t2).getLastD dfltNode) :: (b :: t2).dropLast := rfl
        have hlast2 : (r :: b :: t2).getLastD dfltNode = (b :: t2).getLast (by simp) := by
          rw [List.getLastD_eq_getLast?, List.getLast?_eq_getLast _ (by simp)]
          exact List.getLast_cons (by simp)
        have hperm1 := siftDownF_perm (r :: (b :: t2).dropLast).length
          ((r :: (b :: t2).dropLast).set 0 ((r :: b :: t2).getLastD dfltNode)) 0
          (by simp)
        refine List.Perm.trans ?_ hperm1.symm
        rw [hset, hlast2]
        have e1 : (b :: t2).dropLast ++ [(b :: t2).getLast (by simp)] = b :: t2 :=
          List.dropLast_append_getLast (by simp)
        nth_rewrite 1 [← e1]
        exact List.perm_append_singleton _ _

lemma hKey_getD_lt (l : List ANode) (j : Nat) (h : j < l.length) :
    hKey l j = (l[j]).f := by
  rw [hKey, List.getD_eq_getElem?_getD, List.getElem?_eq_getElem h]
  rfl

lemma hKey_listSwap (l : List ANode) (a b : Nat) (ha : a < l.length)
    (hb : b < l.length) (j : Nat) :
    hKey (listSwap l a b dfltNode) j =
      if j = b then hKey l a else if j = a then hKey l b else hKey l j := by
  have hlen : (listSwap l a b dfltNode).length = l.length := listSwap_length l a b dfltNode
  by_cases hj : j < l.length
  · have hj2 : j < (listSwap l a b dfltNode).length := by omega
    rw [hKey_getD_lt _ _ hj2]
    have hj3 : j < ((l.set a (l.getD b dfltNode)).set b (l.getD a dfltNode)).length := hj2
    have : (listSwap l a b dfltNode)[j] =
        ((l.set a (l.getD b dfltNode)).set b (l.getD a dfltNode))[j] := rfl
    rw [this, List.getElem_set]
    by_cases hjb : j = b
    · rw [if_pos hjb.symm, if_pos hjb]
      rfl
    · rw [if_neg (fun hc => hjb hc.symm), List.getElem_set]
      by_cases hja : j = a
      · rw [if_pos hja.symm, if_neg hjb, if_pos hja]
        rfl
      · rw [if_neg (fun hc => hja hc.symm), if_neg hjb, if_neg hja]
        rw [hKey_getD_lt l j hj]
  · have hj2 : ¬ j < (listSwap l a b dfltNode).length := by omega
    have hjb : j ≠ b := by omega
    have hja : j ≠ a := by omega
    rw [if_neg hjb, if_neg hja]
    rw [hKey, hKey, List.getD_eq_getElem?_getD, List.getD_eq_getElem?_getD,
      List.getElem?_eq_none (by omega), List.getElem?_eq_none (by omega)]

lemma heap_root_min (l : List ANode) (hh : HeapOrd l) :
    ∀ x ∈ l, hKey l 0 ≤ x.f := by
  have hidx : ∀ i, i < l.length → hKey l 0 ≤ hKey l i := by
    intro i
    induction i using Nat.strong_induction_on with
    | _ i ih =>
      intro hi
      cases Nat.eq_zero_or_pos i with
      | inl h0 =>
        subst h0
        exact le_refl _
      | inr hpos =>
        have hp : (i - 1) / 2 < i := by omega
        exact le_trans (ih _ hp (by omega)) (hh i hpos hi)
  intro x hx
  obtain ⟨⟨i, hi⟩, hget⟩ := List.mem_iff_get.mp hx
  have := hidx i hi
  rw [hKey_getD_lt l i hi] at this
  have hxg : l[i] = x := hget
  rw [hxg] at this
  exact this

lemma hKey_append_lt (l l2 : List ANode) (j : Nat) (hj : j < l.length) :
    hKey (l ++ l2) j = hKey l j := by
  rw [hKey, hKey, List.getD_eq_getElem?_getD, List.getD_eq_getElem?_getD,
    List.getElem?_append_left hj]

lemma siftUpF_heap : ∀ (fuel : Nat) (l : List ANode) (i : Nat),
    i < l.length → i < fuel →
    (∀ j, 0 < j → j < l.length → j ≠ i → hKey l ((j - 1) / 2) ≤ hKey l j) →
    (∀ j, 0 < j → j < l.length → (j - 1) / 2 = i → hKey l ((i - 1) / 2) ≤ hKey l j) →
    HeapOrd (siftUpF fuel l i) := by
  intro fuel
  induction fuel with
  | zero =>
    intro l i hi hfuel
    omega
  | succ fuel ih =>
    intro l i hi hfuel h1 h2
    rw [siftUpF]
    by_cases h0 : i = 0
    · rw [if_pos h0]
      intro j hj0 hjl
      exact h1 j hj0 hjl (by omega)
    · rw [if_neg h0]
      dsimp only
      have hp : (i - 1) / 2 < l.length := by omega
      have hpi : (i - 1) / 2 < i := by omega
      split
      · rename_i hlt
        have hltK : hKey l i < hKey l ((i - 1) / 2) := hlt
        have hK := hKey_listSwap l i ((i - 1) / 2) hi hp
        have hKi : hKey (listSwap l i ((i - 1) / 2) dfltNode) ((i - 1) / 2) = hKey l i := by
          rw [hK]
          rw [if_pos rfl]
        have hKp : hKey (listSwap l i ((i - 1) / 2) dfltNode) i =
            hKey l ((i - 1) / 2) := by
          rw [hK]
          rw [if_neg (by omega), if_pos rfl]
        have hKother : ∀ j, j ≠ i → j ≠ (i - 1) / 2 →
            hKey (listSwap l i ((i - 1) / 2) dfltNode) j = hKey l j := by
          intro j hj1 hj2
          rw [hK]
          rw [if_neg hj2, if_neg hj1]
        refine ih (listSwap l i ((i - 1) / 2) dfltNode) ((i - 1) / 2) ?_ (by omega) ?_ ?_
        · rw [listSwap_length]
          exact hp
        · intro j hj0 hjl ne_p
          rw [listSwap_length] at hjl
          by_cases hji : j = i
          · rw [hji, hKi, hKp]
            exact le_of_lt hltK
          · have hji2 : j ≠ (i - 1) / 2 := ne_p
            rw [hKother j hji hji2]
            by_cases hpar_i : (j - 1) / 2 = i
            · rw [hpar_i, hKp]
              exact h2 j hj0 hjl hpar_i
            · by_cases hpar_p : (j - 1) / 2 = (i - 1) / 2
              · rw [hpar_p, hKi]
                have hh1 := h1 j hj0 hjl hji
                rw [hpar_p] at hh1
                exact le_trans (le_of_lt hltK) hh1
              · rw [hKother _ hpar_i hpar_p]
                exact h1 j hj0 hjl hji
        · intro j hj0 hjl hpar
          rw [listSwap_length] at hjl
          by_cases hP0 : (i - 1) / 2 = 0
          · have hpp_eq : ((i - 1) / 2 - 1) / 2 = (i - 1) / 2 := by omega
            rw [hpp_eq, hKi]
            by_cases hji : j = i
            · rw [hji, hKp]
              exact le_of_lt hltK
            · rw [hKother j hji (by omega)]
              have hh1 := h1 j hj0 hjl hji
              rw [hpar] at hh1
              exact le_trans (le_of_lt hltK) hh1
          · have hpp_ne_i : ((i - 1) / 2 - 1) / 2 ≠ i := by omega
            have hpp_ne_p : ((i - 1) / 2 - 1) / 2 ≠ (i - 1) / 2 := by omega
            rw [hKother _ hpp_ne_i hpp_ne_p]
            by_cases hji : j = i
            · rw [hji, hKp]
              exact h1 ((i - 1) / 2) (by omega) hp (by omega)
            · have hjne_p : j ≠ (i - 1) / 2 := by omega
              rw [hKother j hji hjne_p]
              have hstep1 := h1 ((i - 1) / 2) (by omega) hp (by omega)
              have hstep2 := h1 j hj0 hjl hji
              rw [hpar] at hstep2
              exact le_trans hstep1 hstep2
      · rename_i hnlt
        intro j hj0 hjl
        by_cases hji : j = i
        · rw [hji]
          exact Nat.le_of_not_lt hnlt
        · exact h1 j hj0 hjl hji

lemma pqPush_heapOrd (l : List ANode) (item : ANode) (hh : HeapOrd l) :
    HeapOrd (pqPush l item) := by
  refine siftUpF_heap (l.length + 1) (l ++ [item]) l.length (by simp) (by omega) ?_ ?_
  · intro j hj0 hjl hne
    have hjl2 : j < l.length := by
      rw [List.length_append, List.length_singleton] at hjl
      omega
    rw [hKey_append_lt _ _ _ hjl2, hKey_append_lt _ _ _ (by omega)]
    exact hh j hj0 hjl2
  · intro j hj0 hjl hpar
    rw [List.length_append, List.length_singleton] at hjl
    omega

lemma hKey_set_ne (l : List ANode) (n : Nat) (v : ANode) (j : Nat) (hne : j ≠ n) :
    hKey (l.set n v) j = hKey l j := by
  by_cases hj : j < l.length
  · have hj2 : j < (l.set n v).length := by
      rw [List.length_set]
      exact hj
    rw [hKey_getD_lt _ _ hj2, hKey_getD_lt _ _ hj]
    rw [List.getElem_set]
    rw [if_neg (fun hc => hne hc.symm)]
  · rw [hKey, hKey, List.getD_eq_getElem?_getD, List.getD_eq_getElem?_getD,
      List.getElem?_eq_none (by rw [List.length_set]; omega),
      List.getElem?_eq_none (by omega)]

lemma siftDownF_heap : ∀ (fuel : Nat) (l : List ANode) (i : Nat),
    l.length - i ≤ fuel →
    (∀ j, 0 < j → j < l.length → (j - 1) / 2 ≠ i → hKey l ((j - 1) / 2) ≤ hKey l j) →
    (∀ j, 0 < j → j < l.length → (j - 1) / 2 = i → 0 < i →
      hKey l ((i - 1) / 2) ≤ hKey l j) →
    HeapOrd (siftDownF fuel l i) := by
  intro fuel
  induction fuel with
  | zero =>
    intro l i hfuel h1 h2
    rw [siftDownF]
    intro j hj0 hjl
    refine h1 j hj0 hjl ?_
    omega
  | succ fuel ih =>
    intro l i hfuel h1 h2
    rw [siftDownF]
    set m1 := if 2 * i + 1 < l.length ∧
        (l.getD (2 * i + 1) dfltNode).f < (l.getD i dfltNode).f then 2 * i + 1 else i
      with hm1
    set m2 := if 2 * i + 1 + 1 < l.length ∧
        (l.getD (2 * i + 1 + 1) dfltNode).f < (l.getD m1 dfltNode).f then 2 * i + 1 + 1
      else m1 with hm2
    by_cases hmi : m2 = i
    · rw [if_pos hmi]
      have hc1 : ¬(2 * i + 1 < l.length ∧
          (l.getD (2 * i + 1) dfltNode).f < (l.getD i dfltNode).f) := by
        intro hc
        have hm1v : m1 = 2 * i + 1 := by
          rw [hm1, if_pos hc]
        have hm2v : m2 = 2 * i + 1 + 1 ∨ m2 = 2 * i + 1 := by
          rw [hm2, hm1v]
          split
          · exact Or.inl rfl
          · exact Or.inr rfl
        omega
      have hc2 : ¬(2 * i + 1 + 1 < l.length ∧
          (l.getD (2 * i + 1 + 1) dfltNode).f < (l.getD m1 dfltNode).f) := by
        intro hc
        have : m2 = 2 * i + 1 + 1 := by
          rw [hm2, if_pos hc]
        omega
      intro j hj0 hjl
      by_cases hpj : (j - 1) / 2 = i
      · have hj12 : j = 2 * i + 1 ∨ j = 2 * i + 1 + 1 := by omega
        have hm1i : m1 = i := by
          rw [hm1]
          split
          · rename_i hc
            exact absurd hc (fun hcc => hc1 ⟨hcc.1, hcc.2⟩)
          · rfl
        rcases hj12 with rfl | rfl
        · rw [hpj]
          refine Nat.le_of_not_lt (fun hcon => ?_)
          exact hc1 ⟨hjl, hcon⟩
        · rw [hpj]
          refine Nat.le_of_not_lt (fun hcon => ?_)
          refine hc2 ⟨hjl, ?_⟩
          rw [hm1i]
          exact hcon
      · exact h1 j hj0 hjl hpj
    · rw [if_neg hmi]
      have hch : (m2 = 2 * i + 1 ∨ m2 = 2 * i + 1 + 1) ∧ m2 < l.length ∧
          hKey l m2 < hKey l i ∧
          (∀ j, (j = 2 * i + 1 ∨ j = 2 * i + 1 + 1) → j < l.length →
            hKey l m2 ≤ hKey l j) := by
        by_cases c2 : 2 * i + 1 + 1 < l.length ∧
            (l.getD (2 * i + 1 + 1) dfltNode).f < (l.getD m1 dfltNode).f
        · have hm2v : m2 = 2 * i + 1 + 1 := by
            rw [hm2, if_pos c2]
          by_cases c1 : 2 * i + 1 < l.length ∧
              (l.getD (2 * i + 1) dfltNode).f < (l.getD i dfltNode).f
          · have hm1v : m1 = 2 * i + 1 := by
              rw [hm1, if_pos c1]
            have hc2k : hKey l (2 * i + 1 + 1) < hKey l (2 * i + 1) := by
              have := c2.2
              rw [hm1v] at this
              exact this
            refine ⟨Or.inr hm2v, by omega, ?_, ?_⟩
            · rw [hm2v]
              exact lt_trans hc2k c1.2
            · intro j hj hjl
              rcases hj with rfl | rfl
              · rw [hm2v]
                exact le_of_lt hc2k
              · rw [hm2v]
          · have hm1v : m1 = i := by
              rw [hm1, if_neg c1]
            have hc2k : hKey l (2 * i + 1 + 1) < hKey l i := by
              have := c2.2
              rw [hm1v] at this
              exact this
            refine ⟨Or.inr hm2v, by omega, by rw [hm2v]; exact hc2k, ?_⟩
            intro j hj hjl
            rcases hj with rfl | rfl
            · rw [hm2v]
              have h1le : hKey l i ≤ hKey l (2 * i + 1) :=
                Nat.le_of_not_lt (fun hc => c1 ⟨hjl, hc⟩)
              exact le_trans (le_of_lt hc2k) h1le
            · rw [hm2v]
        · have hm2v : m2 = m1 := by
            rw [hm2, if_neg c2]
          have hc1 : 2 * i + 1 < l.length ∧
              (l.getD (2 * i + 1) dfltNode).f < (l.getD i dfltNode).f := by
            by_contra hc
            have hm1v : m1 = i := by
              rw [hm1, if_neg hc]
            rw [hm2v, hm1v] at hmi
            exact hmi rfl
          have hm1v : m1 = 2 * i + 1 := by
            rw [hm1, if_pos hc1]
          refine ⟨Or.inl (by rw [hm2v, hm1v]), by omega, ?_, ?_⟩
          · rw [hm2v, hm1v]
            exact hc1.2
          · intro j hj hjl
            rcases hj with rfl | rfl
            · rw [hm2v, hm1v]
            · rw [hm2v, hm1v]
              have hnlt : ¬ hKey l (2 * i + 1 + 1) < hKey l (2 * i + 1) := by
                intro hcon
                refine c2 ⟨hjl, ?_⟩
                rw [hm1v]
                exact hcon
              exact Nat.le_of_not_lt hnlt
      obtain ⟨hm2ch, hm2lt, hm2imp, hm2min⟩ := hch
      have hil : i < l.length := by omega
      have him2 : i < m2 := by omega
      have hK := hKey_listSwap l i m2 hil hm2lt
      have hKm2 : hKey (listSwap l i m2 dfltNode) m2 = hKey l i := by
        rw [hK, if_pos rfl]
      have hKi : hKey (listSwap l i m2 dfltNode) i = hKey l m2 := by
        rw [hK, if_neg (by omega), if_pos rfl]
      have hKother : ∀ j, j ≠ i → j ≠ m2 →
          hKey (listSwap l i m2 dfltNode) j = hKey l j := by
        intro j hj1 hj2
        rw [hK, if_neg hj2, if_neg hj1]
      refine ih (listSwap l i m2 dfltNode) m2 ?_ ?_ ?_
      · rw [listSwap_length]
        omega
      · intro j hj0 hjl hpj
        rw [listSwap_length] at hjl
        by_cases hjm2 : j = m2
        · have hpm2 : (j - 1) / 2 = i := by omega
          rw [hjm2, hKm2]
          rw [hjm2] at hpm2
          rw [hpm2, hKi]
          exact le_of_lt hm2imp
        · by_cases hji : j = i
          · have hi0 : 0 < i := by omega
            have hpp_ne : (j - 1) / 2 ≠ i := by omega
            have hpp_ne2 : (j - 1) / 2 ≠ m2 := by omega
            rw [hKother _ hpp_ne hpp_ne2, hji, hKi]
            exact h2 m2 (by omega) hm2lt (by omega) hi0
          · by_cases hpji : (j - 1) / 2 = i
            · rw [hpji, hKi, hKother j hji hjm2]
              exact hm2min j (by omega) hjl
            · have hpp_ne2 : (j - 1) / 2 ≠ m2 := hpj
              rw [hKother _ hpji hpp_ne2, hKother j hji hjm2]
              exact h1 j hj0 hjl hpji
      · intro j hj0 hjl hpar hm20
        rw [listSwap_length] at hjl
        have heq : (m2 - 1) / 2 = i := by omega
        rw [heq, hKi]
        have hjgt : m2 < j := by omega
        rw [hKother j (by omega) (by omega), ← hpar]
        refine h1 j hj0 hjl ?_
        omega

lemma hKey_dropLast (l : List ANode) (j : Nat) (hj : j + 1 < l.length) :
    hKey l.dropLast j = hKey l j := by
  have hj2 : j < l.dropLast.length := by
    rw [List.length_dropLast]
    omega
  rw [hKey_getD_lt _ _ hj2, hKey_getD_lt _ _ (by omega)]
  exact congrArg ANode.f (List.getElem_dropLast l j hj2)

lemma pqPop_heapOrd (l : List ANode) (hh : HeapOrd l) (cur : ANode) (pq2 : List ANode)
    (h : pqPop l = (some cur, pq2)) : HeapOrd pq2 := by
  match l with
  | [] => exact absurd h (by rw [pqPop]; simp)
  | r :: t =>
    rw [pqPop] at h
    match hrest : (r :: t).dropLast with
    | [] =>
      rw [hrest] at h
      dsimp only at h
      injection h with h1 h3
      subst h3
      intro j hj0 hjl
      simp at hjl
    | s :: t3 =>
      rw [hrest] at h
      dsimp only at h
      injection h with h1 h3
      subst h3
      refine siftDownF_heap (s :: t3).length _ 0 ?_ ?_ ?_
      · rw [List.length_set]
        omega
      · intro j hj0 hjl hpar
        rw [List.length_set] at hjl
        have hlen2 : (s :: t3).length + 1 = (r :: t).length := by
          rw [← hrest, List.length_dropLast]
          have : 1 ≤ (r :: t).length := by simp
          omega
        rw [hKey_set_ne _ _ _ _ hpar, hKey_set_ne _ _ _ _ (by omega), ← hrest,
          hKey_dropLast _ _ (by omega), hKey_dropLast _ _ (by omega)]
        exact hh j hj0 (by omega)
      · intro j hj0 hjl hpar h0i
        omega

lemma chainOK_steps (w : Walk) (cols rows : Int) (st : Int × Int) (nd : ANode)
    (h : ChainOK w cols rows st nd) :
    Steps w cols rows st (nd.x, nd.y) nd.g := by
  induction h with
  | base f => exact Steps.refl
  | step p x y f hp hadj hib hwk ih => exact Steps.tail ih hadj hib hwk

lemma chainOK_inb (w : Walk) (cols rows : Int) (st : Int × Int)
    (hst : inBounds cols rows st.1 st.2 = true) (nd : ANode)
    (h : ChainOK w cols rows st nd) :
    inBounds cols rows nd.x nd.y = true := by
  induction h with
  | base f => exact hst
  | step p x y f hp hadj hib hwk ih => exact hib

lemma chainOK_length (w : Walk) (cols rows : Int) (st : Int × Int) (nd : ANode)
    (h : ChainOK w cols rows st nd) : (chainList nd).length = nd.g + 1 := by
  induction h with
  | base f => rfl
  | step p x y f hp hadj hib hwk ih =>
    show ((x, y) :: chainList p).length = p.g + 1 + 1
    rw [List.length_cons, ih]

lemma steps_trans (w : Walk) (cols rows : Int) (st y : Int × Int) (a : Nat)
    (h1 : Steps w cols rows st y a) :
    ∀ z b, Steps w cols rows y z b → Steps w cols rows st z (a + b) := by
  intro z b h2
  induction h2 with
  | refl => exact h1
  | tail h hadj hib hwk ih => exact Steps.tail ih hadj hib hwk

lemma steps_first (w : Walk) (cols rows : Int) (y : Int × Int) :
    ∀ z n, Steps w cols rows y z n →
      (n = 0 ∧ z = y) ∨
      (∃ y2 m, n = m + 1 ∧ adjStep y y2 ∧ inBounds cols rows y2.1 y2.2 = true ∧
        w y2.1 y2.2 = true ∧ Steps w cols rows y2 z m) := by
  intro z n h
  induction h with
  | refl => exact Or.inl ⟨rfl, rfl⟩
  | @tail c c2 m h hadj hib hwk ih =>
    rcases ih with ⟨rfl, rfl⟩ | ⟨y2, m2, rfl, hadj2, hib2, hwk2, hrest⟩
    · exact Or.inr ⟨c2, 0, rfl, hadj, hib, hwk, Steps.refl⟩
    · exact Or.inr ⟨y2, m2 + 1, rfl, hadj2, hib2, hwk2,
        Steps.tail hrest hadj hib hwk⟩

lemma manh_self (a : Int × Int) : manh a a = 0 := by
  simp [manh]

lemma manh_consistent (w : Walk) (cols rows : Int) (en y : Int × Int) :
    ∀ z b, Steps w cols rows y z b → manh y en ≤ b + manh z en := by
  intro z b h
  induction h with
  | refl => omega
  | @tail c c2 m h hadj hib hwk ih =>
    have hstep : manh c en ≤ manh c2 en + 1 := by
      obtain ⟨cx, cy⟩ := c
      obtain ⟨c2x, c2y⟩ := c2
      rcases hadj with ⟨h1, h2⟩ | ⟨h1, h2⟩ | ⟨h1, h2⟩ | ⟨h1, h2⟩ <;>
        simp only at h1 h2 <;> subst h1 <;> subst h2 <;>
        simp only [manh] <;> omega
    omega

lemma reaches_shortest (w : Walk) (cols rows : Int) (st : Int × Int) :
    ∀ n z, Steps w cols rows st z n → ∃ m, ShortestSteps w cols rows st z m := by
  intro n
  induction n using Nat.strong_induction_on with
  | _ n ih =>
    intro z h
    by_cases hmin : ∀ m, Steps w cols rows st z m → n ≤ m
    · exact ⟨n, h, hmin⟩
    · push_neg at hmin
      obtain ⟨m, hm, hlt⟩ := hmin
      exact ih m (by omega) z hm

lemma pqPush_mem_iff (l : List ANode) (item : ANode) (x : ANode) :
    x ∈ pqPush l item ↔ x = item ∨ x ∈ l := by
  rw [(pqPush_perm l item).mem_iff]
  exact List.mem_cons

lemma pqPush_length (l : List ANode) (item : ANode) :
    (pqPush l item).length = l.length + 1 := by
  rw [(pqPush_perm l item).length_eq]
  rfl

lemma relax_fold_full (w : Walk) (cols rows : Int) (en : Int × Int) (cur : ANode) :
    ∀ (L : List (Int × Int)) (om : OpenMap) (pqq : List ANode),
      (∀ nd ∈ (L.foldl
        (fun acc2 nb =>
          let ng := cur.g + 1
          let nf := ng + manh nb en
          match acc2.1 nb with
          | some existing =>
              if ng < existing.g then
                let node := ANode.mk nb.1 nb.2 ng nf (some cur)
                (omSet acc2.1 nb node, pqPush acc2.2 node)
              else acc2
          | none =>
              let node := ANode.mk nb.1 nb.2 ng nf (some cur)
              (omSet acc2.1 nb node, pqPush acc2.2 node))
        (om, pqq)).2, nd ∈ pqq ∨
          ∃ nb ∈ L, nd = ANode.mk nb.1 nb.2 (cur.g + 1) (cur.g + 1 + manh nb en)
            (some cur)) ∧
      (∀ nd ∈ pqq, nd ∈ (L.foldl
        (fun acc2 nb =>
          let ng := cur.g + 1
          let nf := ng + manh nb en
          match acc2.1 nb with
          | some existing =>
              if ng < existing.g then
                let node := ANode.mk nb.1 nb.2 ng nf (some cur)
                (omSet acc2.1 nb node, pqPush acc2.2 node)
              else acc2
          | none =>
              let node := ANode.mk nb.1 nb.2 ng nf (some cur)
              (omSet acc2.1 nb node, pqPush acc2.2 node))
        (om, pqq)).2) ∧
      (HeapOrd pqq → HeapOrd (L.foldl
        (fun acc2 nb =>
          let ng := cur.g + 1
          let nf := ng + manh nb en
          match acc2.1 nb with
          | some existing =>
              if ng < existing.g then
                let node := ANode.mk nb.1 nb.2 ng nf (some cur)
                (omSet acc2.1 nb node, pqPush acc2.2 node)
              else acc2
          | none =>
              let node := ANode.mk nb.1 nb.2 ng nf (some cur)
              (omSet acc2.1 nb node, pqPush acc2.2 node))
        (om, pqq)).2) ∧
      (∀ z, ((L.foldl
        (fun acc2 nb =>
          let ng := cur.g + 1
          let nf := ng + manh nb en
          match acc2.1 nb with
          | some existing =>
              if ng < existing.g then
                let node := ANode.mk nb.1 nb.2 ng nf (some cur)
                (omSet acc2.1 nb node, pqPush acc2.2 node)
              else acc2
          | none =>
              let node := ANode.mk nb.1 nb.2 ng nf (some cur)
              (omSet acc2.1 nb node, pqPush acc2.2 node))
        (om, pqq)).1 z = om z) ∨
        (z ∈ L ∧ (L.foldl
        (fun acc2 nb =>
          let ng := cur.g + 1
          let nf := ng + manh nb en
          match acc2.1 nb with
          | some existing =>
              if ng < existing.g then
                let node := ANode.mk nb.1 nb.2 ng nf (some cur)
                (omSet acc2.1 nb node, pqPush acc2.2 node)
              else acc2
          | none =>
              let node := ANode.mk nb.1 nb.2 ng nf (some cur)
              (omSet acc2.1 nb node, pqPush acc2.2 node))
        (om, pqq)).1 z =
          some (ANode.mk z.1 z.2 (cur.g + 1) (cur.g + 1 + manh z en) (some cur)) ∧
          ANode.mk z.1 z.2 (cur.g + 1) (cur.g + 1 + manh z en) (some cur) ∈ (L.foldl
        (fun acc2 nb =>
          let ng := cur.g + 1
          let nf := ng + manh nb en
          match acc2.1 nb with
          | some existing =>
              if ng < existing.g then
                let node := ANode.mk nb.1 nb.2 ng nf (some cur)
                (omSet acc2.1 nb node, pqPush acc2.2 node)
              else acc2
          | none =>
              let node := ANode.mk nb.1 nb.2 ng nf (some cur)
              (omSet acc2.1 nb node, pqPush acc2.2 node))
        (om, pqq)).2 ∧
          (∀ nd0, om z = some nd0 → cur.g + 1 < nd0.g))) ∧
      (∀ z nd0, om z = some nd0 → ∃ nd1, (L.foldl
        (fun acc2 nb =>
          let ng := cur.g + 1
          let nf := ng + manh nb en
          match acc2.1 nb with
          | some existing =>
              if ng < existing.g then
                let node := ANode.mk nb.1 nb.2 ng nf (some cur)
                (omSet acc2.1 nb node, pqPush acc2.2 node)
              else acc2
          | none =>
              let node := ANode.mk nb.1 nb.2 ng nf (some cur)
              (omSet acc2.1 nb node, pqPush acc2.2 node))
        (om, pqq)).1 z = some nd1 ∧ nd1.g ≤ nd0.g) ∧
      (∀ nb ∈ L, ∃ nd2, (L.foldl
        (fun acc2 nb =>
          let ng := cur.g + 1
          let nf := ng + manh nb en
          match acc2.1 nb with
          | some existing =>
              if ng < existing.g then
                let node := ANode.mk nb.1 nb.2 ng nf (some cur)
                (omSet acc2.1 nb node, pqPush acc2.2 node)
              else acc2
          | none =>
              let node := ANode.mk nb.1 nb.2 ng nf (some cur)
              (omSet acc2.1 nb node, pqPush acc2.2 node))
        (om, pqq)).1 nb = some nd2 ∧ nd2.g ≤ cur.g + 1) ∧
      ((L.foldl
        (fun acc2 nb =>
          let ng := cur.g + 1
          let nf := ng + manh nb en
          match acc2.1 nb with
          | some existing =>
              if ng < existing.g then
                let node := ANode.mk nb.1 nb.2 ng nf (some cur)
                (omSet acc2.1 nb node, pqPush acc2.2 node)
              else acc2
          | none =>
              let node := ANode.mk nb.1 nb.2 ng nf (some cur)
              (omSet acc2.1 nb node, pqPush acc2.2 node))
        (om, pqq)).2.length ≤ pqq.length + L.length) ∧
      ((∀ nb ∈ L, ∃ nd0, om nb = some nd0 ∧ nd0.g ≤ cur.g + 1) →
        (L.foldl
        (fun acc2 nb =>
          let ng := cur.g + 1
          let nf := ng + manh nb en
          match acc2.1 nb with
          | some existing =>
              if ng < existing.g then
                let node := ANode.mk nb.1 nb.2 ng nf (some cur)
                (omSet acc2.1 nb node, pqPush acc2.2 node)
              else acc2
          | none =>
              let node := ANode.mk nb.1 nb.2 ng nf (some cur)
              (omSet acc2.1 nb node, pqPush acc2.2 node))
        (om, pqq)) = (om, pqq)) := by
  intro L
  induction L with
  | nil =>
    intro om pqq
    refine ⟨fun nd hnd => Or.inl hnd, fun nd hnd => hnd, fun hh => hh, ?_, ?_, ?_, ?_, ?_⟩
    · exact fun z => Or.inl rfl
    · exact fun z nd0 h => ⟨nd0, h, le_refl _⟩
    · intro nb hnb
      exact absurd hnb (List.not_mem_nil nb)
    · simp
    · intro hpre
      rfl
  | cons nb L ih =>
    intro om pqq
    rw [List.foldl_cons]
    by_cases hcase : ∃ existing, om nb = some existing ∧ ¬ (cur.g + 1 < existing.g)
    · -- no-op step
      obtain ⟨existing, hex, hnlt⟩ := hcase
      dsimp only
      rw [hex]
      dsimp only
      rw [if_neg hnlt]
      obtain ⟨e1, e2, e3, e4, e5, e6, e7, e8⟩ := ih om pqq
      refine ⟨?_, e2, e3, ?_, e5, ?_, ?_, ?_⟩
      · intro nd hnd
        rcases e1 nd hnd with h | ⟨nb2, hnb2, hform⟩
        · exact Or.inl h
        · exact Or.inr ⟨nb2, List.mem_cons_of_mem _ hnb2, hform⟩
      · intro z
        rcases e4 z with h | ⟨hzL, hrest⟩
        · exact Or.inl h
        · exact Or.inr ⟨List.mem_cons_of_mem _ hzL, hrest⟩
      · intro nb2 hnb2
        rcases List.mem_cons.mp hnb2 with rfl | h
        · obtain ⟨nd1, hnd1, hle⟩ := e5 nb2 existing hex
          exact ⟨nd1, hnd1, by omega⟩
        · exact e6 nb2 h
      · dsimp only at e7
        rw [List.length_cons]
        omega
      · intro hpre
        exact e8 (fun nb2 h => hpre nb2 (List.mem_cons_of_mem _ h))
    · -- push step
      push_neg at hcase
      dsimp only
      rcases hex : om nb with _ | existing
      · dsimp only
        obtain ⟨e1, e2, e3, e4, e5, e6, e7, e8⟩ := ih
          (omSet om nb (ANode.mk nb.1 nb.2 (cur.g + 1) (cur.g + 1 + manh nb en) (some cur)))
          (pqPush pqq (ANode.mk nb.1 nb.2 (cur.g + 1) (cur.g + 1 + manh nb en) (some cur)))
        refine ⟨?_, ?_, ?_, ?_, ?_, ?_, ?_, ?_⟩
        · intro nd hnd
          rcases e1 nd hnd with h | ⟨nb2, hnb2, hform⟩
          · rcases (pqPush_mem_iff _ _ _).mp h with h2 | h2
            · exact Or.inr ⟨nb, List.mem_cons_self _ _, h2⟩
            · exact Or.inl h2
          · exact Or.inr ⟨nb2, List.mem_cons_of_mem _ hnb2, hform⟩
        · intro nd hnd
          exact e2 nd ((pqPush_mem_iff _ _ _).mpr (Or.inr hnd))
        · intro hh
          exact e3 (pqPush_heapOrd _ _ hh)
        · intro z
          rcases e4 z with h | ⟨hzL, hr1, hr2, hr3⟩
          · by_cases hznb : z = nb
            · subst hznb
              refine Or.inr ⟨List.mem_cons_self _ _, ?_, ?_, ?_⟩
              · rw [h, omSet]
                rw [if_pos rfl]
              · exact e2 _ ((pqPush_mem_iff _ _ _).mpr (Or.inl rfl))
              · intro nd0 hnd0
                exact hcase nd0 hnd0
            · left
              rw [h, omSet]
              rw [if_neg hznb]
          · refine Or.inr ⟨List.mem_cons_of_mem _ hzL, hr1, hr2, ?_⟩
            intro nd0 hnd0
            by_cases hznb : z = nb
            · subst hznb
              have hg := hr3 (ANode.mk z.1 z.2 (cur.g + 1)
                (cur.g + 1 + manh z en) (some cur)) (by rw [omSet, if_pos rfl])
              have := hcase nd0 hnd0
              omega
            · refine hr3 nd0 ?_
              rw [omSet, if_neg hznb]
              exact hnd0
        · intro z nd0 hnd0
          by_cases hznb : z = nb
          · subst hznb
            obtain ⟨nd1, hnd1, hle⟩ := e5 z (ANode.mk z.1 z.2 (cur.g + 1)
              (cur.g + 1 + manh z en) (some cur)) (by rw [omSet, if_pos rfl])
            have hgr : (ANode.mk z.1 z.2 (cur.g + 1) (cur.g + 1 + manh z en)
                (some cur)).g = cur.g + 1 := rfl
            rw [hgr] at hle
            have := hcase nd0 hnd0
            exact ⟨nd1, hnd1, by omega⟩
          · obtain ⟨nd1, hnd1, hle⟩ := e5 z nd0 (by rw [omSet, if_neg hznb]; exact hnd0)
            exact ⟨nd1, hnd1, hle⟩
        · intro nb2 hnb2
          rcases List.mem_cons.mp hnb2 with rfl | h
          · obtain ⟨nd1, hnd1, hle⟩ := e5 nb2 (ANode.mk nb2.1 nb2.2 (cur.g + 1)
              (cur.g + 1 + manh nb2 en) (some cur)) (by rw [omSet, if_pos rfl])
            have hgr : (ANode.mk nb2.1 nb2.2 (cur.g + 1) (cur.g + 1 + manh nb2 en)
                (some cur)).g = cur.g + 1 := rfl
            rw [hgr] at hle
            exact ⟨nd1, hnd1, by omega⟩
          · exact e6 nb2 h
        · dsimp only at e7
          rw [List.length_cons]
          rw [pqPush_length] at e7
          omega
        · intro hpre
          obtain ⟨nd0, hnd0, hle⟩ := hpre nb (List.mem_cons_self _ _)
          have := hcase nd0 hnd0
          omega
      · dsimp only
        rw [if_pos (hcase existing hex)]
        obtain ⟨e1, e2, e3, e4, e5, e6, e7, e8⟩ := ih
          (omSet om nb (ANode.mk nb.1 nb.2 (cur.g + 1) (cur.g + 1 + manh nb en) (some cur)))
          (pqPush pqq (ANode.mk nb.1 nb.2 (cur.g + 1) (cur.g + 1 + manh nb en) (some cur)))
        refine ⟨?_, ?_, ?_, ?_, ?_, ?_, ?_, ?_⟩
        · intro nd hnd
          rcases e1 nd hnd with h | ⟨nb2, hnb2, hform⟩
          · rcases (pqPush_mem_iff _ _ _).mp h with h2 | h2
            · exact Or.inr ⟨nb, List.mem_cons_self _ _, h2⟩
            · exact Or.inl h2
          · exact Or.inr ⟨nb2, List.mem_cons_of_mem _ hnb2, hform⟩
        · intro nd hnd
          exact e2 nd ((pqPush_mem_iff _ _ _).mpr (Or.inr hnd))
        · intro hh
          exact e3 (pqPush_heapOrd _ _ hh)
        · intro z
          rcases e4 z with h | ⟨hzL, hr1, hr2, hr3⟩
          · by_cases hznb : z = nb
            · subst hznb
              refine Or.inr ⟨List.mem_cons_self _ _, ?_, ?_, ?_⟩
              · rw [h, omSet]
                rw [if_pos rfl]
              · exact e2 _ ((pqPush_mem_iff _ _ _).mpr (Or.inl rfl))
              · intro nd0 hnd0
                exact hcase nd0 hnd0
            · left
              rw [h, omSet]
              rw [if_neg hznb]
          · refine Or.inr ⟨List.mem_cons_of_mem _ hzL, hr1, hr2, ?_⟩
            intro nd0 hnd0
            by_cases hznb : z = nb
            · subst hznb
              have hg := hr3 (ANode.mk z.1 z.2 (cur.g + 1)
                (cur.g + 1 + manh z en) (some cur)) (by rw [omSet, if_pos rfl])
              have := hcase nd0 hnd0
              omega
            · refine hr3 nd0 ?_
              rw [omSet, if_neg hznb]
              exact hnd0
        · intro z nd0 hnd0
          by_cases hznb : z = nb
          · subst hznb
            obtain ⟨nd1, hnd1, hle⟩ := e5 z (ANode.mk z.1 z.2 (cur.g + 1)
              (cur.g + 1 + manh z en) (some cur)) (by rw [omSet, if_pos rfl])
            have hgr : (ANode.mk z.1 z.2 (cur.g + 1) (cur.g + 1 + manh z en)
                (some cur)).g = cur.g + 1 := rfl
            rw [hgr] at hle
            have := hcase nd0 hnd0
            exact ⟨nd1, hnd1, by omega⟩
          · obtain ⟨nd1, hnd1, hle⟩ := e5 z nd0 (by rw [omSet, if_neg hznb]; exact hnd0)
            exact ⟨nd1, hnd1, hle⟩
        · intro nb2 hnb2
          rcases List.mem_cons.mp hnb2 with rfl | h
          · obtain ⟨nd1, hnd1, hle⟩ := e5 nb2 (ANode.mk nb2.1 nb2.2 (cur.g + 1)
              (cur.g + 1 + manh nb2 en) (some cur)) (by rw [omSet, if_pos rfl])
            have hgr : (ANode.mk nb2.1 nb2.2 (cur.g + 1) (cur.g + 1 + manh nb2 en)
                (some cur)).g = cur.g + 1 := rfl
            rw [hgr] at hle
            exact ⟨nd1, hnd1, by omega⟩
          · exact e6 nb2 h
        · dsimp only at e7
          rw [List.length_cons]
          rw [pqPush_length] at e7
          omega
        · intro hpre
          obtain ⟨nd0, hnd0, hle⟩ := hpre nb (List.mem_cons_self _ _)
          have := hcase nd0 hnd0
          omega

lemma neighborsW_length_le (w : Walk) (cols rows x y : Int) :
    (neighborsW w cols rows x y).length ≤ 4 := by
  have h1 : (neighborsW w cols rows x y).length ≤ (neighborCands cols rows x y).length :=
    List.length_filter_le _ _
  have h2 : (neighborCands cols rows x y).length ≤ 4 := by
    unfold neighborCands
    split_ifs <;> simp
  omega

lemma relaxAll_mem_src (w : Walk) (cols rows : Int) (en : Int × Int) (cur : ANode)
    (omap : OpenMap) (pq2 : List ANode) :
    ∀ nd ∈ (relaxAll w cols rows en cur (omap, pq2)).2, nd ∈ pq2 ∨
      ∃ nb ∈ neighborsW w cols rows cur.x cur.y,
        nd = ANode.mk nb.1 nb.2 (cur.g + 1) (cur.g + 1 + manh nb en) (some cur) :=
  (relax_fold_full w cols rows en cur (neighborsW w cols rows cur.x cur.y) omap pq2).1

lemma relaxAll_mem_pres (w : Walk) (cols rows : Int) (en : Int × Int) (cur : ANode)
    (omap : OpenMap) (pq2 : List ANode) :
    ∀ nd ∈ pq2, nd ∈ (relaxAll w cols rows en cur (omap, pq2)).2 :=
  (relax_fold_full w cols rows en cur (neighborsW w cols rows cur.x cur.y) omap pq2).2.1

lemma relaxAll_heap (w : Walk) (cols rows : Int) (en : Int × Int) (cur : ANode)
    (omap : OpenMap) (pq2 : List ANode) (hh : HeapOrd pq2) :
    HeapOrd (relaxAll w cols rows en cur (omap, pq2)).2 :=
  (relax_fold_full w cols rows en cur
    (neighborsW w cols rows cur.x cur.y) omap pq2).2.2.1 hh

lemma relaxAll_omap (w : Walk) (cols rows : Int) (en : Int × Int) (cur : ANode)
    (omap : OpenMap) (pq2 : List ANode) :
    ∀ z, ((relaxAll w cols rows en cur (omap, pq2)).1 z = omap z) ∨
      (z ∈ neighborsW w cols rows cur.x cur.y ∧
        (relaxAll w cols rows en cur (omap, pq2)).1 z =
          some (ANode.mk z.1 z.2 (cur.g + 1) (cur.g + 1 + manh z en) (some cur)) ∧
        ANode.mk z.1 z.2 (cur.g + 1) (cur.g + 1 + manh z en) (some cur) ∈
          (relaxAll w cols rows en cur (omap, pq2)).2 ∧
        (∀ nd0, omap z = some nd0 → cur.g + 1 < nd0.g)) :=
  (relax_fold_full w cols rows en cur
    (neighborsW w cols rows cur.x cur.y) omap pq2).2.2.2.1

lemma relaxAll_mono (w : Walk) (cols rows : Int) (en : Int × Int) (cur : ANode)
    (omap : OpenMap) (pq2 : List ANode) :
    ∀ z nd0, omap z = some nd0 → ∃ nd1,
      (relaxAll w cols rows en cur (omap, pq2)).1 z = some nd1 ∧ nd1.g ≤ nd0.g :=
  (relax_fold_full w cols rows en cur
    (neighborsW w cols rows cur.x cur.y) omap pq2).2.2.2.2.1

lemma relaxAll_relaxed (w : Walk) (cols rows : Int) (en : Int × Int) (cur : ANode)
    (omap : OpenMap) (pq2 : List ANode) :
    ∀ nb ∈ neighborsW w cols rows cur.x cur.y, ∃ nd2,
      (relaxAll w cols rows en cur (omap, pq2)).1 nb = some nd2 ∧
        nd2.g ≤ cur.g + 1 :=
  (relax_fold_full w cols rows en cur
    (neighborsW w cols rows cur.x cur.y) omap pq2).2.2.2.2.2.1

lemma relaxAll_length (w : Walk) (cols rows : Int) (en : Int × Int) (cur : ANode)
    (omap : OpenMap) (pq2 : List ANode) :
    (relaxAll w cols rows en cur (omap, pq2)).2.length ≤ pq2.length + 4 := by
  have h := (relax_fold_full w cols rows en cur
    (neighborsW w cols rows cur.x cur.y) omap pq2).2.2.2.2.2.2.1
  have h2 := neighborsW_length_le w cols rows cur.x cur.y
  have h3 : (relaxAll w cols rows en cur (omap, pq2)).2.length ≤
      pq2.length + (neighborsW w cols rows cur.x cur.y).length := h
  omega

lemma relaxAll_noop (w : Walk) (cols rows : Int) (en : Int × Int) (cur : ANode)
    (omap : OpenMap) (pq2 : List ANode)
    (hpre : ∀ nb ∈ neighborsW w cols rows cur.x cur.y,
      ∃ nd0, omap nb = some nd0 ∧ nd0.g ≤ cur.g + 1) :
    relaxAll w cols rows en cur (omap, pq2) = (omap, pq2) :=
  (relax_fold_full w cols rows en cur
    (neighborsW w cols rows cur.x cur.y) omap pq2).2.2.2.2.2.2.2 hpre

lemma pqPop_fst (a : ANode) (t : List ANode) : (pqPop (a :: t)).1 = some a := by
  rw [pqPop]
  cases hrest : (a :: t).dropLast with
  | nil => rfl
  | cons s t3 => rfl

lemma pqPop_root_min (l : List ANode) (hh : HeapOrd l) (cur : ANode)
    (pq2 : List ANode) (h : pqPop l = (some cur, pq2)) :
    ∀ x ∈ l, cur.f ≤ x.f := by
  intro x hx
  have hmin := heap_root_min l hh x hx
  cases l with
  | nil => exact absurd hx (List.not_mem_nil x)
  | cons a t =>
    have hfst : (pqPop (a :: t)).1 = some a := pqPop_fst a t
    rw [h] at hfst
    have hca : some cur = some a := hfst
    injection hca with hca
    rw [hca]
    exact hmin

lemma step_found (w : Walk) (cols rows : Int) (st : Int × Int)
    (omap : OpenMap) (pq : List ANode) (S : Finset (Int × Int))
    (homapS : ∀ z nd, omap z = some nd → Steps w cols rows st z nd.g)
    (hSexp : ∀ z ∈ S, ∀ z2 : Int × Int, adjStep z z2 →
      inBounds cols rows z2.1 z2.2 = true → w z2.1 z2.2 = true →
      ∃ nd2 n, omap z2 = some nd2 ∧ ShortestSteps w cols rows st z n ∧ nd2.g ≤ n + 1)
    (hlive : ∀ z nd n, omap z = some nd → ShortestSteps w cols rows st z n →
      nd.g = n → (∃ nd2 ∈ pq, (nd2.x, nd2.y) = z ∧ nd2.g = n) ∨ z ∈ S) :
    ∀ (b a : Nat) (y z2 : Int × Int), y ∈ S → ShortestSteps w cols rows st y a →
      Steps w cols rows y z2 b → ShortestSteps w cols rows st z2 (a + b) → z2 ∉ S →
      ∃ y3 a3 b3, ShortestSteps w cols rows st y3 a3 ∧ Steps w cols rows y3 z2 b3 ∧
        ShortestSteps w cols rows st z2 (a3 + b3) ∧
        ∃ nd ∈ pq, (nd.x, nd.y) = y3 ∧ nd.g = a3 := by
  intro b
  induction b using Nat.strong_induction_on with
  | _ b ih =>
    intro a y z2 hyS hya hyz hz2 hz2S
    rcases steps_first w cols rows y z2 b hyz with ⟨hb0, heq⟩ |
      ⟨y2, m, rfl, hadj, hib, hwk, hrest⟩
    · exact absurd (heq ▸ hyS) hz2S
    · have hy2dist : ShortestSteps w cols rows st y2 (a + 1) := by
        constructor
        · exact Steps.tail hya.1 hadj hib hwk
        · intro k hk
          have hk2 : Steps w cols rows st z2 (k + m) :=
            steps_trans w cols rows st y2 k hk z2 m hrest
          have := hz2.2 hk2
          omega
      obtain ⟨nd2, n, hom2, hdistY, hle⟩ := hSexp y hyS y2 hadj hib hwk
      have hn : n = a := shortest_unique w cols rows st y n a hdistY hya
      have hlow : a + 1 ≤ nd2.g := hy2dist.2 (homapS y2 nd2 hom2)
      have hg2 : nd2.g = a + 1 := by omega
      have hz2b : ShortestSteps w cols rows st z2 (a + 1 + m) := by
        have h1 : a + 1 + m = a + (m + 1) := by omega
        rw [h1]
        exact hz2
      rcases hlive y2 nd2 (a + 1) hom2 hy2dist hg2 with ⟨ndq, hndq, hco, hgq⟩ | hy2S
      · exact ⟨y2, a + 1, m, hy2dist, hrest, hz2b, ndq, hndq, hco, hgq⟩
      · exact ih m (by omega) (a + 1) y2 z2 hy2S hy2dist hrest hz2b hz2S

lemma astar_pop_opt (w : Walk) (cols rows : Int) (st en : Int × Int)
    (omap : OpenMap) (pq : List ANode) (S : Finset (Int × Int))
    (inv : AStarInv w cols rows st en omap pq S) (cur : ANode) (hcur : cur ∈ pq)
    (hroot : ∀ x ∈ pq, cur.f ≤ x.f) (hS : (cur.x, cur.y) ∉ S) :
    ShortestSteps w cols rows st (cur.x, cur.y) cur.g := by
  obtain ⟨hch, hf⟩ := inv.hpq cur hcur
  have hsteps : Steps w cols rows st (cur.x, cur.y) cur.g :=
    chainOK_steps w cols rows st cur hch
  obtain ⟨y, a, b, hya, hyz, hzd, nd, hnd, hco, hg⟩ :=
    inv.hfront (cur.x, cur.y) ⟨cur.g, hsteps⟩ hS
  have hroot2 : cur.f ≤ nd.f := hroot nd hnd
  obtain ⟨hchn, hfn⟩ := inv.hpq nd hnd
  rw [hco, hg] at hfn
  have hcons : manh y en ≤ b + manh (cur.x, cur.y) en :=
    manh_consistent w cols rows en y (cur.x, cur.y) b hyz
  rw [hf, hfn] at hroot2
  have hlb : a + b ≤ cur.g := hzd.2 hsteps
  have heqg : a + b = cur.g := by omega
  rwa [heqg] at hzd

lemma astar_noop_inv (w : Walk) (cols rows : Int) (st en : Int × Int)
    (omap : OpenMap) (pq : List ANode) (S : Finset (Int × Int))
    (inv : AStarInv w cols rows st en omap pq S)
    (cur : ANode) (pq2 : List ANode) (hpop : pqPop pq = (some cur, pq2))
    (hrelaxed : ∀ z2 : Int × Int, adjStep (cur.x, cur.y) z2 →
      inBounds cols rows z2.1 z2.2 = true → w z2.1 z2.2 = true →
      ∃ nd2, omap z2 = some nd2 ∧ nd2.g ≤ cur.g + 1)
    (hzS2 : ShortestSteps w cols rows st (cur.x, cur.y) cur.g → (cur.x, cur.y) ∈ S) :
    AStarInv w cols rows st en omap pq2 S := by
  obtain ⟨hcurm, hsub⟩ := pqPop_subset pq cur pq2 hpop
  have hperm := pqPop_perm pq cur pq2 hpop
  have homapS : ∀ z nd, omap z = some nd → Steps w cols rows st z nd.g := by
    intro z nd h
    obtain ⟨hco, hch, _⟩ := inv.homap z nd h
    have := chainOK_steps w cols rows st nd hch
    rwa [hco] at this
  have hlive2 : ∀ z nd n, omap z = some nd → ShortestSteps w cols rows st z n →
      nd.g = n → (∃ nd2 ∈ pq2, (nd2.x, nd2.y) = z ∧ nd2.g = n) ∨ z ∈ S := by
    intro z nd n h hdist hg
    rcases inv.hlive z nd n h hdist hg with ⟨nd2, hnd2, hco, hgg⟩ | hzS
    · rcases List.mem_cons.mp (hperm.mem_iff.mp hnd2) with heq | h2
      · right
        subst heq
        rw [← hco] at hdist
        rw [← hgg] at hdist
        rw [← hco]
        exact hzS2 hdist
      · exact Or.inl ⟨nd2, h2, hco, hgg⟩
    · exact Or.inr hzS
  refine ⟨?_, ?_, inv.homap, ?_, inv.hSb, inv.hSdist, inv.hSexp, ?_, hlive2, ?_,
    inv.hgoal⟩
  · exact pqPop_heapOrd pq inv.hheap cur pq2 hpop
  · exact fun nd hnd => inv.hpq nd (hsub nd hnd)
  · exact fun nd hnd => inv.hbest nd (hsub nd hnd)
  · intro z nd0 h
    rcases inv.hI8 z nd0 h with hin | hrel
    · rcases List.mem_cons.mp (hperm.mem_iff.mp hin) with heq | h2
      · right
        subst heq
        have hzeq : (nd0.x, nd0.y) = z := (inv.homap z nd0 h).1
        intro z2 ha hi hw2
        have ha2 : adjStep (nd0.x, nd0.y) z2 := by rw [hzeq]; exact ha
        exact hrelaxed z2 ha2 hi hw2
      · exact Or.inl h2
    · exact Or.inr hrel
  · intro z2 hre hz2S
    obtain ⟨y, a, b, hya, hyz, hzd, nd, hnd, hco, hg⟩ := inv.hfront z2 hre hz2S
    rcases List.mem_cons.mp (hperm.mem_iff.mp hnd) with heq | h2
    · subst heq
      have hyS : y ∈ S := by
        rw [← hco, ← hg] at hya
        rw [← hco]
        exact hzS2 hya
      have hya2 : ShortestSteps w cols rows st y a := by
        rw [← hco, ← hg] at hya
        rw [← hco, ← hg]
        exact hya
      exact step_found w cols rows st omap pq2 S homapS inv.hSexp hlive2
        b a y z2 hyS hya2 hyz hzd hz2S
    · exact ⟨y, a, b, hya, hyz, hzd, nd, h2, hco, hg⟩

lemma astar_fresh_inv (w : Walk) (cols rows : Int) (st en : Int × Int)
    (hst : inBounds cols rows st.1 st.2 = true)
    (hw : ∀ x y, inBounds cols rows x y = false → w x y = false)
    (omap : OpenMap) (pq : List ANode) (S : Finset (Int × Int))
    (inv : AStarInv w cols rows st en omap pq S)
    (cur : ANode) (pq2 : List ANode) (hpop : pqPop pq = (some cur, pq2))
    (hopt : ShortestSteps w cols rows st (cur.x, cur.y) cur.g)
    (hng : ¬ ((cur.x, cur.y) = en)) :
    AStarInv w cols rows st en (relaxAll w cols rows en cur (omap, pq2)).1
      (relaxAll w cols rows en cur (omap, pq2)).2 (insert (cur.x, cur.y) S) := by
  obtain ⟨hcurm, hsub⟩ := pqPop_subset pq cur pq2 hpop
  have hperm := pqPop_perm pq cur pq2 hpop
  obtain ⟨hchain, hf⟩ := inv.hpq cur hcurm
  have hib0 : inBounds cols rows cur.x cur.y = true :=
    chainOK_inb w cols rows st hst cur hchain
  have hstepsCur : Steps w cols rows st (cur.x, cur.y) cur.g :=
    chainOK_steps w cols rows st cur hchain
  have hnbF : ∀ nb ∈ neighborsW w cols rows cur.x cur.y,
      adjStep (cur.x, cur.y) nb ∧ inBounds cols rows nb.1 nb.2 = true ∧
        w nb.1 nb.2 = true :=
    fun nb h => mem_neighborsW_facts w cols rows hw cur.x cur.y nb h
  have hmemN : ∀ z2 : Int × Int, adjStep (cur.x, cur.y) z2 →
      inBounds cols rows z2.1 z2.2 = true → w z2.1 z2.2 = true →
      z2 ∈ neighborsW w cols rows cur.x cur.y :=
    fun z2 ha hi hw2 => adj_mem_neighborsW w cols rows cur.x cur.y z2 hib0 ha hi hw2
  have hchaN : ∀ nb : Int × Int, adjStep (cur.x, cur.y) nb →
      inBounds cols rows nb.1 nb.2 = true → w nb.1 nb.2 = true →
      ChainOK w cols rows st
        (ANode.mk nb.1 nb.2 (cur.g + 1) (cur.g + 1 + manh nb en) (some cur)) := by
    intro nb ha hi hw2
    have ha2 : adjStep (cur.x, cur.y) (nb.1, nb.2) := by rw [Prod.mk.eta]; exact ha
    exact ChainOK.step cur nb.1 nb.2 _ hchain ha2 hi hw2
  obtain ⟨nd0, hom0, hle0⟩ := inv.hbest cur hcurm
  have hlow0 : cur.g ≤ nd0.g := by
    obtain ⟨hco0, hch0, _⟩ := inv.homap (cur.x, cur.y) nd0 hom0
    have := chainOK_steps w cols rows st nd0 hch0
    rw [hco0] at this
    exact hopt.2 this
  have hg0 : nd0.g = cur.g := le_antisymm hle0 hlow0
  have homap2 : ∀ z nd, (relaxAll w cols rows en cur (omap, pq2)).1 z = some nd →
      (nd.x, nd.y) = z ∧ ChainOK w cols rows st nd ∧ nd.f = nd.g + manh z en := by
    intro z nd h
    rcases relaxAll_omap w cols rows en cur omap pq2 z with hsame |
      ⟨hmem, hset, hinpq, himp⟩
    · rw [hsame] at h
      exact inv.homap z nd h
    · rw [hset] at h
      injection h with h
      obtain ⟨ha, hi, hw2⟩ := hnbF z hmem
      subst h
      refine ⟨Prod.mk.eta, hchaN z ha hi hw2, rfl⟩
  have homapS2 : ∀ z nd, (relaxAll w cols rows en cur (omap, pq2)).1 z = some nd →
      Steps w cols rows st z nd.g := by
    intro z nd h
    obtain ⟨hco, hch, _⟩ := homap2 z nd h
    have := chainOK_steps w cols rows st nd hch
    rwa [hco] at this
  have hSexp2 : ∀ z ∈ insert (cur.x, cur.y) S, ∀ z2 : Int × Int, adjStep z z2 →
      inBounds cols rows z2.1 z2.2 = true → w z2.1 z2.2 = true →
      ∃ nd2 n, (relaxAll w cols rows en cur (omap, pq2)).1 z2 = some nd2 ∧
        ShortestSteps w cols rows st z n ∧ nd2.g ≤ n + 1 := by
    intro z hz z2 ha hi hw2
    rcases Finset.mem_insert.mp hz with heq | hzS
    · subst heq
      obtain ⟨nd2, hom2, hle2⟩ :=
        relaxAll_relaxed w cols rows en cur omap pq2 z2 (hmemN z2 ha hi hw2)
      exact ⟨nd2, cur.g, hom2, hopt, hle2⟩
    · obtain ⟨nd2, n, hom2, hdist2, hle2⟩ := inv.hSexp z hzS z2 ha hi hw2
      obtain ⟨nd1, hom1, hle1⟩ := relaxAll_mono w cols rows en cur omap pq2 z2 nd2 hom2
      exact ⟨nd1, n, hom1, hdist2, by omega⟩
  have hlive2 : ∀ z nd n, (relaxAll w cols rows en cur (omap, pq2)).1 z = some nd →
      ShortestSteps w cols rows st z n → nd.g = n →
      (∃ nd2 ∈ (relaxAll w cols rows en cur (omap, pq2)).2, (nd2.x, nd2.y) = z ∧
        nd2.g = n) ∨ z ∈ insert (cur.x, cur.y) S := by
    intro z nd n h hdist hg
    rcases relaxAll_omap w cols rows en cur omap pq2 z with hsame |
      ⟨hmem, hset, hinpq, himp⟩
    · rw [hsame] at h
      rcases inv.hlive z nd n h hdist hg with ⟨nd2, hnd2, hco, hgg⟩ | hzS
      · rcases List.mem_cons.mp (hperm.mem_iff.mp hnd2) with heq | h2
        · right
          subst heq
          rw [← hco]
          exact Finset.mem_insert_self _ _
        · exact Or.inl ⟨nd2, relaxAll_mem_pres w cols rows en cur omap pq2 nd2 h2,
            hco, hgg⟩
      · exact Or.inr (Finset.mem_insert_of_mem hzS)
    · rw [hset] at h
      injection h with h
      left
      refine ⟨ANode.mk z.1 z.2 (cur.g + 1) (cur.g + 1 + manh z en) (some cur),
        hinpq, Prod.mk.eta, ?_⟩
      rw [h]
      exact hg
  refine ⟨?_, ?_, homap2, ?_, ?_, ?_, hSexp2, ?_, hlive2, ?_, ?_⟩
  · exact relaxAll_heap w cols rows en cur omap pq2
      (pqPop_heapOrd pq inv.hheap cur pq2 hpop)
  · intro nd hnd
    rcases relaxAll_mem_src w cols rows en cur omap pq2 nd hnd with h2 |
      ⟨nb, hnbm, heq⟩
    · exact inv.hpq nd (hsub nd h2)
    · obtain ⟨ha, hi, hw2⟩ := hnbF nb hnbm
      subst heq
      refine ⟨hchaN nb ha hi hw2, ?_⟩
      show cur.g + 1 + manh nb en = cur.g + 1 + manh (nb.1, nb.2) en
      rw [Prod.mk.eta]
  · intro nd hnd
    rcases relaxAll_mem_src w cols rows en cur omap pq2 nd hnd with h2 |
      ⟨nb, hnbm, heq⟩
    · obtain ⟨nd0', hom', hle'⟩ := inv.hbest nd (hsub nd h2)
      obtain ⟨nd1, hom1, hle1⟩ :=
        relaxAll_mono w cols rows en cur omap pq2 (nd.x, nd.y) nd0' hom'
      exact ⟨nd1, hom1, by omega⟩
    · obtain ⟨nd2, hom2, hle2⟩ :=
        relaxAll_relaxed w cols rows en cur omap pq2 nb hnbm
      subst heq
      refine ⟨nd2, ?_, hle2⟩
      show (relaxAll w cols rows en cur (omap, pq2)).1 (nb.1, nb.2) = some nd2
      rw [Prod.mk.eta]
      exact hom2
  · intro z hz
    rcases Finset.mem_insert.mp hz with heq | hzS
    · subst heq
      exact hib0
    · exact inv.hSb z hzS
  · intro z hz
    rcases Finset.mem_insert.mp hz with heq | hzS
    · subst heq
      refine ⟨cur.g, nd0, hopt, ?_, hg0⟩
      rcases relaxAll_omap w cols rows en cur omap pq2 (cur.x, cur.y) with hsame |
        ⟨_, _, _, himp⟩
      · rw [hsame]
        exact hom0
      · have := himp nd0 hom0
        omega
    · obtain ⟨n, nd, hdist, hom, hg⟩ := inv.hSdist z hzS
      rcases relaxAll_omap w cols rows en cur omap pq2 z with hsame |
        ⟨hmem, hset, _, himp⟩
      · exact ⟨n, nd, hdist, by rw [hsame]; exact hom, hg⟩
      · exfalso
        obtain ⟨ha, hi, hw2⟩ := hnbF z hmem
        have hstep : Steps w cols rows st z (cur.g + 1) :=
          Steps.tail hstepsCur ha hi hw2
        have hub : n ≤ cur.g + 1 := hdist.2 hstep
        have := himp nd hom
        omega
  · intro z nd0' h
    rcases relaxAll_omap w cols rows en cur omap pq2 z with hsame |
      ⟨hmem, hset, hinpq, _⟩
    · rw [hsame] at h
      rcases inv.hI8 z nd0' h with hin | hrel
      · rcases List.mem_cons.mp (hperm.mem_iff.mp hin) with heq | h2
        · right
          have hzeq : (nd0'.x, nd0'.y) = z := (inv.homap z nd0' h).1
          rw [heq] at hzeq
          intro z2 ha hi hw2
          have ha2 : adjStep (cur.x, cur.y) z2 := by rw [hzeq]; exact ha
          obtain ⟨nd2, hom2, hle2⟩ := relaxAll_relaxed w cols rows en cur omap pq2
            z2 (hmemN z2 ha2 hi hw2)
          refine ⟨nd2, hom2, ?_⟩
          rw [heq]
          omega
        · exact Or.inl (relaxAll_mem_pres w cols rows en cur omap pq2 nd0' h2)
      · right
        intro z2 ha hi hw2
        obtain ⟨nd2, hom2, hle2⟩ := hrel z2 ha hi hw2
        obtain ⟨nd1, hom1, hle1⟩ := relaxAll_mono w cols rows en cur omap pq2 z2 nd2 hom2
        exact ⟨nd1, hom1, by omega⟩
    · rw [hset] at h
      injection h with h
      left
      rw [← h]
      exact hinpq
  · intro z2 hre hz2
    have hz2S : z2 ∉ S := fun hc => hz2 (Finset.mem_insert_of_mem hc)
    obtain ⟨y, a, b, hya, hyz, hzd, nd, hnd, hco, hg⟩ := inv.hfront z2 hre hz2S
    rcases List.mem_cons.mp (hperm.mem_iff.mp hnd) with heq | h2
    · rw [heq] at hco
      have hyS : y ∈ insert (cur.x, cur.y) S := by
        rw [← hco]
        exact Finset.mem_insert_self _ _
      exact step_found w cols rows st (relaxAll w cols rows en cur (omap, pq2)).1
        (relaxAll w cols rows en cur (omap, pq2)).2 (insert (cur.x, cur.y) S)
        homapS2 hSexp2 hlive2 b a y z2 hyS hya hyz hzd hz2
    · exact ⟨y, a, b, hya, hyz, hzd, nd,
        relaxAll_mem_pres w cols rows en cur omap pq2 nd h2, hco, hg⟩
  · intro hc
    rcases Finset.mem_insert.mp hc with heq | hS2
    · exact hng heq.symm
    · exact inv.hgoal hS2

lemma astar_init_inv (w : Walk) (cols rows : Int) (st en : Int × Int) :
    AStarInv w cols rows st en
      (omSet (fun _ => none) st (ANode.mk st.1 st.2 0 (manh st en) none))
      [ANode.mk st.1 st.2 0 (manh st en) none] ∅ := by
  have hom : ∀ z nd,
      omSet (fun _ => none) st (ANode.mk st.1 st.2 0 (manh st en) none) z = some nd →
      z = st ∧ nd = ANode.mk st.1 st.2 0 (manh st en) none := by
    intro z nd h
    rw [omSet] at h
    by_cases hz : z = st
    · rw [if_pos hz] at h
      injection h with h
      exact ⟨hz, h.symm⟩
    · rw [if_neg hz] at h
      exact absurd h (by simp)
  have homst : omSet (fun _ => none) st (ANode.mk st.1 st.2 0 (manh st en) none)
      (st.1, st.2) = some (ANode.mk st.1 st.2 0 (manh st en) none) := by
    rw [omSet, if_pos Prod.mk.eta]
  refine ⟨?_, ?_, ?_, ?_, ?_, ?_, ?_, ?_, ?_, ?_, Finset.not_mem_empty en⟩
  · intro j hj0 hjl
    simp only [List.length_cons, List.length_nil] at hjl
    omega
  · intro nd hnd
    rw [List.mem_singleton] at hnd
    subst hnd
    refine ⟨ChainOK.base (manh st en), ?_⟩
    show manh st en = 0 + manh (st.1, st.2) en
    rw [Prod.mk.eta, Nat.zero_add]
  · intro z nd h
    obtain ⟨hz, hnd⟩ := hom z nd h
    subst hnd
    rw [hz]
    refine ⟨Prod.mk.eta, ChainOK.base (manh st en), ?_⟩
    show manh st en = 0 + manh st en
    rw [Nat.zero_add]
  · intro nd hnd
    rw [List.mem_singleton] at hnd
    subst hnd
    exact ⟨ANode.mk st.1 st.2 0 (manh st en) none, homst, le_refl _⟩
  · intro z hz
    exact absurd hz (Finset.not_mem_empty z)
  · intro z hz
    exact absurd hz (Finset.not_mem_empty z)
  · intro z hz
    exact absurd hz (Finset.not_mem_empty z)
  · intro z nd0 h
    obtain ⟨hz, hnd⟩ := hom z nd0 h
    subst hnd
    exact Or.inl (List.mem_singleton.mpr rfl)
  · intro z nd n h hdist hg
    obtain ⟨hz, hnd⟩ := hom z nd h
    subst hnd
    rw [hz]
    exact Or.inl ⟨ANode.mk st.1 st.2 0 (manh st en) none,
      List.mem_singleton.mpr rfl, Prod.mk.eta, hg⟩
  · intro z hre hz
    obtain ⟨k, hk⟩ := hre
    obtain ⟨m, hm⟩ := reaches_shortest w cols rows st k z hk
    refine ⟨st, 0, m, ⟨Steps.refl, fun k2 hk2 => Nat.zero_le k2⟩, hm.1, ?_,
      ANode.mk st.1 st.2 0 (manh st en) none, List.mem_singleton.mpr rfl,
      Prod.mk.eta, rfl⟩
    rw [Nat.zero_add]
    exact hm

lemma astarLoop_succ_eq (w : Walk) (cols rows : Int) (en : Int × Int)
    (fuel : Nat) (omap : OpenMap) (steps : Nat) (a0 : ANode) (t : List ANode)
    (cur : ANode) (pq2 : List ANode) (hpop : pqPop (a0 :: t) = (some cur, pq2)) :
    astarLoop w cols rows en (fuel + 1) omap (a0 :: t) steps =
      if cur.x = en.1 ∧ cur.y = en.2 then (some (chainList cur).reverse, steps + 1)
      else astarLoop w cols rows en fuel
        (relaxAll w cols rows en cur (omap, pq2)).1
        (relaxAll w cols rows en cur (omap, pq2)).2 (steps + 1) := by
  rw [astarLoop]
  dsimp only
  rw [hpop]

lemma astarLoop_finds (w : Walk) (cols rows : Int) (st en : Int × Int)
    (hst : inBounds cols rows st.1 st.2 = true)
    (hw : ∀ x y, inBounds cols rows x y = false → w x y = false)
    (hreach : Reaches w cols rows st en) :
    ∀ (fuel : Nat) (omap : OpenMap) (pq : List ANode) (S : Finset (Int × Int))
      (steps : Nat),
      AStarInv w cols rows st en omap pq S →
      pq.length + 4 * ((boundsFinset cols rows).card - S.card) ≤ fuel →
      ∃ p n steps2, astarLoop w cols rows en fuel omap pq steps = (some p, steps2) ∧
        ShortestSteps w cols rows st en n ∧ p.length = n + 1 := by
  intro fuel
  induction fuel with
  | zero =>
    intro omap pq S steps inv hphi
    exfalso
    obtain ⟨y, a, b, hya, hyz, hzd, nd, hnd, hco, hgg⟩ :=
      inv.hfront en hreach inv.hgoal
    have h1 : 0 < pq.length := List.length_pos.mpr (List.ne_nil_of_mem hnd)
    omega
  | succ fuel ih =>
    intro omap pq S steps inv hphi
    cases pq with
    | nil =>
      exfalso
      obtain ⟨y, a, b, hya, hyz, hzd, nd, hnd, hco, hgg⟩ :=
        inv.hfront en hreach inv.hgoal
      exact List.not_mem_nil nd hnd
    | cons a0 t =>
      rcases hpop : pqPop (a0 :: t) with ⟨o, pq2⟩
      cases o with
      | none =>
        exfalso
        have hfst := pqPop_fst a0 t
        rw [hpop] at hfst
        simp at hfst
      | some cur =>
        rw [astarLoop_succ_eq w cols rows en fuel omap steps a0 t cur pq2 hpop]
        obtain ⟨hcurm, hsub⟩ := pqPop_subset (a0 :: t) cur pq2 hpop
        have hroot := pqPop_root_min (a0 :: t) inv.hheap cur pq2 hpop
        have hlen : (a0 :: t).length = pq2.length + 1 :=
          (pqPop_perm (a0 :: t) cur pq2 hpop).length_eq
        by_cases hgoal : cur.x = en.1 ∧ cur.y = en.2
        · rw [if_pos hgoal]
          have hzen : (cur.x, cur.y) = en := by
            obtain ⟨h1, h2⟩ := hgoal
            rw [h1, h2]
          have hopt := astar_pop_opt w cols rows st en omap (a0 :: t) S inv cur
            hcurm hroot (by rw [hzen]; exact inv.hgoal)
          rw [hzen] at hopt
          refine ⟨(chainList cur).reverse, cur.g, steps + 1, rfl, hopt, ?_⟩
          rw [List.length_reverse]
          exact chainOK_length w cols rows st cur (inv.hpq cur hcurm).1
        · rw [if_neg hgoal]
          by_cases hS : (cur.x, cur.y) ∈ S
          · obtain ⟨n, ndz, hdistz, homz, hgz⟩ := inv.hSdist (cur.x, cur.y) hS
            have hnle : n ≤ cur.g :=
              hdistz.2 (chainOK_steps w cols rows st cur (inv.hpq cur hcurm).1)
            have hrelaxed : ∀ z2 : Int × Int, adjStep (cur.x, cur.y) z2 →
                inBounds cols rows z2.1 z2.2 = true → w z2.1 z2.2 = true →
                ∃ nd2, omap z2 = some nd2 ∧ nd2.g ≤ cur.g + 1 := by
              intro z2 ha hi hw2
              obtain ⟨nd2, n2, hom2, hdist2, hle2⟩ :=
                inv.hSexp (cur.x, cur.y) hS z2 ha hi hw2
              have hn2 : n2 = n :=
                shortest_unique w cols rows st (cur.x, cur.y) n2 n hdist2 hdistz
              exact ⟨nd2, hom2, by omega⟩
            have hnoop : relaxAll w cols rows en cur (omap, pq2) = (omap, pq2) := by
              apply relaxAll_noop
              intro nb hnb
              obtain ⟨ha, hi, hw2⟩ :=
                mem_neighborsW_facts w cols rows hw cur.x cur.y nb hnb
              exact hrelaxed nb ha hi hw2
            rw [hnoop]
            have inv2 := astar_noop_inv w cols rows st en omap (a0 :: t) S inv cur
              pq2 hpop hrelaxed (fun _ => hS)
            exact ih omap pq2 S (steps + 1) inv2 (by omega)
          · have hopt := astar_pop_opt w cols rows st en omap (a0 :: t) S inv cur
              hcurm hroot hS
            have hng2 : ¬ ((cur.x, cur.y) = en) := by
              intro he
              exact hgoal ⟨congrArg Prod.fst he, congrArg Prod.snd he⟩
            have inv2 := astar_fresh_inv w cols rows st en hst hw omap (a0 :: t) S
              inv cur pq2 hpop hopt hng2
            have hcard : (insert (cur.x, cur.y) S).card = S.card + 1 :=
              Finset.card_insert_of_not_mem hS
            have hSle : (insert (cur.x, cur.y) S).card ≤
                (boundsFinset cols rows).card :=
              Finset.card_le_card
                (fun z hz => (mem_boundsFinset cols rows z).mpr (inv2.hSb z hz))
            have hplen := relaxAll_length w cols rows en cur omap pq2
            refine ih (relaxAll w cols rows en cur (omap, pq2)).1
              (relaxAll w cols rows en cur (omap, pq2)).2 (insert (cur.x, cur.y) S)
              (steps + 1) inv2 ?_
            rw [hcard]
            rw [hcard] at hSle
            omega

/-- C3: on a grid snapshot whose walkability is false outside the bounds, with
an in-bounds start and the goal reachable from the start over walkable cells,
the A* service returns a non-null path whose length is `n + 1` where `n` is
the shortest hop count an exhaustive BFS finds (so the returned path's length
equals the exhaustive-BFS shortest path's length): the Manhattan heuristic is
admissible and consistent, so the first goal expansion is optimal. -/
theorem astar_returns_shortest (w : Walk) (cols rows : Int) (st en : Int × Int)
    (hst : inBounds cols rows st.1 st.2 = true)
    (hw : ∀ x y, inBounds cols rows x y = false → w x y = false)
    (hreach : Reaches w cols rows st en) :
    ∃ p n, (astarRun w cols rows st en).1 = some p ∧
      ShortestSteps w cols rows st en n ∧ p.length = n + 1 := by
  have hb : 0 ≤ st.1 ∧ 0 ≤ st.2 ∧ st.1 < cols ∧ st.2 < rows := by
    simp only [inBounds, Bool.and_eq_true, decide_eq_true_eq] at hst
    exact ⟨hst.1.1.1, hst.1.1.2, hst.1.2, hst.2⟩
  have hcols : 0 < cols := by omega
  have hrows : 0 < rows := by omega
  have hc2 : ((cols.toNat : Int)) = cols := Int.toNat_of_nonneg (by omega)
  have hr2 : ((rows.toNat : Int)) = rows := Int.toNat_of_nonneg (by omega)
  have hV1 : 1 ≤ cols.toNat * rows.toNat := by
    have h1 : 0 < cols.toNat := by omega
    have h2 : 0 < rows.toNat := by omega
    exact Nat.mul_pos h1 h2
  have hfuel : (cols * rows * 10).toNat = cols.toNat * rows.toNat * 10 := by
    have h4 : cols * rows * 10 = ((cols.toNat * rows.toNat * 10 : Nat) : Int) := by
      push_cast
      rw [hc2, hr2]
    rw [h4, Int.toNat_natCast]
  have hphi : (pqPush [] (ANode.mk st.1 st.2 0 (manh st en) none)).length +
      4 * ((boundsFinset cols rows).card - (∅ : Finset (Int × Int)).card) ≤
      (cols * rows * 10).toNat := by
    rw [pqPush_length, card_boundsFinset, hfuel, Finset.card_empty,
      List.length_nil]
    set k := cols.toNat * rows.toNat with hk
    omega
  obtain ⟨p, n, steps2, hrun, hshort, hlen⟩ :=
    astarLoop_finds w cols rows st en hst hw hreach (cols * rows * 10).toNat
      (omSet (fun _ => none) st (ANode.mk st.1 st.2 0 (manh st en) none))
      (pqPush [] (ANode.mk st.1 st.2 0 (manh st en) none)) ∅ 0
      (astar_init_inv w cols rows st en) hphi
  refine ⟨p, n, ?_, hshort, hlen⟩
  show (astarLoop w cols rows en (cols * rows * 10).toNat
    (omSet (fun _ => none) st (ANode.mk st.1 st.2 0 (manh st en) none))
    (pqPush [] (ANode.mk st.1 st.2 0 (manh st en) none)) 0).1 = some p
  rw [hrun]

theorem astar_returns_shortest_witness :
    ∃ p n, (astarRun (fun x y => inBounds 2 1 x y) 2 1 (0, 0) (1, 0)).1 = some p ∧
      ShortestSteps (fun x y => inBounds 2 1 x y) 2 1 (0, 0) (1, 0) n ∧
      p.length = n + 1 :=
  astar_returns_shortest (fun x y => inBounds 2 1 x y) 2 1 (0, 0) (1, 0)
    (by decide) (fun x y h => h)
    ⟨1, Steps.tail Steps.refl (Or.inl (by norm_num)) (by decide) (by decide)⟩
